import Mathlib

/-!
The line rasterizer `preview_accel`, as a shallow embedding.

Source: `src/native/preview_accel/src/preview_accel.cpp`.

Modelling conventions.

* An `int` is an `Int` in the range of `IsInt32`.  Signed `int` arithmetic is 32-bit
  two's complement: every sum, difference and product of the tracer is reduced by
  `wrap_int32`, and `std::abs` of the least `int` is the least `int` (`abs_int32`).
  The C++ standard leaves signed overflow undefined; wrap-around is what the compiled
  code computes.
* Conversions whose wrap-around is defined are modelled modulo `2 ^ w`:
  `(std::uint8_t)` by `toUInt8`, `(unsigned)` by `toUnsigned` (32 bits) and
  `(size_t)` by `toSizeT` (64 bits).
* A `std::uint8_t` is a `Nat`; a byte buffer is a `List Nat`.  Reading or
  writing through a pointer outside the buffer is the fault `outOfBounds`.
* `while (true)` is run with a fuel counter: `outOfFuel` means the loop was
  still running after `fuel` iterations.  `ReturnsWith run v` says that the
  computation returns `v` whenever it is given enough fuel.
* The definitions whose name ends in `_exact`, and `line_states`, are the tracer with the
  32-bit reduction left out, over the mathematical integers: the reference for the bounds
  on the error term.  The code agrees with them for end points in `[-2^28, 2^28]`.
-/

namespace PreviewAccel

/-! ## Results of running the code -/

/-- The two ways a run of the model can fail to return a value. -/
inductive Fault where
  | outOfBounds
  | outOfFuel
  deriving DecidableEq, Repr

/-- The computation `run` returns `v` for every sufficiently large fuel. -/
def ReturnsWith {α : Type} (run : Nat → Except Fault α) (v : α) : Prop :=
  ∃ N : Nat, ∀ fuel : Nat, N ≤ fuel → run fuel = Except.ok v

/-! ## Machine conversions -/

/-- The values of a 32-bit `int`. -/
def IsInt32 (n : Int) : Prop := -2147483648 ≤ n ∧ n ≤ 2147483647

/-- The value of a 32-bit `int` computation whose exact result is `v`: `v` reduced modulo
`2 ^ 32` into the range of `int`. -/
def wrap_int32 (v : Int) : Int := (v + 2147483648) % 4294967296 - 2147483648

/-- The function `std::abs` on a 32-bit `int`. -/
def abs_int32 (v : Int) : Int := wrap_int32 (if v < 0 then -v else v)

/-- The cast `(std::uint8_t)v` of an `int`. -/
def toUInt8 (v : Int) : Nat := (v % 256).toNat

/-- The cast `(unsigned)v` of an `int`. -/
def toUnsigned (v : Int) : Nat := (v % 4294967296).toNat

/-- The cast `(size_t)v` of an `int`. -/
def toSizeT (v : Int) : Nat := (v % 18446744073709551616).toNat

/-- The absolute value of a mathematical integer. -/
def abs_int (v : Int) : Int := if v < 0 then -v else v

/-! ## The source, function by function -/

/-- Line 12: `clampi`. -/
def clampi (v lo hi : Int) : Int := if v < lo then lo else (if v > hi then hi else v)

/-- Lines 17-19: `(std::uint8_t)((c * a + 127) / 255)`, the operands promoted to `int`. -/
def premul (c a : Nat) : Nat := toUInt8 (Int.tdiv ((c : Int) * (a : Int) + 127) 255)

/-- Lines 30-33, right-hand side: `(std::uint8_t)(src + (dst * (255 - a)) / 255)`. -/
def over_byte (src a dst : Nat) : Nat :=
  toUInt8 ((src : Int) + Int.tdiv ((dst : Int) * (255 - (a : Int))) 255)

/-- Lines 30-33, one statement `p[k] = (std::uint8_t)(src + (p[k] * (255 - a)) / 255)`,
with `i` the index of `p[k]` in the buffer. -/
def blend_byte (buf : List Nat) (i src a : Nat) : Except Fault (List Nat) :=
  match buf[i]? with
  | none => Except.error Fault.outOfBounds
  | some dst => Except.ok (buf.set i (over_byte src a dst))

/-- Line 27: the index `((size_t)y0 * (size_t)W + (size_t)x0) * 4`, in `size_t` arithmetic. -/
def pixel_offset (W x0 y0 : Int) : Nat :=
  ((toSizeT y0 * toSizeT W + toSizeT x0) * 4) % 18446744073709551616

/-- Line 26: the guard `(unsigned)x0 < (unsigned)W && (unsigned)y0 < (unsigned)H`. -/
def in_canvas (W H x0 y0 : Int) : Bool :=
  decide (toUnsigned x0 < toUnsigned W) && decide (toUnsigned y0 < toUnsigned H)

/-- Lines 26-34: the guarded blend of the premultiplied colour into the pixel at `(x0, y0)`. -/
def plot (W H : Int) (pr pg pb a : Nat) (buf : List Nat) (x0 y0 : Int) :
    Except Fault (List Nat) :=
  if in_canvas W H x0 y0 then do
    let p := pixel_offset W x0 y0
    let buf ← blend_byte buf (p + 0) pb a
    let buf ← blend_byte buf (p + 1) pg a
    let buf ← blend_byte buf (p + 2) pr a
    blend_byte buf (p + 3) a a
  else
    Except.ok buf

/-- Lines 25-39: the loop of `draw_line`, in 32-bit `int` arithmetic.  `visit` stands for
what is done at the current coordinate (lines 26-34) and `s` for the state it acts on. -/
def draw_line_loop {σ : Type} (visit : σ → Int → Int → Except Fault σ)
    (x1 y1 dx sx dy sy : Int) : Nat → σ → Int → Int → Int → Except Fault σ
  | 0, _, _, _, _ => Except.error Fault.outOfFuel
  | fuel + 1, s, x0, y0, err =>
    match visit s x0 y0 with
    | Except.error e => Except.error e
    | Except.ok s1 =>
      if x0 = x1 ∧ y0 = y1 then Except.ok s1
      else
        let e2 := wrap_int32 (2 * err)
        let err1 := if e2 ≥ dy then wrap_int32 (err + dy) else err
        let x0n := if e2 ≥ dy then wrap_int32 (x0 + sx) else x0
        let err2 := if e2 ≤ dx then wrap_int32 (err1 + dx) else err1
        let y0n := if e2 ≤ dx then wrap_int32 (y0 + sy) else y0
        draw_line_loop visit x1 y1 dx sx dy sy fuel s1 x0n y0n err2

/-- Lines 21-39: the set-up of the tracer, in 32-bit `int` arithmetic, followed by its
loop. -/
def trace_line {σ : Type} (visit : σ → Int → Int → Except Fault σ) (fuel : Nat) (s : σ)
    (x0 y0 x1 y1 : Int) : Except Fault σ :=
  let dx := abs_int32 (wrap_int32 (x1 - x0))
  let sx : Int := if x0 < x1 then 1 else -1
  let dy := wrap_int32 (-abs_int32 (wrap_int32 (y1 - y0)))
  let sy : Int := if y0 < y1 then 1 else -1
  let err := wrap_int32 (dx + dy)
  draw_line_loop visit x1 y1 dx sx dy sy fuel s x0 y0 err

/-- Lines 15-40: `draw_line`. -/
def draw_line (fuel : Nat) (buf : List Nat) (W H x0 y0 x1 y1 : Int) (r g b a : Nat) :
    Except Fault (List Nat) :=
  let pr := premul r a
  let pg := premul g a
  let pb := premul b a
  trace_line (plot W H pr pg pb a) fuel buf x0 y0 x1 y1

/-- The coordinates at which the loop of `draw_line` arrives, in order: the same
loop, recording the coordinate instead of blending into it. -/
def draw_line_visits (fuel : Nat) (x0 y0 x1 y1 : Int) : Except Fault (List (Int × Int)) :=
  trace_line (fun tr x y => Except.ok (tr ++ [(x, y)])) fuel [] x0 y0 x1 y1

/-- Line 42: `struct Seg`. -/
structure Seg where
  x0 : Int
  y0 : Int
  x1 : Int
  y1 : Int
  deriving DecidableEq, Repr

/-- Lines 43-47: `struct FileSegments`; `rgba` is the array `{r, g, b, a}`. -/
structure FileSegments where
  lines : List Seg
  rgba : Int × Int × Int × Int
  visible : Bool := true
  deriving DecidableEq, Repr

/-- Lines 55-62: the body of the loop over `files`. -/
def render_file (fuel : Nat) (view_w view_h : Int) (img : List Nat) (f : FileSegments) :
    Except Fault (List Nat) :=
  if !f.visible || f.lines.isEmpty then Except.ok img
  else
    let r := toUInt8 (clampi f.rgba.1 0 255)
    let g := toUInt8 (clampi f.rgba.2.1 0 255)
    let b := toUInt8 (clampi f.rgba.2.2.1 0 255)
    let a := toUInt8 (clampi f.rgba.2.2.2 0 255)
    f.lines.foldlM
      (fun img s => draw_line fuel img view_w view_h s.x0 s.y0 s.x1 s.y1 r g b a) img

/-- Lines 49-65: `rasterize_geometry`; `py::bytes` is the list of its bytes. -/
def rasterize_geometry (fuel : Nat) (view_w view_h : Int) (files : List FileSegments) :
    Except Fault (List Nat) :=
  if view_w ≤ 0 ∨ view_h ≤ 0 then Except.ok []
  else
    let img := List.replicate ((toSizeT view_w * toSizeT view_h * 4) % 18446744073709551616) 0
    files.foldlM (render_file fuel view_w view_h) img

/-- The coordinates at which the first `n` iterations of the loop of `draw_line` arrive
(fewer when the loop stops earlier): lines 25-39 in 32-bit `int` arithmetic, cut off after
`n` iterations. -/
def line_first_visits (x1 y1 dx sx dy sy : Int) : Nat → Int → Int → Int → List (Int × Int)
  | 0, _, _, _ => []
  | n + 1, x0, y0, err =>
    if x0 = x1 ∧ y0 = y1 then [(x0, y0)]
    else
      let e2 := wrap_int32 (2 * err)
      let err1 := if e2 ≥ dy then wrap_int32 (err + dy) else err
      let x0n := if e2 ≥ dy then wrap_int32 (x0 + sx) else x0
      let err2 := if e2 ≤ dx then wrap_int32 (err1 + dx) else err1
      let y0n := if e2 ≤ dx then wrap_int32 (y0 + sy) else y0
      (x0, y0) :: line_first_visits x1 y1 dx sx dy sy n x0n y0n err2

/-- Lines 21-39: the set-up of the tracer, then the coordinates of its first `n`
iterations. -/
def draw_line_first_visits (n : Nat) (x0 y0 x1 y1 : Int) : List (Int × Int) :=
  let dx := abs_int32 (wrap_int32 (x1 - x0))
  let sx : Int := if x0 < x1 then 1 else -1
  let dy := wrap_int32 (-abs_int32 (wrap_int32 (y1 - y0)))
  let sy : Int := if y0 < y1 then 1 else -1
  let err := wrap_int32 (dx + dy)
  line_first_visits x1 y1 dx sx dy sy n x0 y0 err

/-- Lines 15-39 cut off after `n` iterations of the loop: the buffer as the blends of the
first `n` iterations (of all iterations, when the loop stops earlier) leave it. -/
def draw_line_steps (n : Nat) (buf : List Nat) (W H x0 y0 x1 y1 : Int) (r g b a : Nat) :
    Except Fault (List Nat) :=
  let pr := premul r a
  let pg := premul g a
  let pb := premul b a
  (draw_line_first_visits n x0 y0 x1 y1).foldlM
    (fun buf c => plot W H pr pg pb a buf c.1 c.2) buf

/-! ## The tracer over the mathematical integers -/

/-- The coordinates the loop of `draw_line` passes through from `(x0, y0)` with error term
`err`, in 32-bit `int` arithmetic: `none` when `fuel` iterations do not reach `(x1, y1)`. -/
def line_path (x1 y1 dx sx dy sy : Int) : Nat → Int → Int → Int → Option (List (Int × Int))
  | 0, _, _, _ => none
  | fuel + 1, x0, y0, err =>
    if x0 = x1 ∧ y0 = y1 then some [(x0, y0)]
    else
      let e2 := wrap_int32 (2 * err)
      let err1 := if e2 ≥ dy then wrap_int32 (err + dy) else err
      let x0n := if e2 ≥ dy then wrap_int32 (x0 + sx) else x0
      let err2 := if e2 ≤ dx then wrap_int32 (err1 + dx) else err1
      let y0n := if e2 ≤ dx then wrap_int32 (y0 + sy) else y0
      (line_path x1 y1 dx sx dy sy fuel x0n y0n err2).map (fun tr => (x0, y0) :: tr)

/-- The invariant of the loop, in terms of the steps still to take: `p` in `x`, `q` in `y`,
for a segment with `a = |x1 - x0|` and `b = |y1 - y0|`. -/
structure TraceInv (a b p q err : Int) : Prop where
  p_nonneg : 0 ≤ p
  p_le : p ≤ a
  q_nonneg : 0 ≤ q
  q_le : q ≤ b
  err_eq : err = a - b + b * p - a * q
  x_major : b ≤ a → -b ≤ 2 * err ∧ q ≤ p
  y_major : a ≤ b → 2 * err ≤ a ∧ p ≤ q

/-- The coordinates `draw_line_loop_exact` passes through from `(x0, y0)` with error term
`err`: `none` when `fuel` iterations do not reach `(x1, y1)`. -/
def line_path_exact (x1 y1 dx sx dy sy : Int) : Nat → Int → Int → Int → Option (List (Int × Int))
  | 0, _, _, _ => none
  | fuel + 1, x0, y0, err =>
    if x0 = x1 ∧ y0 = y1 then some [(x0, y0)]
    else
      let e2 := 2 * err
      let err1 := if e2 ≥ dy then err + dy else err
      let x0n := if e2 ≥ dy then x0 + sx else x0
      let err2 := if e2 ≤ dx then err1 + dx else err1
      let y0n := if e2 ≤ dx then y0 + sy else y0
      (line_path_exact x1 y1 dx sx dy sy fuel x0n y0n err2).map (fun tr => (x0, y0) :: tr)

/-- What one iteration does to the coordinate, for a segment with `a = |x1 - x0|`,
`b = |y1 - y0|` and step directions `sx`, `sy`. -/
def Adjacent (a b sx sy : Int) (c d : Int × Int) : Prop :=
  (d.1 = c.1 ∨ d.1 = c.1 + sx) ∧ (d.2 = c.2 ∨ d.2 = c.2 + sy) ∧ d ≠ c ∧
    (b ≤ a → d.1 = c.1 + sx) ∧ (a ≤ b → d.2 = c.2 + sy)

/-- What is known of the path `tr` that starts `p` steps in `x` and `q` steps in `y`
away from `(x1, y1)`. -/
structure PathFrom (x1 y1 a b sx sy p q : Int) (n : Nat) (tr : List (Int × Int)) : Prop where
  length_eq : tr.length = n + 1
  head_eq : tr.head? = some (x1 - sx * p, y1 - sy * q)
  last_eq : tr.getLast? = some (x1, y1)
  chain : List.Chain' (Adjacent a b sx sy) tr
  within : ∀ c ∈ tr, ∃ p2 q2 : Int, 0 ≤ p2 ∧ p2 ≤ p ∧ 0 ≤ q2 ∧ q2 ≤ q ∧ max p2 q2 ≤ n ∧
    c = (x1 - sx * p2, y1 - sy * q2)
  nodup : tr.Nodup

/-- The coordinate lies in `[-2^28, 2^28]`. -/
def InRange28 (v : Int) : Prop := -268435456 ≤ v ∧ v ≤ 268435456

instance (v : Int) : Decidable (InRange28 v) := by
  unfold InRange28; infer_instance

/-- The source byte blended into channel `k` of a pixel: `p[0]` takes `pb`, `p[1]` takes
`pg`, `p[2]` takes `pr` and `p[3]` takes `a`. -/
def channel_src (pr pg pb a : Nat) (k : Nat) : Nat :=
  match k with
  | 0 => pb
  | 1 => pg
  | 2 => pr
  | _ => a

/-- The canvas coordinates: `0 ≤ x < W` and `0 ≤ y < H`. -/
def OnCanvas (W H x y : Int) : Prop := 0 ≤ x ∧ x < W ∧ 0 ≤ y ∧ y < H

instance (W H x y : Int) : Decidable (OnCanvas W H x y) := by
  unfold OnCanvas; infer_instance

instance (n : Int) : Decidable (IsInt32 n) := by
  unfold IsInt32; infer_instance

/-- The byte offset `4 * (y * W + x)` of the pixel `(x, y)` of a canvas `W` wide. -/
def pixel_index (W x y : Int) : Nat := (4 * (y * W + x)).toNat

/-- The four bytes `[B, G, R, A]` of the pixel `(x, y)`. -/
def pixel_at (buf : List Nat) (W x y : Int) : List Nat := (buf.drop (pixel_index W x y)).take 4

/-- Every element is the value of a `std::uint8_t`. -/
def IsBytes (buf : List Nat) : Prop := ∀ v ∈ buf, v < 256

/-- Every pixel is a premultiplied colour: its `B`, `G` and `R` are at most its `A`. -/
def Premultiplied (buf : List Nat) : Prop :=
  ∀ i : Nat, 4 * i + 3 < buf.length →
    buf.getD (4 * i) 0 ≤ buf.getD (4 * i + 3) 0 ∧
    buf.getD (4 * i + 1) 0 ≤ buf.getD (4 * i + 3) 0 ∧
    buf.getD (4 * i + 2) 0 ≤ buf.getD (4 * i + 3) 0

/-- The coordinates of a segment lie in `[-2^28, 2^28]`. -/
def SegInRange28 (s : Seg) : Prop :=
  InRange28 s.x0 ∧ InRange28 s.y0 ∧ InRange28 s.x1 ∧ InRange28 s.y1

/-- The coordinates of all segments of all groups lie in `[-2^28, 2^28]`. -/
def FilesInRange28 (files : List FileSegments) : Prop :=
  ∀ f ∈ files, ∀ s ∈ f.lines, SegInRange28 s

instance (s : Seg) : Decidable (SegInRange28 s) := by
  unfold SegInRange28; infer_instance

instance (files : List FileSegments) : Decidable (FilesInRange28 files) := by
  unfold FilesInRange28; infer_instance

/-- The coordinates of a segment are values of `int`. -/
def SegInt32 (s : Seg) : Prop := IsInt32 s.x0 ∧ IsInt32 s.y0 ∧ IsInt32 s.x1 ∧ IsInt32 s.y1

/-- The coordinates of all segments of all groups are values of `int`. -/
def FilesInt32 (files : List FileSegments) : Prop := ∀ f ∈ files, ∀ s ∈ f.lines, SegInt32 s

instance (s : Seg) : Decidable (SegInt32 s) := by
  unfold SegInt32; infer_instance

instance (files : List FileSegments) : Decidable (FilesInt32 files) := by
  unfold FilesInt32; infer_instance

/-- The state of the image buffer of a `W * H` canvas. -/
structure CanvasOK (W H : Int) (buf : List Nat) : Prop where
  length_eq : (buf.length : Int) = W * H * 4
  bytes : IsBytes buf
  premultiplied : Premultiplied buf

/-- The buffer `out` differs from `buf` only inside the pixels of the canvas that are among
the coordinates `tr`. -/
def FrameKept (W H : Int) (buf out : List Nat) (tr : List (Int × Int)) : Prop :=
  out.length = buf.length ∧
  (∀ x y : Int, OnCanvas W H x y → (x, y) ∉ tr → pixel_at out W x y = pixel_at buf W x y) ∧
  (∀ j : Nat, (∀ c ∈ tr, OnCanvas W H c.1 c.2 →
      j < pixel_index W c.1 c.2 ∨ pixel_index W c.1 c.2 + 3 < j) → out[j]? = buf[j]?) ∧
  ((∀ c ∈ tr, ¬OnCanvas W H c.1 c.2) → out = buf)

/-- The coordinates the loop of `draw_line` visits for the segment `s`: what
`draw_line_visits` returns with `max(|x1 - x0|, |y1 - y0|) + 1` iterations of fuel, which
are all the iterations of a segment with coordinates in `[-2^28, 2^28]` (and no coordinate
when the loop has not stopped by then). -/
def segment_visits (s : Seg) : List (Int × Int) :=
  match draw_line_visits ((max (abs_int (s.x1 - s.x0)) (abs_int (s.y1 - s.y0))).toNat + 1)
      s.x0 s.y0 s.x1 s.y1 with
  | Except.ok tr => tr
  | Except.error _ => []

/-- The coordinates visited for the segments of a group, segment after segment. -/
def group_visits (f : FileSegments) : List (Int × Int) := f.lines.flatMap segment_visits

/-- The number of times rendering the group `f` blends into the pixel `(x, y)`. -/
def group_count (f : FileSegments) (x y : Int) : Nat :=
  if f.visible then (group_visits f).count (x, y) else 0

/-- The group `f` with each of its four channels `v` replaced by `max 0 (min 255 v)`. -/
def clamp_rgba (f : FileSegments) : FileSegments :=
  { f with rgba := (max 0 (min 255 f.rgba.1), max 0 (min 255 f.rgba.2.1),
      max 0 (min 255 f.rgba.2.2.1), max 0 (min 255 f.rgba.2.2.2)) }

/-- The coordinates the loop of `draw_line` visits for the segment `s` when it stops within
`fuel` iterations (and no coordinate when it does not). -/
def segment_visits_within (fuel : Nat) (s : Seg) : List (Int × Int) :=
  match draw_line_visits fuel s.x0 s.y0 s.x1 s.y1 with
  | Except.ok tr => tr
  | Except.error _ => []

/-- The compositing step of C18, in the claim's words: the private buffer `src` is laid over
`dst` pixel by pixel, `out.c = src.c + dst.c * (255 - src.A) / 255` for `c` in `B, G, R, A`,
with truncating division and `src.A` the stored alpha byte of the private pixel. -/
def private_composite_over (dst src : List Nat) : List Nat :=
  (List.range dst.length).map (fun j =>
    src.getD j 0 + dst.getD j 0 * (255 - src.getD (4 * (j / 4) + 3) 0) / 255)

/-- The first stage of C18: every group rendered alone by `rasterize_geometry`, on a zeroed
canvas of its own. -/
def private_buffers (fuel : Nat) (view_w view_h : Int) :
    List FileSegments → Except Fault (List (List Nat))
  | [] => Except.ok []
  | f :: fs =>
    match rasterize_geometry fuel view_w view_h [f] with
    | Except.error e => Except.error e
    | Except.ok b =>
      match private_buffers fuel view_w view_h fs with
      | Except.error e => Except.error e
      | Except.ok bs => Except.ok (b :: bs)

/-- The rendering of C18: the private buffers of the groups, composited in caller order
onto a zeroed canvas. -/
def rasterize_private (fuel : Nat) (view_w view_h : Int) (files : List FileSegments) :
    Except Fault (List Nat) :=
  match private_buffers fuel view_w view_h files with
  | Except.error e => Except.error e
  | Except.ok bufs =>
    Except.ok (bufs.foldl private_composite_over
      (List.replicate (view_w * view_h * 4).toNat 0))

/-- The group `f` is invisible, or its alpha is at most 0 or at least 255, or no two of the
coordinates it visits on the canvas are equal. -/
def SingleCoverage (W H : Int) (f : FileSegments) : Prop :=
  f.visible = false ∨ f.rgba.2.2.2 ≤ 0 ∨ 255 ≤ f.rgba.2.2.2 ∨
    ((group_visits f).filter (fun c => decide (OnCanvas W H c.1 c.2))).Nodup

instance (W H : Int) (f : FileSegments) : Decidable (SingleCoverage W H f) := by
  unfold SingleCoverage; infer_instance

theorem wrap_int32_eq {v : Int} (h : IsInt32 v) : wrap_int32 v = v := by
  unfold IsInt32 at h
  unfold wrap_int32
  omega

theorem wrap_int32_isInt32 (v : Int) : IsInt32 (wrap_int32 v) := by
  unfold IsInt32 wrap_int32
  omega

/-! ## The tracer: the path of the loop -/

/-- The loop does to its state what folding `visit` over the path does. -/
theorem draw_line_loop_eq_foldlM {σ : Type} (visit : σ → Int → Int → Except Fault σ)
    (x1 y1 dx sx dy sy : Int) :
    ∀ (fuel : Nat) (s : σ) (x0 y0 err : Int) (tr : List (Int × Int)),
      line_path x1 y1 dx sx dy sy fuel x0 y0 err = some tr →
      draw_line_loop visit x1 y1 dx sx dy sy fuel s x0 y0 err
        = tr.foldlM (fun s c => visit s c.1 c.2) s := by
  intro fuel
  induction fuel with
  | zero => intro s x0 y0 err tr h; simp [line_path] at h
  | succ n ih =>
    intro s x0 y0 err tr h
    rw [line_path] at h
    rw [draw_line_loop]
    by_cases hend : x0 = x1 ∧ y0 = y1
    · rw [if_pos hend] at h
      cases h
      obtain ⟨hx, hy⟩ := hend
      subst hx hy
      cases hv : visit s x0 y0 with
      | error e => simp [List.foldlM, hv, bind, Except.bind]
      | ok s1 => simp [List.foldlM, hv, bind, Except.bind, pure, Except.pure]
    · rw [if_neg hend] at h
      simp only [Option.map_eq_some'] at h
      obtain ⟨tl, htl, rfl⟩ := h
      cases hv : visit s x0 y0 with
      | error e => simp [List.foldlM, hv, bind, Except.bind]
      | ok s1 =>
        simp only [if_neg hend, List.foldlM, hv, bind, Except.bind]
        exact ih s1 _ _ _ tl htl

/-- While the path is not complete the loop does what folding `visit` over the
coordinates of its first `fuel` iterations does, and then runs out of fuel. -/
theorem draw_line_loop_unfinished {σ : Type} (visit : σ → Int → Int → Except Fault σ)
    (x1 y1 dx sx dy sy : Int) :
    ∀ (fuel : Nat) (s : σ) (x0 y0 err : Int),
      line_path x1 y1 dx sx dy sy fuel x0 y0 err = none →
      draw_line_loop visit x1 y1 dx sx dy sy fuel s x0 y0 err
        = (match (line_first_visits x1 y1 dx sx dy sy fuel x0 y0 err).foldlM
              (fun s c => visit s c.1 c.2) s with
          | Except.error e => Except.error e
          | Except.ok _ => Except.error Fault.outOfFuel) := by
  intro fuel
  induction fuel with
  | zero =>
    intro s x0 y0 err _
    simp [draw_line_loop, line_first_visits, List.foldlM, pure, Except.pure]
  | succ n ih =>
    intro s x0 y0 err h
    rw [line_path] at h
    by_cases hend : x0 = x1 ∧ y0 = y1
    · rw [if_pos hend] at h
      cases h
    · rw [if_neg hend] at h
      simp only [Option.map_eq_none'] at h
      rw [draw_line_loop, line_first_visits, if_neg hend]
      cases hv : visit s x0 y0 with
      | error e => simp [List.foldlM, hv, bind, Except.bind]
      | ok s1 =>
        simp only [if_neg hend, List.foldlM, hv, bind, Except.bind]
        exact ih s1 _ _ _ h

/-- A complete path is the list of the coordinates of the iterations run. -/
theorem line_path_eq_first_visits (x1 y1 dx sx dy sy : Int) :
    ∀ (fuel : Nat) (x0 y0 err : Int) (tr : List (Int × Int)),
      line_path x1 y1 dx sx dy sy fuel x0 y0 err = some tr →
      line_first_visits x1 y1 dx sx dy sy fuel x0 y0 err = tr := by
  intro fuel
  induction fuel with
  | zero => intro x0 y0 err tr h; simp [line_path] at h
  | succ n ih =>
    intro x0 y0 err tr h
    rw [line_path] at h
    rw [line_first_visits]
    by_cases hend : x0 = x1 ∧ y0 = y1
    · rw [if_pos hend] at h
      rw [if_pos hend]
      exact Option.some.inj h
    · rw [if_neg hend] at h
      simp only [Option.map_eq_some'] at h
      obtain ⟨tl, htl, rfl⟩ := h
      rw [if_neg hend]
      simp only []
      rw [ih _ _ _ tl htl]

/-- More fuel does not change a complete path. -/
theorem line_path_mono (x1 y1 dx sx dy sy : Int) :
    ∀ (fuel : Nat) (x0 y0 err : Int) (tr : List (Int × Int)),
      line_path x1 y1 dx sx dy sy fuel x0 y0 err = some tr →
      ∀ more : Nat, fuel ≤ more → line_path x1 y1 dx sx dy sy more x0 y0 err = some tr := by
  intro fuel
  induction fuel with
  | zero => intro x0 y0 err tr h; simp [line_path] at h
  | succ n ih =>
    intro x0 y0 err tr h more hmore
    obtain ⟨m, rfl⟩ : ∃ m, more = m + 1 := ⟨more - 1, by omega⟩
    rw [line_path] at h ⊢
    by_cases hend : x0 = x1 ∧ y0 = y1
    · rw [if_pos hend] at h ⊢
      exact h
    · rw [if_neg hend] at h ⊢
      simp only [Option.map_eq_some'] at h ⊢
      obtain ⟨tl, htl, rfl⟩ := h
      exact ⟨tl, ih _ _ _ tl htl m (by omega), rfl⟩

/-- A complete path has at most `fuel` coordinates. -/
theorem line_path_length (x1 y1 dx sx dy sy : Int) :
    ∀ (fuel : Nat) (x0 y0 err : Int) (tr : List (Int × Int)),
      line_path x1 y1 dx sx dy sy fuel x0 y0 err = some tr → tr.length ≤ fuel := by
  intro fuel
  induction fuel with
  | zero => intro x0 y0 err tr h; simp [line_path] at h
  | succ n ih =>
    intro x0 y0 err tr h
    rw [line_path] at h
    by_cases hend : x0 = x1 ∧ y0 = y1
    · rw [if_pos hend] at h
      cases h
      simp
    · rw [if_neg hend] at h
      simp only [Option.map_eq_some'] at h
      obtain ⟨tl, htl, rfl⟩ := h
      have := ih _ _ _ tl htl
      simp only [List.length_cons]
      omega

/-- With fewer iterations than the path has coordinates the path is not complete. -/
theorem line_path_short (x1 y1 dx sx dy sy : Int) (fuel full : Nat) (x0 y0 err : Int)
    (tr : List (Int × Int)) (h : line_path x1 y1 dx sx dy sy full x0 y0 err = some tr)
    (hlt : fuel < tr.length) : line_path x1 y1 dx sx dy sy fuel x0 y0 err = none := by
  cases hp : line_path x1 y1 dx sx dy sy fuel x0 y0 err with
  | none => rfl
  | some tr2 =>
    have hlen := line_path_length _ _ _ _ _ _ fuel _ _ _ tr2 hp
    have h1 := line_path_mono _ _ _ _ _ _ fuel _ _ _ tr2 hp (max fuel full) (le_max_left _ _)
    have h2 := line_path_mono _ _ _ _ _ _ full _ _ _ tr h (max fuel full) (le_max_right _ _)
    rw [h1] at h2
    cases h2
    omega

/-- The coordinates of the iterations are values of a 32-bit `int`. -/
theorem line_first_visits_int32 (x1 y1 dx sx dy sy : Int) :
    ∀ (n : Nat) (x0 y0 err : Int), IsInt32 x0 → IsInt32 y0 →
      ∀ c ∈ line_first_visits x1 y1 dx sx dy sy n x0 y0 err, IsInt32 c.1 ∧ IsInt32 c.2 := by
  intro n
  induction n with
  | zero => intro x0 y0 err _ _ c hc; simp [line_first_visits] at hc
  | succ n ih =>
    intro x0 y0 err hx hy c hc
    rw [line_first_visits] at hc
    by_cases hend : x0 = x1 ∧ y0 = y1
    · rw [if_pos hend] at hc
      rw [List.mem_singleton] at hc
      subst hc
      exact ⟨hx, hy⟩
    · rw [if_neg hend] at hc
      rcases List.mem_cons.1 hc with rfl | hc
      · exact ⟨hx, hy⟩
      · refine ih _ _ _ ?_ ?_ c hc
        · split
          · exact wrap_int32_isInt32 _
          · exact hx
        · split
          · exact wrap_int32_isInt32 _
          · exact hy

theorem TraceInv.init (a b : Int) (ha : 0 ≤ a) (hb : 0 ≤ b) : TraceInv a b a b (a + -b) where
  p_nonneg := ha
  p_le := le_refl a
  q_nonneg := hb
  q_le := le_refl b
  err_eq := by ring
  x_major := fun h => ⟨by omega, h⟩
  y_major := fun h => ⟨by omega, h⟩

/-- One iteration from a state that is not the end point: the invariant is kept, the
dominant axis advances, and the number of iterations still to run drops by one. -/
theorem TraceInv.step {a b p q err : Int} (h : TraceInv a b p q err) (hne : ¬(p = 0 ∧ q = 0)) :
    TraceInv a b (if 2 * err ≥ -b then p - 1 else p) (if 2 * err ≤ a then q - 1 else q)
        (if 2 * err ≤ a then (if 2 * err ≥ -b then err + -b else err) + a
          else (if 2 * err ≥ -b then err + -b else err))
      ∧ (b ≤ a → 2 * err ≥ -b) ∧ (a ≤ b → 2 * err ≤ a)
      ∧ (2 * err ≥ -b ∨ 2 * err ≤ a)
      ∧ max (if 2 * err ≥ -b then p - 1 else p) (if 2 * err ≤ a then q - 1 else q) + 1
          = max p q := by
  obtain ⟨hp0, hpa, hq0, hqb, herr, hx, hy⟩ := h
  have ha : 0 ≤ a := le_trans hp0 hpa
  have hb : 0 ≤ b := le_trans hq0 hqb
  by_cases fx : 2 * err ≥ -b <;> by_cases fy : 2 * err ≤ a
  · -- both axes advance
    have hp1 : 1 ≤ p := by
      by_contra hcon
      have hp : p = 0 := by omega
      have hq1 : 1 ≤ q := by omega
      have := mul_nonneg ha (by omega : (0:Int) ≤ q - 1)
      subst hp
      nlinarith
    have hq1 : 1 ≤ q := by
      by_contra hcon
      have hq : q = 0 := by omega
      have := mul_nonneg hb (by omega : (0:Int) ≤ p - 1)
      subst hq
      nlinarith
    simp only [if_pos fx, if_pos fy]
    refine ⟨⟨by omega, by omega, by omega, by omega, by rw [herr]; ring, ?_, ?_⟩,
      fun _ => fx, fun _ => fy, Or.inl fx, by omega⟩
    · intro hba
      have := hx hba
      constructor <;> omega
    · intro hab
      have := hy hab
      constructor <;> omega
  · -- only x advances
    have hlt : b < a := by
      by_contra hcon
      exact fy (hy (by omega)).1
    have hqp := (hx (le_of_lt hlt)).2
    have hp1 : 1 ≤ p := by
      by_contra hcon
      have hp : p = 0 := by omega
      have hq : q = 0 := by omega
      exact hne ⟨hp, hq⟩
    have hqlt : q < p := by
      by_contra hcon
      have hq : q = p := by omega
      have := mul_nonneg (by omega : (0:Int) ≤ a - b) (by omega : (0:Int) ≤ p - 1)
      subst hq
      nlinarith
    simp only [if_pos fx, if_neg fy]
    refine ⟨⟨by omega, by omega, by omega, by omega, by rw [herr]; ring, ?_, ?_⟩,
      fun _ => fx, fun h => absurd h (by omega), Or.inl fx, by omega⟩
    · intro _
      constructor <;> omega
    · intro hab
      omega
  · -- only y advances
    have hlt : a < b := by
      by_contra hcon
      exact fx (hx (by omega)).1
    have hpq := (hy (le_of_lt hlt)).2
    have hq1 : 1 ≤ q := by
      by_contra hcon
      have hq : q = 0 := by omega
      have hp : p = 0 := by omega
      exact hne ⟨hp, hq⟩
    have hplt : p < q := by
      by_contra hcon
      have hp : p = q := by omega
      have := mul_nonneg (by omega : (0:Int) ≤ b - a) (by omega : (0:Int) ≤ q - 1)
      subst hp
      nlinarith
    simp only [if_neg fx, if_pos fy]
    refine ⟨⟨by omega, by omega, by omega, by omega, by rw [herr]; ring, ?_, ?_⟩,
      fun h => absurd h (by omega), fun _ => fy, Or.inr fy, by omega⟩
    · intro hba
      omega
    · intro _
      constructor <;> omega
  · omega

/-! ## The path over the mathematical integers -/

theorem line_path_exact_spec (x1 y1 a b sx sy : Int) (hsx : sx = 1 ∨ sx = -1)
    (hsy : sy = 1 ∨ sy = -1) :
    ∀ (n : Nat) (p q err : Int), TraceInv a b p q err → max p q = (n : Int) →
      ∃ tr : List (Int × Int),
        (∀ fuel : Nat, n + 1 ≤ fuel →
          line_path_exact x1 y1 a sx (-b) sy fuel (x1 - sx * p) (y1 - sy * q) err = some tr) ∧
        PathFrom x1 y1 a b sx sy p q n tr := by
  intro n
  induction n with
  | zero =>
    intro p q err hinv hmax
    have hp0 := hinv.p_nonneg
    have hq0 := hinv.q_nonneg
    have hp : p = 0 := by omega
    have hq : q = 0 := by omega
    subst hp hq
    refine ⟨[(x1, y1)], ?_, ⟨rfl, by simp, by simp, by simp, ?_, by simp⟩⟩
    · intro fuel hfuel
      obtain ⟨f, rfl⟩ : ∃ f, fuel = f + 1 := ⟨fuel - 1, by omega⟩
      simp [line_path_exact]
    · intro c hc
      refine ⟨0, 0, le_refl 0, le_refl 0, le_refl 0, le_refl 0, by simp, ?_⟩
      simpa using hc
  | succ n ih =>
    intro p q err hinv hmax
    have hp0 := hinv.p_nonneg
    have hq0 := hinv.q_nonneg
    have hne : ¬(p = 0 ∧ q = 0) := by omega
    obtain ⟨hinv2, hxm, hym, hany, hdrop⟩ := hinv.step hne
    have hmax2 : max (if 2 * err ≥ -b then p - 1 else p) (if 2 * err ≤ a then q - 1 else q)
        = (n : Int) := by push_cast at hmax; omega
    obtain ⟨tl, hrun, htl⟩ := ih _ _ _ hinv2 hmax2
    have hp2 : 0 ≤ (if 2 * err ≥ -b then p - 1 else p) := hinv2.p_nonneg
    have hq2 : 0 ≤ (if 2 * err ≤ a then q - 1 else q) := hinv2.q_nonneg
    have hxn : (if 2 * err ≥ -b then x1 - sx * p + sx else x1 - sx * p)
        = x1 - sx * (if 2 * err ≥ -b then p - 1 else p) := by
      split <;> ring
    have hyn : (if 2 * err ≤ a then y1 - sy * q + sy else y1 - sy * q)
        = y1 - sy * (if 2 * err ≤ a then q - 1 else q) := by
      split <;> ring
    have hnotend : ¬(x1 - sx * p = x1 ∧ y1 - sy * q = y1) := by
      rintro ⟨h1, h2⟩
      apply hne
      constructor
      · rcases hsx with h | h <;> subst h <;> omega
      · rcases hsy with h | h <;> subst h <;> omega
    have hhd : tl.head? = some (x1 - sx * (if 2 * err ≥ -b then p - 1 else p),
        y1 - sy * (if 2 * err ≤ a then q - 1 else q)) := htl.head_eq
    refine ⟨(x1 - sx * p, y1 - sy * q) :: tl, ?_, ⟨?_, rfl, ?_, ?_, ?_, ?_⟩⟩
    · intro fuel hfuel
      obtain ⟨f, rfl⟩ : ∃ f, fuel = f + 1 := ⟨fuel - 1, by omega⟩
      rw [line_path_exact, if_neg hnotend]
      simp only []
      rw [hxn, hyn, hrun f (by omega)]
      rfl
    · simp [htl.length_eq]
    · have hl := htl.last_eq
      cases tl with
      | nil => simp at hhd
      | cons c cs => simpa [List.getLast?_cons_cons] using hl
    · cases tl with
      | nil => simp at hhd
      | cons c cs =>
        simp only [List.head?_cons, Option.some.injEq] at hhd
        refine List.Chain'.cons ?_ htl.chain
        subst hhd
        refine ⟨?_, ?_, ?_, ?_, ?_⟩
        · simp only []
          split
          · right; ring
          · left; trivial
        · simp only []
          split
          · right; ring
          · left; trivial
        · intro heq
          simp only [Prod.mk.injEq] at heq
          obtain ⟨h1, h2⟩ := heq
          rcases hany with h | h
          · rw [if_pos h] at h1
            rcases hsx with hs | hs <;> subst hs <;> omega
          · rw [if_pos h] at h2
            rcases hsy with hs | hs <;> subst hs <;> omega
        · intro hba
          simp only [if_pos (hxm hba)]
          ring
        · intro hab
          simp only [if_pos (hym hab)]
          ring
    · intro c hc
      rcases List.mem_cons.1 hc with rfl | hc
      · exact ⟨p, q, hp0, le_refl p, hq0, le_refl q, by omega, rfl⟩
      · obtain ⟨p2, q2, h1, h2, h3, h4, h5, h6⟩ := htl.within c hc
        refine ⟨p2, q2, h1, ?_, h3, ?_, by omega, h6⟩
        · split at h2 <;> omega
        · split at h4 <;> omega
    · refine List.nodup_cons.2 ⟨?_, htl.nodup⟩
      intro hc
      obtain ⟨p2, q2, h1, h2, h3, h4, h5, h6⟩ := htl.within _ hc
      simp only [Prod.mk.injEq] at h6
      obtain ⟨e1, e2⟩ := h6
      have hpe : p = p2 := by
        rcases hsx with hs | hs <;> subst hs <;> omega
      have hqe : q = q2 := by
        rcases hsy with hs | hs <;> subst hs <;> omega
      omega

/-! ## Where 32-bit arithmetic is exact -/

/-- One iteration keeps `-3 * b ≤ 2 * err ≤ 3 * a`. -/
theorem err_bound_step {a b p q err : Int} (h : TraceInv a b p q err)
    (hne : ¬(p = 0 ∧ q = 0)) (hb : -3 * b ≤ 2 * err ∧ 2 * err ≤ 3 * a) :
    -3 * b ≤ 2 * (if 2 * err ≤ a then (if 2 * err ≥ -b then err + -b else err) + a
        else (if 2 * err ≥ -b then err + -b else err)) ∧
    2 * (if 2 * err ≤ a then (if 2 * err ≥ -b then err + -b else err) + a
        else (if 2 * err ≥ -b then err + -b else err)) ≤ 3 * a := by
  obtain ⟨hinv2, hxm, hym, _, _⟩ := h.step hne
  have ha : 0 ≤ a := le_trans h.p_nonneg h.p_le
  have hb0 : 0 ≤ b := le_trans h.q_nonneg h.q_le
  have hx2 := hinv2.x_major
  have hy2 := hinv2.y_major
  by_cases fx : 2 * err ≥ -b <;> by_cases fy : 2 * err ≤ a
  · simp only [if_pos fx, if_pos fy] at hx2 hy2 ⊢
    constructor <;> omega
  · simp only [if_pos fx, if_neg fy] at hx2 hy2 ⊢
    constructor <;> omega
  · simp only [if_neg fx, if_pos fy] at hx2 hy2 ⊢
    constructor <;> omega
  · omega

/-- For a segment with `|x1 - x0|` and `|y1 - y0|` at most `2^29` that ends in
`[-2^28, 2^28]`, the 32-bit loop passes through the coordinates of the loop over the
mathematical integers: no sum, difference or product of an iteration leaves the range of
`int`. -/
theorem line_path_in_range (x1 y1 a b sx sy : Int) (hsx : sx = 1 ∨ sx = -1)
    (hsy : sy = 1 ∨ sy = -1) (hx1 : InRange28 x1) (hy1 : InRange28 y1)
    (ha : a ≤ 536870912) (hb : b ≤ 536870912) :
    ∀ (fuel : Nat) (p q err : Int), TraceInv a b p q err →
      (-3 * b ≤ 2 * err ∧ 2 * err ≤ 3 * a) →
      line_path x1 y1 a sx (-b) sy fuel (x1 - sx * p) (y1 - sy * q) err
        = line_path_exact x1 y1 a sx (-b) sy fuel (x1 - sx * p) (y1 - sy * q) err := by
  intro fuel
  induction fuel with
  | zero => intro p q err _ _; rfl
  | succ n ih =>
    intro p q err hinv hbnd
    rw [line_path, line_path_exact]
    by_cases hend : x1 - sx * p = x1 ∧ y1 - sy * q = y1
    · rw [if_pos hend, if_pos hend]
    · rw [if_neg hend, if_neg hend]
      have hne : ¬(p = 0 ∧ q = 0) := by
        rintro ⟨rfl, rfl⟩
        exact hend ⟨by ring, by ring⟩
      obtain ⟨hinv2, _, _, _, _⟩ := hinv.step hne
      have hbnd2 := err_bound_step hinv hne hbnd
      have hp0 := hinv.p_nonneg
      have hpa := hinv.p_le
      have hq0 := hinv.q_nonneg
      have hqb := hinv.q_le
      unfold InRange28 at hx1 hy1
      have w1 : wrap_int32 (2 * err) = 2 * err :=
        wrap_int32_eq (by unfold IsInt32; omega)
      have w2 : wrap_int32 (err + -b) = err + -b :=
        wrap_int32_eq (by unfold IsInt32; omega)
      have w3 : wrap_int32 (x1 - sx * p + sx) = x1 - sx * p + sx := by
        apply wrap_int32_eq
        unfold IsInt32
        rcases hsx with h | h <;> subst h <;> omega
      have w4 : wrap_int32 (y1 - sy * q + sy) = y1 - sy * q + sy := by
        apply wrap_int32_eq
        unfold IsInt32
        rcases hsy with h | h <;> subst h <;> omega
      have w5 : wrap_int32 ((if 2 * err ≥ -b then err + -b else err) + a)
          = (if 2 * err ≥ -b then err + -b else err) + a := by
        apply wrap_int32_eq
        unfold IsInt32
        split <;> omega
      have hxn : (if 2 * err ≥ -b then x1 - sx * p + sx else x1 - sx * p)
          = x1 - sx * (if 2 * err ≥ -b then p - 1 else p) := by
        split <;> ring
      have hyn : (if 2 * err ≤ a then y1 - sy * q + sy else y1 - sy * q)
          = y1 - sy * (if 2 * err ≤ a then q - 1 else q) := by
        split <;> ring
      simp only [w1, w2, w3, w4, w5]
      rw [hxn, hyn, ih _ _ _ hinv2 hbnd2]

theorem foldlM_record (tr : List (Int × Int)) :
    ∀ init : List (Int × Int),
      tr.foldlM (fun (s : List (Int × Int)) c => (Except.ok (s ++ [(c.1, c.2)]) : Except Fault _)) init
        = Except.ok (init ++ tr) := by
  induction tr with
  | nil => intro init; simp [List.foldlM, pure, Except.pure]
  | cons c cs ih =>
    intro init
    simp only [List.foldlM, bind, Except.bind]
    rw [ih]
    simp

/-- The set-up of the tracer for end points in `[-2^28, 2^28]`: `dx`, `dy` and `err` are
what they are over the mathematical integers. -/
theorem trace_setup_in_range {x0 y0 x1 y1 : Int} (hx0 : InRange28 x0) (hy0 : InRange28 y0)
    (hx1 : InRange28 x1) (hy1 : InRange28 y1) :
    abs_int32 (wrap_int32 (x1 - x0)) = abs_int (x1 - x0) ∧
    wrap_int32 (-abs_int32 (wrap_int32 (y1 - y0))) = -abs_int (y1 - y0) ∧
    wrap_int32 (abs_int32 (wrap_int32 (x1 - x0)) + wrap_int32 (-abs_int32 (wrap_int32 (y1 - y0))))
      = abs_int (x1 - x0) + -abs_int (y1 - y0) ∧
    abs_int (x1 - x0) ≤ 536870912 ∧ abs_int (y1 - y0) ≤ 536870912 := by
  unfold InRange28 at hx0 hy0 hx1 hy1
  have hax : abs_int (x1 - x0) ≤ 536870912 := by unfold abs_int; split <;> omega
  have hay : abs_int (y1 - y0) ≤ 536870912 := by unfold abs_int; split <;> omega
  have hax0 : 0 ≤ abs_int (x1 - x0) := by unfold abs_int; split <;> omega
  have hay0 : 0 ≤ abs_int (y1 - y0) := by unfold abs_int; split <;> omega
  have e1 : abs_int32 (wrap_int32 (x1 - x0)) = abs_int (x1 - x0) := by
    rw [wrap_int32_eq (by unfold IsInt32; omega)]
    unfold abs_int32
    exact wrap_int32_eq (by unfold IsInt32; unfold abs_int at hax hax0; exact ⟨by omega, by omega⟩)
  have e2 : abs_int32 (wrap_int32 (y1 - y0)) = abs_int (y1 - y0) := by
    rw [wrap_int32_eq (by unfold IsInt32; omega)]
    unfold abs_int32
    exact wrap_int32_eq (by unfold IsInt32; unfold abs_int at hay hay0; exact ⟨by omega, by omega⟩)
  have e3 : wrap_int32 (-abs_int32 (wrap_int32 (y1 - y0))) = -abs_int (y1 - y0) := by
    rw [e2]
    exact wrap_int32_eq (by unfold IsInt32; omega)
  refine ⟨e1, e3, ?_, hax, hay⟩
  rw [e1, e3]
  exact wrap_int32_eq (by unfold IsInt32; omega)

/-- The path of a segment with end points in `[-2^28, 2^28]`: it exists, it is what
`trace_line` folds its visitor over, and it is what `draw_line_visits` returns. -/
theorem trace_line_path (x0 y0 x1 y1 : Int) (hx0 : InRange28 x0) (hy0 : InRange28 y0)
    (hx1 : InRange28 x1) (hy1 : InRange28 y1) :
    ∃ tr : List (Int × Int),
      PathFrom x1 y1 (abs_int (x1 - x0)) (abs_int (y1 - y0)) (if x0 < x1 then 1 else -1)
        (if y0 < y1 then 1 else -1) (abs_int (x1 - x0)) (abs_int (y1 - y0))
        (max (abs_int (x1 - x0)) (abs_int (y1 - y0))).toNat tr ∧
      tr.head? = some (x0, y0) ∧
      (∀ (σ : Type) (visit : σ → Int → Int → Except Fault σ) (fuel : Nat) (s : σ),
        (max (abs_int (x1 - x0)) (abs_int (y1 - y0))).toNat + 1 ≤ fuel →
        trace_line visit fuel s x0 y0 x1 y1 = tr.foldlM (fun s c => visit s c.1 c.2) s) ∧
      (∀ (σ : Type) (visit : σ → Int → Int → Except Fault σ) (fuel : Nat) (s : σ),
        fuel < tr.length →
        trace_line visit fuel s x0 y0 x1 y1
          = (match (draw_line_first_visits fuel x0 y0 x1 y1).foldlM
                (fun s c => visit s c.1 c.2) s with
            | Except.error e => Except.error e
            | Except.ok _ => Except.error Fault.outOfFuel)) ∧
      ReturnsWith (fun fuel => draw_line_visits fuel x0 y0 x1 y1) tr := by
  have ha : 0 ≤ abs_int (x1 - x0) := by unfold abs_int; split <;> omega
  have hb : 0 ≤ abs_int (y1 - y0) := by unfold abs_int; split <;> omega
  have hsx : (if x0 < x1 then (1 : Int) else -1) = 1 ∨ (if x0 < x1 then (1 : Int) else -1) = -1 := by
    split <;> simp
  have hsy : (if y0 < y1 then (1 : Int) else -1) = 1 ∨ (if y0 < y1 then (1 : Int) else -1) = -1 := by
    split <;> simp
  have hx0e : x1 - (if x0 < x1 then (1 : Int) else -1) * abs_int (x1 - x0) = x0 := by
    unfold abs_int; split <;> split <;> omega
  have hy0e : y1 - (if y0 < y1 then (1 : Int) else -1) * abs_int (y1 - y0) = y0 := by
    unfold abs_int; split <;> split <;> omega
  have hmax : max (abs_int (x1 - x0)) (abs_int (y1 - y0))
      = ((max (abs_int (x1 - x0)) (abs_int (y1 - y0))).toNat : Int) := by omega
  obtain ⟨e1, e2, e3, hax, hay⟩ := trace_setup_in_range hx0 hy0 hx1 hy1
  have e4 : wrap_int32 (abs_int (x1 - x0) + -abs_int (y1 - y0))
      = abs_int (x1 - x0) + -abs_int (y1 - y0) := by
    rw [e1, e2] at e3
    exact e3
  obtain ⟨tr, hrunx, hpath⟩ := line_path_exact_spec x1 y1 _ _ _ _ hsx hsy _ _ _ _
    (TraceInv.init _ _ ha hb) hmax
  have hrun : ∀ fuel : Nat, (max (abs_int (x1 - x0)) (abs_int (y1 - y0))).toNat + 1 ≤ fuel →
      line_path x1 y1 (abs_int (x1 - x0)) (if x0 < x1 then 1 else -1) (-abs_int (y1 - y0))
        (if y0 < y1 then 1 else -1) fuel x0 y0 (abs_int (x1 - x0) + -abs_int (y1 - y0))
        = some tr := by
    intro fuel hfuel
    have h := line_path_in_range x1 y1 _ _ _ _ hsx hsy hx1 hy1 hax hay fuel _ _ _
      (TraceInv.init _ _ ha hb) (by constructor <;> omega)
    rw [hrunx fuel hfuel, hx0e, hy0e] at h
    exact h
  have hhead : tr.head? = some (x0, y0) := by
    have := hpath.head_eq
    rwa [hx0e, hy0e] at this
  have hfold : ∀ (σ : Type) (visit : σ → Int → Int → Except Fault σ) (fuel : Nat) (s : σ),
      (max (abs_int (x1 - x0)) (abs_int (y1 - y0))).toNat + 1 ≤ fuel →
      trace_line visit fuel s x0 y0 x1 y1 = tr.foldlM (fun s c => visit s c.1 c.2) s := by
    intro σ visit fuel s hfuel
    unfold trace_line
    simp only [e1, e2, e4]
    exact draw_line_loop_eq_foldlM visit _ _ _ _ _ _ fuel s x0 y0 _ tr (hrun fuel hfuel)
  have hshort : ∀ (σ : Type) (visit : σ → Int → Int → Except Fault σ) (fuel : Nat) (s : σ),
      fuel < tr.length →
      trace_line visit fuel s x0 y0 x1 y1
        = (match (draw_line_first_visits fuel x0 y0 x1 y1).foldlM
              (fun s c => visit s c.1 c.2) s with
          | Except.error e => Except.error e
          | Except.ok _ => Except.error Fault.outOfFuel) := by
    intro σ visit fuel s hfuel
    unfold trace_line draw_line_first_visits
    simp only [e1, e2, e4]
    exact draw_line_loop_unfinished visit _ _ _ _ _ _ fuel s x0 y0 _
      (line_path_short _ _ _ _ _ _ fuel _ x0 y0 _ tr (hrun _ (le_refl _)) hfuel)
  refine ⟨tr, hpath, hhead, hfold, hshort,
    (max (abs_int (x1 - x0)) (abs_int (y1 - y0))).toNat + 1, ?_⟩
  intro fuel hfuel
  show trace_line _ fuel [] x0 y0 x1 y1 = Except.ok tr
  rw [hfold _ _ fuel [] hfuel, foldlM_record]
  simp

/-! ## The compositor: what `plot` does to the buffer -/

theorem in_canvas_iff {W H x y : Int} (hW : IsInt32 W) (hH : IsInt32 H) (hx : IsInt32 x)
    (hy : IsInt32 y) (hW0 : 0 < W) (hH0 : 0 < H) :
    in_canvas W H x y = true ↔ OnCanvas W H x y := by
  unfold in_canvas toUnsigned OnCanvas
  unfold IsInt32 at hW hH hx hy
  simp only [Bool.and_eq_true, decide_eq_true_eq]
  omega

theorem pixel_row_bound {W H x y : Int} (h : OnCanvas W H x y) :
    0 ≤ y * W + x ∧ y * W + x < W * H := by
  obtain ⟨hx0, hxW, hy0, hyH⟩ := h
  have h1 : 0 ≤ y * W := mul_nonneg hy0 (by omega)
  have h2 : 0 ≤ (H - 1 - y) * W := mul_nonneg (by omega) (by omega)
  constructor
  · omega
  · nlinarith

theorem pixel_row_inj {W H x y u v : Int} (h : OnCanvas W H x y) (h2 : OnCanvas W H u v)
    (he : y * W + x = v * W + u) : x = u ∧ y = v := by
  obtain ⟨hx0, hxW, hy0, hyH⟩ := h
  obtain ⟨hu0, huW, hv0, hvH⟩ := h2
  have hyv : y = v := by
    rcases lt_trichotomy y v with hlt | heq | hgt
    · exfalso
      have := mul_nonneg (by omega : (0:Int) ≤ v - y - 1) (by omega : (0:Int) ≤ W)
      nlinarith
    · exact heq
    · exfalso
      have := mul_nonneg (by omega : (0:Int) ≤ y - v - 1) (by omega : (0:Int) ≤ W)
      nlinarith
  subst hyv
  exact ⟨by omega, rfl⟩

theorem pixel_offset_eq {W H x y : Int} (hW : IsInt32 W) (hH : IsInt32 H)
    (h : OnCanvas W H x y) : pixel_offset W x y = pixel_index W x y := by
  obtain ⟨hb0, hb1⟩ := pixel_row_bound h
  obtain ⟨hx0, hxW, hy0, hyH⟩ := h
  unfold IsInt32 at hW hH
  have hWH : W * H ≤ 2147483647 * 2147483647 :=
    mul_le_mul hW.2 hH.2 (by omega) (by omega)
  unfold pixel_offset pixel_index toSizeT
  have e1 : (y % 18446744073709551616).toNat = y.toNat := by omega
  have e2 : (W % 18446744073709551616).toNat = W.toNat := by omega
  have e3 : (x % 18446744073709551616).toNat = x.toNat := by omega
  rw [e1, e2, e3]
  have e4 : ((y.toNat * W.toNat + x.toNat : Nat) : Int) = y * W + x := by
    push_cast
    rw [Int.toNat_of_nonneg hy0, Int.toNat_of_nonneg (by omega : (0:Int) ≤ W),
      Int.toNat_of_nonneg hx0]
  generalize y.toNat * W.toNat + x.toNat = m at e4
  generalize y * W + x = z at *
  omega

theorem pixel_index_lt {W H x y : Int} (h : OnCanvas W H x y) (buf : List Nat)
    (hlen : (buf.length : Int) = W * H * 4) : pixel_index W x y + 3 < buf.length := by
  obtain ⟨hb0, hb1⟩ := pixel_row_bound h
  unfold pixel_index
  generalize y * W + x = z at *
  generalize W * H = wh at *
  omega

theorem blend_byte_ok (buf : List Nat) (i src a : Nat) (hi : i < buf.length) :
    ∃ out, blend_byte buf i src a = Except.ok out ∧ out.length = buf.length ∧
      (∀ j, j ≠ i → out[j]? = buf[j]?) ∧ out[i]? = (buf[i]?).map (over_byte src a) := by
  refine ⟨buf.set i (over_byte src a buf[i]), ?_, by simp, ?_, ?_⟩
  · unfold blend_byte
    rw [List.getElem?_eq_getElem hi]
  · intro j hj
    rw [List.getElem?_set]
    simp [Ne.symm hj]
  · rw [List.getElem?_set]
    simp [hi]

/-- Inside the canvas `plot` blends the four bytes of the pixel and touches nothing else. -/
theorem plot_on_canvas {W H x y : Int} (hW : IsInt32 W) (hH : IsInt32 H)
    (h : OnCanvas W H x y) (pr pg pb a : Nat) (buf : List Nat)
    (hlen : (buf.length : Int) = W * H * 4) :
    ∃ out, plot W H pr pg pb a buf x y = Except.ok out ∧ out.length = buf.length ∧
      (∀ j, (j < pixel_index W x y ∨ pixel_index W x y + 3 < j) → out[j]? = buf[j]?) ∧
      (∀ k, k < 4 → out[pixel_index W x y + k]?
        = (buf[pixel_index W x y + k]?).map (over_byte (channel_src pr pg pb a k) a)) := by
  have hx : IsInt32 x := by unfold IsInt32 OnCanvas at *; omega
  have hy : IsInt32 y := by unfold IsInt32 OnCanvas at *; omega
  have hW0 : 0 < W := by unfold OnCanvas at h; omega
  have hH0 : 0 < H := by unfold OnCanvas at h; omega
  have hg := (in_canvas_iff hW hH hx hy hW0 hH0).2 h
  have hoff := pixel_offset_eq hW hH h
  have hlt := pixel_index_lt h buf hlen
  obtain ⟨b0, e0, l0, f0, v0⟩ := blend_byte_ok buf (pixel_index W x y + 0) pb a (by omega)
  obtain ⟨b1, e1, l1, f1, v1⟩ := blend_byte_ok b0 (pixel_index W x y + 1) pg a (by omega)
  obtain ⟨b2, e2, l2, f2, v2⟩ := blend_byte_ok b1 (pixel_index W x y + 2) pr a (by omega)
  obtain ⟨b3, e3, l3, f3, v3⟩ := blend_byte_ok b2 (pixel_index W x y + 3) a a (by omega)
  refine ⟨b3, ?_, by omega, ?_, ?_⟩
  · unfold plot
    rw [if_pos hg]
    simp only [hoff, bind, Except.bind, e0, e1, e2, e3]
  · intro j hj
    rw [f3 j (by omega), f2 j (by omega), f1 j (by omega), f0 j (by omega)]
  · intro k hk
    have hk4 : k = 0 ∨ k = 1 ∨ k = 2 ∨ k = 3 := by omega
    rcases hk4 with rfl | rfl | rfl | rfl
    · rw [f3 _ (by omega), f2 _ (by omega), f1 _ (by omega), v0]; rfl
    · rw [f3 _ (by omega), f2 _ (by omega), v1, f0 _ (by omega)]; rfl
    · rw [f3 _ (by omega), v2, f1 _ (by omega), f0 _ (by omega)]; rfl
    · rw [v3, f2 _ (by omega), f1 _ (by omega), f0 _ (by omega)]; rfl

/-- Outside the canvas `plot` returns the buffer as it is. -/
theorem plot_off_canvas {W H x y : Int} (hW : IsInt32 W) (hH : IsInt32 H) (hx : IsInt32 x)
    (hy : IsInt32 y) (hW0 : 0 < W) (hH0 : 0 < H) (h : ¬OnCanvas W H x y)
    (pr pg pb a : Nat) (buf : List Nat) : plot W H pr pg pb a buf x y = Except.ok buf := by
  have hg : ¬(in_canvas W H x y = true) := fun hc => h ((in_canvas_iff hW hH hx hy hW0 hH0).1 hc)
  unfold plot
  rw [if_neg hg]

theorem pixel_index_apart {W H x y u v : Int} (h : OnCanvas W H x y) (h2 : OnCanvas W H u v)
    (hne : (x, y) ≠ (u, v)) (k : Nat) (hk : k < 4) :
    pixel_index W x y + k < pixel_index W u v ∨ pixel_index W u v + 3 < pixel_index W x y + k := by
  have hb := pixel_row_bound h
  have hb2 := pixel_row_bound h2
  have hd : y * W + x ≠ v * W + u := by
    intro he
    obtain ⟨e1, e2⟩ := pixel_row_inj h h2 he
    exact hne (by rw [e1, e2])
  unfold pixel_index
  generalize y * W + x = z at *
  generalize v * W + u = z2 at *
  omega

/-- Folding `plot` over a list of coordinates: the buffer keeps its length, and each byte
of each pixel of the canvas has had the "over" formula applied to it once for every
occurrence of the pixel in the list. -/
theorem plot_foldlM_spec {W H : Int} (hW : IsInt32 W) (hH : IsInt32 H) (hW0 : 0 < W)
    (hH0 : 0 < H) (pr pg pb a : Nat) :
    ∀ (tr : List (Int × Int)), (∀ c ∈ tr, IsInt32 c.1 ∧ IsInt32 c.2) →
    ∀ (buf : List Nat), (buf.length : Int) = W * H * 4 →
      ∃ out, tr.foldlM (fun s c => plot W H pr pg pb a s c.1 c.2) buf = Except.ok out ∧
        out.length = buf.length ∧
        ∀ x y, OnCanvas W H x y → ∀ k, k < 4 →
          out[pixel_index W x y + k]? = (buf[pixel_index W x y + k]?).map
            ((over_byte (channel_src pr pg pb a k) a)^[tr.count (x, y)]) := by
  intro tr
  induction tr with
  | nil =>
    intro _ buf _
    exact ⟨buf, by simp [List.foldlM, pure, Except.pure], rfl, by simp⟩
  | cons c cs ih =>
    intro hin buf hlen
    have hc := hin c (List.mem_cons_self c cs)
    have hcs : ∀ d ∈ cs, IsInt32 d.1 ∧ IsInt32 d.2 := fun d hd => hin d (List.mem_cons_of_mem c hd)
    by_cases hon : OnCanvas W H c.1 c.2
    · obtain ⟨b1, e1, l1, f1, v1⟩ := plot_on_canvas hW hH hon pr pg pb a buf hlen
      obtain ⟨out, e2, l2, v2⟩ := ih hcs b1 (by rw [l1]; exact hlen)
      refine ⟨out, ?_, by omega, ?_⟩
      · simp only [List.foldlM, bind, Except.bind, e1]
        exact e2
      · intro x y hxy k hk
        rw [v2 x y hxy k hk]
        by_cases heq : (x, y) = c
        · subst heq
          rw [v1 k hk, List.count_cons_self, Function.iterate_succ, Option.map_map]
        · have hne : (x, y) ≠ (c.1, c.2) := heq
          rw [f1 _ (pixel_index_apart hxy hon hne k hk), List.count_cons_of_ne heq]
    · obtain ⟨out, e2, l2, v2⟩ := ih hcs buf hlen
      refine ⟨out, ?_, l2, ?_⟩
      · simp only [List.foldlM, bind, Except.bind, plot_off_canvas hW hH hc.1 hc.2 hW0 hH0 hon]
        exact e2
      · intro x y hxy k hk
        have hne : (x, y) ≠ c := by
          rintro rfl
          exact hon hxy
        rw [v2 x y hxy k hk, List.count_cons_of_ne hne]

/-- Folding `plot` over coordinates none of which is on the canvas changes nothing. -/
theorem plot_foldlM_off {W H : Int} (hW : IsInt32 W) (hH : IsInt32 H) (hW0 : 0 < W)
    (hH0 : 0 < H) (pr pg pb a : Nat) :
    ∀ (tr : List (Int × Int)), (∀ c ∈ tr, IsInt32 c.1 ∧ IsInt32 c.2) →
      (∀ c ∈ tr, ¬OnCanvas W H c.1 c.2) → ∀ (buf : List Nat),
      tr.foldlM (fun s c => plot W H pr pg pb a s c.1 c.2) buf = Except.ok buf := by
  intro tr
  induction tr with
  | nil => intro _ _ buf; simp [List.foldlM, pure, Except.pure]
  | cons c cs ih =>
    intro hin hoff buf
    have hc := hin c (List.mem_cons_self c cs)
    simp only [List.foldlM, bind, Except.bind,
      plot_off_canvas hW hH hc.1 hc.2 hW0 hH0 (hoff c (List.mem_cons_self c cs))]
    exact ih (fun d hd => hin d (List.mem_cons_of_mem c hd))
      (fun d hd => hoff d (List.mem_cons_of_mem c hd)) buf

/-! ## `draw_line` as a whole, for end points in `[-2^28, 2^28]` -/

theorem ReturnsWith.unique {α : Type} {run : Nat → Except Fault α} {v w : α}
    (hv : ReturnsWith run v) (hw : ReturnsWith run w) : v = w := by
  obtain ⟨N, hN⟩ := hv
  obtain ⟨M, hM⟩ := hw
  have h1 := hN (max N M) (le_max_left N M)
  have h2 := hM (max N M) (le_max_right N M)
  rw [h1] at h2
  exact Except.ok.inj h2

/-- Every coordinate of the path lies between the end points of the segment. -/
theorem path_between {x0 y0 x1 y1 : Int} {n : Nat} {tr : List (Int × Int)}
    (h : PathFrom x1 y1 (abs_int (x1 - x0)) (abs_int (y1 - y0)) (if x0 < x1 then 1 else -1)
      (if y0 < y1 then 1 else -1) (abs_int (x1 - x0)) (abs_int (y1 - y0)) n tr) :
    ∀ c ∈ tr, min x0 x1 ≤ c.1 ∧ c.1 ≤ max x0 x1 ∧ min y0 y1 ≤ c.2 ∧ c.2 ≤ max y0 y1 := by
  intro c hc
  obtain ⟨p2, q2, h1, h2, h3, h4, _, rfl⟩ := h.within c hc
  unfold abs_int at h2 h4
  simp only []
  refine ⟨?_, ?_, ?_, ?_⟩
  · split <;> split at h2 <;> omega
  · split <;> split at h2 <;> omega
  · split <;> split at h4 <;> omega
  · split <;> split at h4 <;> omega

theorem InRange28.isInt32 {v : Int} (h : InRange28 v) : IsInt32 v := by
  unfold InRange28 at h
  unfold IsInt32
  omega

theorem path_int32 {x0 y0 x1 y1 : Int} {n : Nat} {tr : List (Int × Int)}
    (h : PathFrom x1 y1 (abs_int (x1 - x0)) (abs_int (y1 - y0)) (if x0 < x1 then 1 else -1)
      (if y0 < y1 then 1 else -1) (abs_int (x1 - x0)) (abs_int (y1 - y0)) n tr)
    (hx0 : IsInt32 x0) (hy0 : IsInt32 y0) (hx1 : IsInt32 x1) (hy1 : IsInt32 y1) :
    ∀ c ∈ tr, IsInt32 c.1 ∧ IsInt32 c.2 := by
  intro c hc
  have := path_between h c hc
  unfold IsInt32 at *
  omega

/-- The master statement on `draw_line` for end points in `[-2^28, 2^28]`: on a `W * H`
canvas it returns, the buffer keeps its length, and each byte of each pixel has had the
"over" formula applied once for every time the path of the segment passes through the
pixel. -/
theorem draw_line_spec {W H x0 y0 x1 y1 : Int} (hW : IsInt32 W) (hH : IsInt32 H)
    (hx0 : InRange28 x0) (hy0 : InRange28 y0) (hx1 : InRange28 x1) (hy1 : InRange28 y1)
    (hW0 : 0 < W) (hH0 : 0 < H) (buf : List Nat) (hlen : (buf.length : Int) = W * H * 4)
    (r g b a : Nat) (tr : List (Int × Int))
    (htr : ReturnsWith (fun fuel => draw_line_visits fuel x0 y0 x1 y1) tr) :
    ∃ out, ReturnsWith (fun fuel => draw_line fuel buf W H x0 y0 x1 y1 r g b a) out ∧
      out.length = buf.length ∧
      (∀ x y, OnCanvas W H x y → ∀ k, k < 4 →
        out[pixel_index W x y + k]? = (buf[pixel_index W x y + k]?).map
          ((over_byte (channel_src (premul r a) (premul g a) (premul b a) a k) a)^[tr.count (x, y)])) ∧
      ((∀ c ∈ tr, ¬OnCanvas W H c.1 c.2) → out = buf) := by
  obtain ⟨tr2, hpath, _, hfold, _, hret⟩ := trace_line_path x0 y0 x1 y1 hx0 hy0 hx1 hy1
  have htr2 : tr2 = tr := hret.unique htr
  subst htr2
  have h32 := path_int32 hpath hx0.isInt32 hy0.isInt32 hx1.isInt32 hy1.isInt32
  obtain ⟨out, e, l, v⟩ := plot_foldlM_spec hW hH hW0 hH0 (premul r a) (premul g a)
    (premul b a) a tr2 h32 buf hlen
  have hrun : ReturnsWith (fun fuel => draw_line fuel buf W H x0 y0 x1 y1 r g b a) out := by
    refine ⟨(max (abs_int (x1 - x0)) (abs_int (y1 - y0))).toNat + 1, fun fuel hfuel => ?_⟩
    show trace_line _ fuel buf x0 y0 x1 y1 = Except.ok out
    rw [hfold _ _ fuel buf hfuel]
    exact e
  refine ⟨out, hrun, l, v, ?_⟩
  intro hoff
  have e2 := plot_foldlM_off hW hH hW0 hH0 (premul r a) (premul g a) (premul b a) a tr2 h32
    hoff buf
  rw [e2] at e
  exact (Except.ok.inj e).symm

/-! ## Byte arithmetic -/

theorem toUInt8_lt (v : Int) : toUInt8 v < 256 := by
  unfold toUInt8; omega

theorem premul_lt (c a : Nat) : premul c a < 256 := toUInt8_lt _

theorem premul_eq {c a : Nat} (hc : c < 256) (ha : a < 256) : premul c a = (c * a + 127) / 255 := by
  unfold premul toUInt8
  rw [Int.tdiv_eq_ediv (by positivity) (by omega)]
  have hm : c * a ≤ 255 * 255 := Nat.mul_le_mul (by omega) (by omega)
  have hcast : ((c * a : Nat) : Int) = (c : Int) * (a : Int) := by push_cast; rfl
  rw [← hcast]
  generalize c * a = m at *
  omega

theorem premul_le {c a : Nat} (hc : c < 256) (ha : a < 256) : premul c a ≤ a := by
  rw [premul_eq hc ha]
  have hm : c * a ≤ 255 * a := Nat.mul_le_mul_right a (by omega)
  generalize c * a = m at *
  omega

theorem over_byte_eq {src a dst : Nat} (ha : a < 256) (hs : src ≤ a) (hd : dst < 256) :
    over_byte src a dst = src + dst * (255 - a) / 255 := by
  unfold over_byte toUInt8
  rw [Int.tdiv_eq_ediv (mul_nonneg (by omega) (by omega)) (by omega)]
  have hm : dst * (255 - a) ≤ 255 * (255 - a) := Nat.mul_le_mul_right _ (by omega)
  have hcast : ((dst * (255 - a) : Nat) : Int) = (dst : Int) * (255 - (a : Int)) := by
    push_cast
    rw [Nat.cast_sub (by omega)]
    rfl
  rw [← hcast]
  generalize dst * (255 - a) = m at *
  omega

theorem over_byte_lt (src a dst : Nat) : over_byte src a dst < 256 := toUInt8_lt _

/-- One blend keeps a colour byte below the alpha byte of its pixel. -/
theorem over_byte_le_alpha {src a dst da : Nat} (ha : a < 256) (hs : src ≤ a) (hd : dst ≤ da)
    (hda : da < 256) : over_byte src a dst ≤ over_byte a a da := by
  rw [over_byte_eq ha hs (by omega), over_byte_eq ha (le_refl a) hda]
  have hm : dst * (255 - a) / 255 ≤ da * (255 - a) / 255 :=
    Nat.div_le_div_right (Nat.mul_le_mul_right _ hd)
  omega

theorem over_byte_iterate_le_alpha {src a : Nat} (ha : a < 256) (hs : src ≤ a) :
    ∀ (n dst da : Nat), dst ≤ da → da < 256 →
      (over_byte src a)^[n] dst ≤ (over_byte a a)^[n] da := by
  intro n
  induction n with
  | zero => intro dst da h _; simpa using h
  | succ n ih =>
    intro dst da h hda
    rw [Function.iterate_succ_apply, Function.iterate_succ_apply]
    exact ih _ _ (over_byte_le_alpha ha hs h hda) (over_byte_lt _ _ _)

theorem over_byte_iterate_lt {src a : Nat} :
    ∀ (n dst : Nat), dst < 256 → (over_byte src a)^[n] dst < 256 := by
  intro n
  induction n with
  | zero => intro dst h; simpa using h
  | succ n ih =>
    intro dst _
    rw [Function.iterate_succ_apply]
    exact ih _ (over_byte_lt _ _ _)

/-- With `a = 255` one blend stores the source byte, whatever was there. -/
theorem over_byte_opaque {src : Nat} (hs : src < 256) (dst : Nat) : over_byte src 255 dst = src := by
  unfold over_byte toUInt8
  simp only [Nat.cast_ofNat, sub_self, mul_zero]
  have : Int.tdiv 0 255 = 0 := by decide
  rw [this]
  omega

theorem over_byte_opaque_iterate {src : Nat} (hs : src < 256) :
    ∀ (n dst : Nat), 0 < n → (over_byte src 255)^[n] dst = src := by
  intro n
  induction n with
  | zero => intro _ h; omega
  | succ n _ =>
    intro dst _
    rw [Function.iterate_succ_apply', over_byte_opaque hs]

theorem premul_opaque {c : Nat} (hc : c < 256) : premul c 255 = c := by
  rw [premul_eq hc (by omega)]
  omega

/-- On a zero byte one blend stores the source byte. -/
theorem over_byte_zero {src a : Nat} (hs : src < 256) : over_byte src a 0 = src := by
  unfold over_byte toUInt8
  simp only [Nat.cast_zero, zero_mul]
  have : Int.tdiv 0 255 = 0 := by decide
  rw [this]
  omega

/-! ## Canvas invariants -/

theorem pixel_of_index {W H : Int} (hW0 : 0 < W) (i : Nat) (hi : (i : Int) < W * H) :
    ∃ x y, OnCanvas W H x y ∧ pixel_index W x y = 4 * i := by
  refine ⟨(i : Int) % W, (i : Int) / W, ⟨Int.emod_nonneg _ (by omega), Int.emod_lt_of_pos _ hW0,
    Int.ediv_nonneg (by omega) (by omega), ?_⟩, ?_⟩
  · exact Int.ediv_lt_of_lt_mul hW0 (by rw [mul_comm]; exact hi)
  · unfold pixel_index
    have : (i : Int) / W * W + (i : Int) % W = i := by
      rw [mul_comm]; exact Int.ediv_add_emod _ _
    rw [this]
    omega

theorem pixel_at_eq {buf : List Nat} {n : Nat} {v0 v1 v2 v3 : Nat}
    (h0 : buf[n + 0]? = some v0) (h1 : buf[n + 1]? = some v1) (h2 : buf[n + 2]? = some v2)
    (h3 : buf[n + 3]? = some v3) : (buf.drop n).take 4 = [v0, v1, v2, v3] := by
  apply List.ext_getElem?
  intro m
  rw [List.getElem?_take, List.getElem?_drop]
  rcases (by omega : m = 0 ∨ m = 1 ∨ m = 2 ∨ m = 3 ∨ 4 ≤ m) with rfl | rfl | rfl | rfl | hm
  · simpa using h0
  · simpa using h1
  · simpa using h2
  · simpa using h3
  · rw [if_neg (by omega)]
    have : ([v0, v1, v2, v3] : List Nat).length ≤ m := by simpa using hm
    rw [List.getElem?_eq_none this]

theorem replicate_zero_canvas {W H : Int} (hW : IsInt32 W) (hH : IsInt32 H) (hW0 : 0 < W)
    (hH0 : 0 < H) :
    CanvasOK W H (List.replicate ((toSizeT W * toSizeT H * 4) % 18446744073709551616) 0) := by
  unfold IsInt32 at hW hH
  have hWH : W * H ≤ 2147483647 * 2147483647 := mul_le_mul hW.2 hH.2 (by omega) (by omega)
  have hpos : 0 ≤ W * H := mul_nonneg (by omega) (by omega)
  refine ⟨?_, ?_, ?_⟩
  · rw [List.length_replicate]
    unfold toSizeT
    have e1 : (W % 18446744073709551616).toNat = W.toNat := by omega
    have e2 : (H % 18446744073709551616).toNat = H.toNat := by omega
    rw [e1, e2]
    have e4 : ((W.toNat * H.toNat : Nat) : Int) = W * H := by
      push_cast
      rw [Int.toNat_of_nonneg (by omega : (0:Int) ≤ W), Int.toNat_of_nonneg (by omega : (0:Int) ≤ H)]
    generalize W.toNat * H.toNat = m at e4
    generalize W * H = z at *
    omega
  · intro v hv
    rw [List.eq_of_mem_replicate hv]
    omega
  · intro i _
    have hz : ∀ n j : Nat, (List.replicate n 0).getD j 0 = 0 := by
      intro n j
      rw [List.getD_eq_getElem?_getD, List.getElem?_replicate]
      split <;> rfl
    simp only [hz, le_refl, and_self]

/-- A buffer got from a well-formed canvas by applying the "over" formula of one colour some
number of times to each pixel is a well-formed canvas. -/
theorem canvas_of_blends {W H : Int} (hW0 : 0 < W) {buf out : List Nat}
    (hbuf : CanvasOK W H buf) {r g b a : Nat} (hr : r < 256) (hg : g < 256) (hb : b < 256)
    (ha : a < 256) (cnt : Int → Int → Nat) (hl : out.length = buf.length)
    (hv : ∀ x y, OnCanvas W H x y → ∀ k, k < 4 →
      out[pixel_index W x y + k]? = (buf[pixel_index W x y + k]?).map
        ((over_byte (channel_src (premul r a) (premul g a) (premul b a) a k) a)^[cnt x y])) :
    CanvasOK W H out := by
  have hlen := hbuf.length_eq
  have hsrc : ∀ k, k < 4 → channel_src (premul r a) (premul g a) (premul b a) a k ≤ a := by
    intro k hk
    rcases (by omega : k = 0 ∨ k = 1 ∨ k = 2 ∨ k = 3) with rfl | rfl | rfl | rfl
    · exact premul_le hb ha
    · exact premul_le hg ha
    · exact premul_le hr ha
    · exact le_refl a
  -- each byte of the result, by pixel and channel
  have hbyte : ∀ i k : Nat, 4 * i + 3 < buf.length → k < 4 → ∃ n : Nat,
      out[4 * i + k]?.getD 0
        = (over_byte (channel_src (premul r a) (premul g a) (premul b a) a k) a)^[n]
            (buf[4 * i + k]?.getD 0) ∧
      out[4 * i + 3]?.getD 0 = (over_byte a a)^[n] (buf[4 * i + 3]?.getD 0) := by
    intro i k hi hk
    have hiWH : (i : Int) < W * H := by
      generalize W * H = z at *
      omega
    obtain ⟨x, y, hon, hidx⟩ := pixel_of_index hW0 i hiWH
    refine ⟨cnt x y, ?_, ?_⟩
    · have := hv x y hon k hk
      rw [hidx] at this
      rw [this, List.getElem?_eq_getElem (by omega : 4 * i + k < buf.length)]
      simp
    · have := hv x y hon 3 (by omega)
      rw [hidx] at this
      rw [this, List.getElem?_eq_getElem (by omega : 4 * i + 3 < buf.length)]
      simp [channel_src]
  have hbufbyte : ∀ j, j < buf.length → buf[j]?.getD 0 < 256 := by
    intro j hj
    rw [List.getElem?_eq_getElem hj]
    exact hbuf.bytes _ (List.getElem_mem hj)
  refine ⟨by rw [hl]; exact hlen, ?_, ?_⟩
  · intro v hv2
    obtain ⟨j, hj, rfl⟩ := List.getElem_of_mem hv2
    have hjb : j < buf.length := by omega
    have hdiv : 4 * (j / 4) + 3 < buf.length := by
      generalize W * H = z at *
      omega
    obtain ⟨n, h1, _⟩ := hbyte (j / 4) (j % 4) hdiv (by omega)
    have e : 4 * (j / 4) + j % 4 = j := by omega
    rw [e] at h1
    rw [List.getElem?_eq_getElem hj] at h1
    simp only [Option.getD_some] at h1
    rw [h1]
    exact over_byte_iterate_lt _ _ (hbufbyte j hjb)
  · intro i hi
    rw [hl] at hi
    have hp := hbuf.premultiplied i hi
    simp only [List.getD_eq_getElem?_getD] at hp ⊢
    have hA := hbufbyte (4 * i + 3) hi
    refine ⟨?_, ?_, ?_⟩
    · obtain ⟨n, h1, h2⟩ := hbyte i 0 hi (by omega)
      rw [Nat.add_zero] at h1
      rw [h1, h2]
      exact over_byte_iterate_le_alpha ha (hsrc 0 (by omega)) n _ _ hp.1 hA
    · obtain ⟨n, h1, h2⟩ := hbyte i 1 hi (by omega)
      rw [h1, h2]
      exact over_byte_iterate_le_alpha ha (hsrc 1 (by omega)) n _ _ hp.2.1 hA
    · obtain ⟨n, h1, h2⟩ := hbyte i 2 hi (by omega)
      rw [h1, h2]
      exact over_byte_iterate_le_alpha ha (hsrc 2 (by omega)) n _ _ hp.2.2 hA

/-! ## `draw_line` for every segment and every amount of fuel -/

theorem draw_line_first_visits_int32 {x0 y0 : Int} (hx0 : IsInt32 x0) (hy0 : IsInt32 y0)
    (x1 y1 : Int) (n : Nat) :
    ∀ c ∈ draw_line_first_visits n x0 y0 x1 y1, IsInt32 c.1 ∧ IsInt32 c.2 := by
  unfold draw_line_first_visits
  exact line_first_visits_int32 _ _ _ _ _ _ n x0 y0 _ hx0 hy0

/-- What `fuel` iterations of the tracer come to, whatever the segment: either the loop has
stopped, and `trace_line` has folded its visitor over the coordinates `draw_line_visits`
returns, or it is still running after the visitor has been applied at the coordinates of
the first `fuel` iterations. -/
theorem trace_line_cases (x0 y0 x1 y1 : Int) (fuel : Nat) :
    (∃ tr : List (Int × Int),
      draw_line_visits fuel x0 y0 x1 y1 = Except.ok tr ∧
      draw_line_first_visits fuel x0 y0 x1 y1 = tr ∧
      ∀ (σ : Type) (visit : σ → Int → Int → Except Fault σ) (s : σ),
        trace_line visit fuel s x0 y0 x1 y1 = tr.foldlM (fun s c => visit s c.1 c.2) s) ∨
    (draw_line_visits fuel x0 y0 x1 y1 = Except.error Fault.outOfFuel ∧
      ∀ (σ : Type) (visit : σ → Int → Int → Except Fault σ) (s : σ),
        trace_line visit fuel s x0 y0 x1 y1
          = (match (draw_line_first_visits fuel x0 y0 x1 y1).foldlM
                (fun s c => visit s c.1 c.2) s with
            | Except.error e => Except.error e
            | Except.ok _ => Except.error Fault.outOfFuel)) := by
  cases hp : line_path x1 y1 (abs_int32 (wrap_int32 (x1 - x0))) (if x0 < x1 then 1 else -1)
      (wrap_int32 (-abs_int32 (wrap_int32 (y1 - y0)))) (if y0 < y1 then 1 else -1) fuel x0 y0
      (wrap_int32 (abs_int32 (wrap_int32 (x1 - x0))
        + wrap_int32 (-abs_int32 (wrap_int32 (y1 - y0))))) with
  | some tr =>
    left
    have hfold : ∀ (σ : Type) (visit : σ → Int → Int → Except Fault σ) (s : σ),
        trace_line visit fuel s x0 y0 x1 y1 = tr.foldlM (fun s c => visit s c.1 c.2) s := by
      intro σ visit s
      unfold trace_line
      exact draw_line_loop_eq_foldlM visit _ _ _ _ _ _ fuel s x0 y0 _ tr hp
    refine ⟨tr, ?_, ?_, hfold⟩
    · show trace_line _ fuel [] x0 y0 x1 y1 = Except.ok tr
      rw [hfold, foldlM_record]
      simp
    · unfold draw_line_first_visits
      exact line_path_eq_first_visits _ _ _ _ _ _ fuel x0 y0 _ tr hp
  | none =>
    right
    have hfold : ∀ (σ : Type) (visit : σ → Int → Int → Except Fault σ) (s : σ),
        trace_line visit fuel s x0 y0 x1 y1
          = (match (draw_line_first_visits fuel x0 y0 x1 y1).foldlM
                (fun s c => visit s c.1 c.2) s with
            | Except.error e => Except.error e
            | Except.ok _ => Except.error Fault.outOfFuel) := by
      intro σ visit s
      unfold trace_line draw_line_first_visits
      exact draw_line_loop_unfinished visit _ _ _ _ _ _ fuel s x0 y0 _ hp
    refine ⟨?_, hfold⟩
    show trace_line _ fuel [] x0 y0 x1 y1 = Except.error Fault.outOfFuel
    rw [hfold, foldlM_record]

/-- What `draw_line` comes to with `fuel` iterations on a `W * H` canvas, whatever the
segment: either the loop has stopped and each byte of each pixel has had the "over"
formula applied once for every visit of the pixel, or the loop is still running; the
buffer is never left. -/
theorem draw_line_run {W H x0 y0 : Int} (hW : IsInt32 W) (hH : IsInt32 H)
    (hx0 : IsInt32 x0) (hy0 : IsInt32 y0) (x1 y1 : Int) (hW0 : 0 < W) (hH0 : 0 < H)
    (buf : List Nat) (hlen : (buf.length : Int) = W * H * 4) (r g b a : Nat) (fuel : Nat) :
    (∃ (tr : List (Int × Int)) (out : List Nat),
      draw_line_visits fuel x0 y0 x1 y1 = Except.ok tr ∧
      draw_line fuel buf W H x0 y0 x1 y1 r g b a = Except.ok out ∧
      out.length = buf.length ∧
      (∀ x y, OnCanvas W H x y → ∀ k, k < 4 →
        out[pixel_index W x y + k]? = (buf[pixel_index W x y + k]?).map
          ((over_byte (channel_src (premul r a) (premul g a) (premul b a) a k) a)^[
            tr.count (x, y)])) ∧
      ((∀ c ∈ tr, ¬OnCanvas W H c.1 c.2) → out = buf)) ∨
    (draw_line_visits fuel x0 y0 x1 y1 = Except.error Fault.outOfFuel ∧
      draw_line fuel buf W H x0 y0 x1 y1 r g b a = Except.error Fault.outOfFuel) := by
  have h32 := draw_line_first_visits_int32 hx0 hy0 x1 y1 fuel
  rcases trace_line_cases x0 y0 x1 y1 fuel with ⟨tr, hv, hfirst, hfold⟩ | ⟨hv, hfold⟩
  · left
    rw [hfirst] at h32
    obtain ⟨out, e, l, v⟩ := plot_foldlM_spec hW hH hW0 hH0 (premul r a) (premul g a)
      (premul b a) a tr h32 buf hlen
    have hrun : draw_line fuel buf W H x0 y0 x1 y1 r g b a = Except.ok out := by
      show trace_line _ fuel buf x0 y0 x1 y1 = Except.ok out
      rw [hfold]
      exact e
    refine ⟨tr, out, hv, hrun, l, v, ?_⟩
    intro hoff
    have e2 := plot_foldlM_off hW hH hW0 hH0 (premul r a) (premul g a) (premul b a) a tr h32
      hoff buf
    rw [e2] at e
    exact (Except.ok.inj e).symm
  · right
    obtain ⟨out, e, _, _⟩ := plot_foldlM_spec hW hH hW0 hH0 (premul r a) (premul g a)
      (premul b a) a _ h32 buf hlen
    refine ⟨hv, ?_⟩
    show trace_line _ fuel buf x0 y0 x1 y1 = Except.error Fault.outOfFuel
    rw [hfold, e]

/-- One call of `draw_line` on a well-formed canvas, whatever the segment and the fuel:
when it returns, it returns a well-formed canvas, and otherwise it is still running. -/
theorem draw_line_canvas_run {W H x0 y0 : Int} (hW : IsInt32 W) (hH : IsInt32 H)
    (hx0 : IsInt32 x0) (hy0 : IsInt32 y0) (x1 y1 : Int) (hW0 : 0 < W) (hH0 : 0 < H)
    {buf : List Nat} (hbuf : CanvasOK W H buf)
    {r g b a : Nat} (hr : r < 256) (hg : g < 256) (hb : b < 256) (ha : a < 256) (fuel : Nat) :
    (∃ out, draw_line fuel buf W H x0 y0 x1 y1 r g b a = Except.ok out ∧ CanvasOK W H out) ∨
    draw_line fuel buf W H x0 y0 x1 y1 r g b a = Except.error Fault.outOfFuel := by
  rcases draw_line_run hW hH hx0 hy0 x1 y1 hW0 hH0 buf hbuf.length_eq r g b a fuel with
    ⟨tr, out, _, hrun, hl, hv, _⟩ | ⟨_, hrun⟩
  · left
    exact ⟨out, hrun, canvas_of_blends hW0 hbuf hr hg hb ha (fun x y => tr.count (x, y)) hl hv⟩
  · right
    exact hrun

/-- One call of `draw_line` on a well-formed canvas, for end points in `[-2^28, 2^28]`,
returns a well-formed canvas. -/
theorem draw_line_canvas {W H x0 y0 x1 y1 : Int} (hW : IsInt32 W) (hH : IsInt32 H)
    (hx0 : InRange28 x0) (hy0 : InRange28 y0) (hx1 : InRange28 x1) (hy1 : InRange28 y1)
    (hW0 : 0 < W) (hH0 : 0 < H) {buf : List Nat} (hbuf : CanvasOK W H buf)
    {r g b a : Nat} (hr : r < 256) (hg : g < 256) (hb : b < 256) (ha : a < 256) :
    ∃ out, ReturnsWith (fun fuel => draw_line fuel buf W H x0 y0 x1 y1 r g b a) out ∧
      CanvasOK W H out := by
  obtain ⟨tr, _, _, _, _, htr⟩ := trace_line_path x0 y0 x1 y1 hx0 hy0 hx1 hy1
  obtain ⟨out, hrun, hl, hv, _⟩ := draw_line_spec hW hH hx0 hy0 hx1 hy1 hW0 hH0 buf
    hbuf.length_eq r g b a tr htr
  exact ⟨out, hrun, canvas_of_blends hW0 hbuf hr hg hb ha (fun x y => tr.count (x, y)) hl hv⟩

/-! ## The frame renderer -/

/-- A loop whose every step returns with enough fuel and keeps an invariant returns with
enough fuel and keeps the invariant. -/
theorem returns_foldlM {α β : Type} (step : Nat → β → α → Except Fault β) (P : β → Prop)
    (Q : α → Prop)
    (hstep : ∀ s x, P s → Q x → ∃ s2, ReturnsWith (fun fuel => step fuel s x) s2 ∧ P s2) :
    ∀ (l : List α), (∀ x ∈ l, Q x) → ∀ s, P s →
      ∃ s2, ReturnsWith (fun fuel => l.foldlM (step fuel) s) s2 ∧ P s2 := by
  intro l
  induction l with
  | nil =>
    intro _ s hs
    exact ⟨s, ⟨0, fun fuel _ => by simp [List.foldlM, pure, Except.pure]⟩, hs⟩
  | cons x xs ih =>
    intro hq s hs
    obtain ⟨s1, ⟨N1, h1⟩, hp1⟩ := hstep s x hs (hq x (List.mem_cons_self x xs))
    obtain ⟨s2, ⟨N2, h2⟩, hp2⟩ := ih (fun y hy => hq y (List.mem_cons_of_mem x hy)) s1 hp1
    refine ⟨s2, ⟨max N1 N2, fun fuel hfuel => ?_⟩, hp2⟩
    have e1 := h1 fuel (le_trans (le_max_left N1 N2) hfuel)
    have e2 := h2 fuel (le_trans (le_max_right N1 N2) hfuel)
    simp only [] at e1 e2
    simp only [List.foldlM, bind, Except.bind, e1]
    exact e2

/-- The body of the loop over the groups, for segments with coordinates in `[-2^28, 2^28]`,
returns and keeps the canvas well formed. -/
theorem render_file_canvas {W H : Int} (hW : IsInt32 W) (hH : IsInt32 H) (hW0 : 0 < W)
    (hH0 : 0 < H) (img : List Nat) (f : FileSegments) (himg : CanvasOK W H img)
    (hf : ∀ s ∈ f.lines, SegInRange28 s) :
    ∃ out, ReturnsWith (fun fuel => render_file fuel W H img f) out ∧ CanvasOK W H out := by
  by_cases hskip : (!f.visible || f.lines.isEmpty) = true
  · refine ⟨img, ⟨0, fun fuel _ => ?_⟩, himg⟩
    show render_file fuel W H img f = Except.ok img
    unfold render_file
    rw [if_pos hskip]
  · obtain ⟨out, ⟨N, hN⟩, hout⟩ := returns_foldlM
      (fun fuel img (s : Seg) => draw_line fuel img W H s.x0 s.y0 s.x1 s.y1
        (toUInt8 (clampi f.rgba.1 0 255)) (toUInt8 (clampi f.rgba.2.1 0 255))
        (toUInt8 (clampi f.rgba.2.2.1 0 255)) (toUInt8 (clampi f.rgba.2.2.2 0 255)))
      (CanvasOK W H) SegInRange28
      (fun s x hs hx => draw_line_canvas hW hH hx.1 hx.2.1 hx.2.2.1 hx.2.2.2 hW0 hH0 hs
        (toUInt8_lt _) (toUInt8_lt _) (toUInt8_lt _) (toUInt8_lt _))
      f.lines hf img himg
    refine ⟨out, ⟨N, fun fuel hfuel => ?_⟩, hout⟩
    show render_file fuel W H img f = Except.ok out
    unfold render_file
    rw [if_neg hskip]
    exact hN fuel hfuel

/-- On a canvas of positive size, for segments with coordinates in `[-2^28, 2^28]`,
`rasterize_geometry` returns a well-formed canvas. -/
theorem rasterize_geometry_canvas {view_w view_h : Int} (hW : IsInt32 view_w)
    (hH : IsInt32 view_h) (hW0 : 0 < view_w) (hH0 : 0 < view_h) (files : List FileSegments)
    (hfiles : FilesInRange28 files) :
    ∃ out, ReturnsWith (fun fuel => rasterize_geometry fuel view_w view_h files) out ∧
      CanvasOK view_w view_h out := by
  obtain ⟨out, ⟨N, hN⟩, hout⟩ := returns_foldlM
    (fun fuel img f => render_file fuel view_w view_h img f) (CanvasOK view_w view_h)
    (fun f => ∀ s ∈ f.lines, SegInRange28 s)
    (fun s x hs hx => render_file_canvas hW hH hW0 hH0 s x hs hx)
    files hfiles _ (replicate_zero_canvas hW hH hW0 hH0)
  refine ⟨out, ⟨N, fun fuel hfuel => ?_⟩, hout⟩
  show rasterize_geometry fuel view_w view_h files = Except.ok out
  unfold rasterize_geometry
  rw [if_neg (by omega)]
  exact hN fuel hfuel

/-- A loop whose every step, with the fuel at hand, either keeps an invariant or is still
running, either keeps the invariant or is still running. -/
theorem runs_foldlM {α β : Type} (step : β → α → Except Fault β) (P : β → Prop)
    (Q : α → Prop)
    (hstep : ∀ s x, P s → Q x →
      (∃ s2, step s x = Except.ok s2 ∧ P s2) ∨ step s x = Except.error Fault.outOfFuel) :
    ∀ (l : List α), (∀ x ∈ l, Q x) → ∀ s, P s →
      (∃ s2, l.foldlM step s = Except.ok s2 ∧ P s2) ∨
        l.foldlM step s = Except.error Fault.outOfFuel := by
  intro l
  induction l with
  | nil =>
    intro _ s hs
    exact Or.inl ⟨s, by simp [List.foldlM, pure, Except.pure], hs⟩
  | cons x xs ih =>
    intro hq s hs
    rcases hstep s x hs (hq x (List.mem_cons_self x xs)) with ⟨s1, e1, hp1⟩ | e1
    · rcases ih (fun y hy => hq y (List.mem_cons_of_mem x hy)) s1 hp1 with ⟨s2, e2, hp2⟩ | e2
      · left
        refine ⟨s2, ?_, hp2⟩
        simp only [List.foldlM, bind, Except.bind, e1]
        exact e2
      · right
        simp only [List.foldlM, bind, Except.bind, e1]
        exact e2
    · right
      simp only [List.foldlM, bind, Except.bind, e1]

/-- The body of the loop over the groups, whatever the segments and the fuel: when it
returns, the canvas is well formed, and otherwise it is still running. -/
theorem render_file_canvas_run {W H : Int} (hW : IsInt32 W) (hH : IsInt32 H) (hW0 : 0 < W)
    (hH0 : 0 < H) (img : List Nat) (f : FileSegments) (himg : CanvasOK W H img)
    (hf : ∀ s ∈ f.lines, SegInt32 s) (fuel : Nat) :
    (∃ out, render_file fuel W H img f = Except.ok out ∧ CanvasOK W H out) ∨
    render_file fuel W H img f = Except.error Fault.outOfFuel := by
  by_cases hskip : (!f.visible || f.lines.isEmpty) = true
  · left
    refine ⟨img, ?_, himg⟩
    unfold render_file
    rw [if_pos hskip]
  · have h := runs_foldlM
      (fun img (s : Seg) => draw_line fuel img W H s.x0 s.y0 s.x1 s.y1
        (toUInt8 (clampi f.rgba.1 0 255)) (toUInt8 (clampi f.rgba.2.1 0 255))
        (toUInt8 (clampi f.rgba.2.2.1 0 255)) (toUInt8 (clampi f.rgba.2.2.2 0 255)))
      (CanvasOK W H) SegInt32
      (fun s x hs hx => draw_line_canvas_run hW hH hx.1 hx.2.1 x.x1 x.y1 hW0 hH0 hs
        (toUInt8_lt _) (toUInt8_lt _) (toUInt8_lt _) (toUInt8_lt _) fuel)
      f.lines hf img himg
    unfold render_file
    rw [if_neg hskip]
    exact h

/-- On a canvas of positive size, whatever the segments and the fuel: when
`rasterize_geometry` returns, it returns a well-formed canvas, and otherwise it is still
running. -/
theorem rasterize_geometry_canvas_run {view_w view_h : Int} (hW : IsInt32 view_w)
    (hH : IsInt32 view_h) (hW0 : 0 < view_w) (hH0 : 0 < view_h) (files : List FileSegments)
    (hfiles : FilesInt32 files) (fuel : Nat) :
    (∃ out, rasterize_geometry fuel view_w view_h files = Except.ok out ∧
      CanvasOK view_w view_h out) ∨
    rasterize_geometry fuel view_w view_h files = Except.error Fault.outOfFuel := by
  have h := runs_foldlM (render_file fuel view_w view_h) (CanvasOK view_w view_h)
    (fun f => ∀ s ∈ f.lines, SegInt32 s)
    (fun s x hs hx => render_file_canvas_run hW hH hW0 hH0 s x hs hx fuel)
    files hfiles _ (replicate_zero_canvas hW hH hW0 hH0)
  unfold rasterize_geometry
  rw [if_neg (by omega)]
  exact h

/-! ## Segments on which the loop does not stop -/

/-- A set of states of the loop that does not hold the end point and that an iteration does
not leave: from such a state the loop never stops. -/
theorem line_path_never (x1 y1 dx sx dy sy : Int) (Inv : Int → Int → Int → Prop)
    (hstep : ∀ x0 y0 err, Inv x0 y0 err → ¬(x0 = x1 ∧ y0 = y1) ∧
      Inv (if wrap_int32 (2 * err) ≥ dy then wrap_int32 (x0 + sx) else x0)
        (if wrap_int32 (2 * err) ≤ dx then wrap_int32 (y0 + sy) else y0)
        (if wrap_int32 (2 * err) ≤ dx
          then wrap_int32 ((if wrap_int32 (2 * err) ≥ dy then wrap_int32 (err + dy) else err) + dx)
          else (if wrap_int32 (2 * err) ≥ dy then wrap_int32 (err + dy) else err))) :
    ∀ (fuel : Nat) (x0 y0 err : Int), Inv x0 y0 err →
      line_path x1 y1 dx sx dy sy fuel x0 y0 err = none := by
  intro fuel
  induction fuel with
  | zero => intro x0 y0 err _; rfl
  | succ n ih =>
    intro x0 y0 err hinv
    obtain ⟨hend, hnext⟩ := hstep x0 y0 err hinv
    rw [line_path, if_neg hend]
    simp only [Option.map_eq_none']
    exact ih _ _ _ hnext

/-- When the path is not complete with any fuel, `draw_line_visits` never returns. -/
theorem draw_line_visits_never (x0 y0 x1 y1 : Int)
    (h : ∀ fuel, line_path x1 y1 (abs_int32 (wrap_int32 (x1 - x0))) (if x0 < x1 then 1 else -1)
      (wrap_int32 (-abs_int32 (wrap_int32 (y1 - y0)))) (if y0 < y1 then 1 else -1) fuel x0 y0
      (wrap_int32 (abs_int32 (wrap_int32 (x1 - x0))
        + wrap_int32 (-abs_int32 (wrap_int32 (y1 - y0))))) = none) :
    ∀ fuel, draw_line_visits fuel x0 y0 x1 y1 = Except.error Fault.outOfFuel := by
  intro fuel
  show trace_line _ fuel [] x0 y0 x1 y1 = Except.error Fault.outOfFuel
  unfold trace_line
  rw [draw_line_loop_unfinished _ _ _ _ _ _ _ fuel [] x0 y0 _ (h fuel), foldlM_record]

/-- The segment `(0, 2) → (2^30, 2)`: `2 * err` overflows in the first iteration, and the
loop never arrives at `(2^30, 2)`. -/
theorem overflow_2err_never (fuel : Nat) :
    draw_line_visits fuel 0 2 1073741824 2 = Except.error Fault.outOfFuel := by
  apply draw_line_visits_never
  intro fuel
  have e1 : abs_int32 (wrap_int32 (1073741824 - 0)) = 1073741824 := by decide
  have e2 : wrap_int32 (-abs_int32 (wrap_int32 (2 - 2))) = 0 := by decide
  have e3 : wrap_int32 ((1073741824 : Int) + 0) = 1073741824 := by decide
  have e4 : (if (0 : Int) < 1073741824 then (1 : Int) else -1) = 1 := by decide
  have e5 : (if (2 : Int) < 2 then (1 : Int) else -1) = -1 := by decide
  rw [e1, e2, e3, e4, e5]
  apply line_path_never 1073741824 2 1073741824 1 0 (-1)
    (fun x y err =>
      ((err = 1073741824 ∨ err = -1073741824) ∧ (2 * x + y - 2) % 4294967296 = 0) ∨
      ((err = -2147483648 ∨ err = 0) ∧ (2 * x + y - 1) % 4294967296 = 0))
  · intro x y err hinv
    rcases hinv with ⟨h | h, hm⟩ | ⟨h | h, hm⟩ <;> subst h <;>
      refine ⟨by omega, ?_⟩ <;> norm_num [wrap_int32] <;> omega
  · left
    exact ⟨Or.inl rfl, by decide⟩

/-- The segment `(0, 0) → (-2^31, 1)`: `std::abs` of the least `int` and `dx + dy`
overflow, no branch of the loop is taken, and the loop stays at `(0, 0)`. -/
theorem overflow_abs_never (fuel : Nat) :
    draw_line_visits fuel 0 0 (-2147483648) 1 = Except.error Fault.outOfFuel := by
  apply draw_line_visits_never
  intro fuel
  have e1 : abs_int32 (wrap_int32 (-2147483648 - 0)) = -2147483648 := by decide
  have e2 : wrap_int32 (-abs_int32 (wrap_int32 (1 - 0))) = -1 := by decide
  have e3 : wrap_int32 ((-2147483648 : Int) + -1) = 2147483647 := by decide
  have e4 : (if (0 : Int) < -2147483648 then (1 : Int) else -1) = -1 := by decide
  have e5 : (if (0 : Int) < 1 then (1 : Int) else -1) = 1 := by decide
  rw [e1, e2, e3, e4, e5]
  apply line_path_never (-2147483648) 1 (-2147483648) (-1) (-1) 1
    (fun x y err => x = 0 ∧ y = 0 ∧ err = 2147483647)
  · rintro x y err ⟨rfl, rfl, rfl⟩
    refine ⟨by omega, ?_⟩
    decide
  · exact ⟨rfl, rfl, rfl⟩

/-! ## The tracer, for end points in `[-2^28, 2^28]` and beyond -/

theorem abs_int_eq_abs (v : Int) : abs_int v = |v| := by
  unfold abs_int
  split
  · rw [abs_of_neg (by assumption)]
  · rw [abs_of_nonneg (by omega)]

theorem count_eq_one_of_nodup {α : Type} [BEq α] [LawfulBEq α] :
    ∀ (l : List α) (a : α), l.Nodup → a ∈ l → l.count a = 1 := by
  intro l
  induction l with
  | nil => intro a _ h; simp at h
  | cons b l ih =>
    intro a hnd ha
    obtain ⟨hb, hl⟩ := List.nodup_cons.1 hnd
    by_cases hab : a = b
    · subst hab
      rw [List.count_cons_self, List.count_eq_zero.2 hb]
    · rw [List.count_cons_of_ne hab]
      rcases List.mem_cons.1 ha with h | h
      · exact absurd h hab
      · exact ih a hl h

/-- C4, as amended: for end points with coordinates in `[-2^28, 2^28]` the loop of
`draw_line` stops, after exactly `max(|x1 - x0|, |y1 - y0|) + 1` iterations: that many
coordinates are visited, that much fuel is enough, and any less is not. -/
theorem C4_loop_visits_max_plus_one (x0 y0 x1 y1 : Int) (hx0 : InRange28 x0)
    (hy0 : InRange28 y0) (hx1 : InRange28 x1) (hy1 : InRange28 y1) :
    ∃ tr : List (Int × Int),
      (∀ fuel, tr.length ≤ fuel → draw_line_visits fuel x0 y0 x1 y1 = Except.ok tr) ∧
      (∀ fuel, fuel < tr.length →
        draw_line_visits fuel x0 y0 x1 y1 = Except.error Fault.outOfFuel) ∧
      (tr.length : Int) = max |x1 - x0| |y1 - y0| + 1 := by
  obtain ⟨tr, hpath, _, hfold, hshort, _⟩ := trace_line_path x0 y0 x1 y1 hx0 hy0 hx1 hy1
  have ha : 0 ≤ abs_int (x1 - x0) := by unfold abs_int; split <;> omega
  have hlen := hpath.length_eq
  refine ⟨tr, ?_, ?_, ?_⟩
  · intro fuel hfuel
    show trace_line _ fuel [] x0 y0 x1 y1 = Except.ok tr
    rw [hfold _ _ fuel [] (by omega), foldlM_record]
    simp
  · intro fuel hfuel
    show trace_line _ fuel [] x0 y0 x1 y1 = Except.error Fault.outOfFuel
    rw [hshort _ _ fuel [] hfuel, foldlM_record]
  · rw [hlen, ← abs_int_eq_abs, ← abs_int_eq_abs]
    push_cast
    rw [Int.toNat_of_nonneg (le_trans ha (le_max_left _ _))]

/-- An instance of C4: the segment `(-2, -1) → (5, 4)`. -/
theorem C4_loop_visits_max_plus_one_witness :
    InRange28 (-2) ∧ InRange28 (-1) ∧ InRange28 5 ∧ InRange28 4 ∧
    ∃ tr : List (Int × Int),
      (∀ fuel, tr.length ≤ fuel → draw_line_visits fuel (-2) (-1) 5 4 = Except.ok tr) ∧
      (∀ fuel, fuel < tr.length →
        draw_line_visits fuel (-2) (-1) 5 4 = Except.error Fault.outOfFuel) ∧
      (tr.length : Int) = max |(5 : Int) - -2| |(4 : Int) - -1| + 1 :=
  ⟨by decide, by decide, by decide, by decide,
    C4_loop_visits_max_plus_one (-2) (-1) 5 4 (by decide) (by decide) (by decide) (by decide)⟩

/-- C4, as stated, fails: for the `int` end points `(0, 2)` and `(2^30, 2)` the product
`2 * err` overflows in the first iteration and the loop of `draw_line` does not stop,
whatever the number of iterations allowed. -/
theorem C4_loop_does_not_stop :
    SegInt32 ⟨0, 2, 1073741824, 2⟩ ∧
    (∀ fuel, draw_line_visits fuel 0 2 1073741824 2 = Except.error Fault.outOfFuel) ∧
    ¬ ∃ tr, ReturnsWith (fun fuel => draw_line_visits fuel 0 2 1073741824 2) tr := by
  refine ⟨by decide, overflow_2err_never, ?_⟩
  rintro ⟨tr, N, hN⟩
  have h := hN N (le_refl N)
  simp only [overflow_2err_never] at h
  cases h

/-- C6, as amended: for end points with coordinates in `[-2^28, 2^28]` the coordinates
visited by the loop of `draw_line` are pairwise different, each end point occurs exactly
once, and `draw_line` has applied the "over" formula exactly once to each byte of each
visited pixel of the canvas. -/
theorem C6_no_coordinate_twice (x0 y0 x1 y1 : Int) (hx0 : InRange28 x0)
    (hy0 : InRange28 y0) (hx1 : InRange28 x1) (hy1 : InRange28 y1) :
    ∃ tr : List (Int × Int),
      ReturnsWith (fun fuel => draw_line_visits fuel x0 y0 x1 y1) tr ∧
      tr.Nodup ∧ tr.count (x0, y0) = 1 ∧ tr.count (x1, y1) = 1 ∧
      ∀ (W H : Int) (buf : List Nat) (r g b a : Nat),
        IsInt32 W → IsInt32 H → 0 < W → 0 < H →
        (buf.length : Int) = W * H * 4 →
        ∃ out, ReturnsWith (fun fuel => draw_line fuel buf W H x0 y0 x1 y1 r g b a) out ∧
          ∀ c ∈ tr, OnCanvas W H c.1 c.2 → ∀ k, k < 4 →
            out[pixel_index W c.1 c.2 + k]? = (buf[pixel_index W c.1 c.2 + k]?).map
              (over_byte (channel_src (premul r a) (premul g a) (premul b a) a k) a) := by
  obtain ⟨tr, hpath, hhead, _, _, hret⟩ := trace_line_path x0 y0 x1 y1 hx0 hy0 hx1 hy1
  refine ⟨tr, hret, hpath.nodup,
    count_eq_one_of_nodup tr _ hpath.nodup (List.mem_of_mem_head? hhead),
    count_eq_one_of_nodup tr _ hpath.nodup (List.mem_of_mem_getLast? hpath.last_eq), ?_⟩
  intro W H buf r g b a hW hH hW0 hH0 hlen
  obtain ⟨out, hrun, _, hv, _⟩ := draw_line_spec hW hH hx0 hy0 hx1 hy1 hW0 hH0 buf hlen
    r g b a tr hret
  refine ⟨out, hrun, ?_⟩
  intro c hc hon k hk
  obtain ⟨cx, cy⟩ := c
  have h1 := hv cx cy hon k hk
  rw [count_eq_one_of_nodup tr _ hpath.nodup hc] at h1
  simpa using h1

/-- An instance of C6: the segment `(0, 0) → (4, 1)`. -/
theorem C6_no_coordinate_twice_witness :
    InRange28 0 ∧ InRange28 4 ∧ InRange28 1 ∧
    ∃ tr : List (Int × Int),
      ReturnsWith (fun fuel => draw_line_visits fuel 0 0 4 1) tr ∧
      tr.Nodup ∧ tr.count (0, 0) = 1 ∧ tr.count (4, 1) = 1 ∧
      ∀ (W H : Int) (buf : List Nat) (r g b a : Nat),
        IsInt32 W → IsInt32 H → 0 < W → 0 < H →
        (buf.length : Int) = W * H * 4 →
        ∃ out, ReturnsWith (fun fuel => draw_line fuel buf W H 0 0 4 1 r g b a) out ∧
          ∀ c ∈ tr, OnCanvas W H c.1 c.2 → ∀ k, k < 4 →
            out[pixel_index W c.1 c.2 + k]? = (buf[pixel_index W c.1 c.2 + k]?).map
              (over_byte (channel_src (premul r a) (premul g a) (premul b a) a k) a) :=
  ⟨by decide, by decide, by decide,
    C6_no_coordinate_twice 0 0 4 1 (by decide) (by decide) (by decide) (by decide)⟩

/-- C6, as stated, fails: for the `int` end points `(0, 0)` and `(-2^31, 1)` the loop of
`draw_line` visits `(0, 0)` in its first iteration and again in its second, and in every
one after, without stopping; on a canvas 1 x 1 the first iteration blends a translucent red
into the pixel `(0, 0)`, which then holds `[0, 0, 128, 128]`, and the second blends it
again, to `[0, 0, 191, 191]`. -/
theorem C6_coordinate_visited_twice :
    SegInt32 ⟨0, 0, -2147483648, 1⟩ ∧
    draw_line_first_visits 2 0 0 (-2147483648) 1 = [(0, 0), (0, 0)] ∧
    (∀ fuel, draw_line_visits fuel 0 0 (-2147483648) 1 = Except.error Fault.outOfFuel) ∧
    draw_line_steps 1 [0, 0, 0, 0] 1 1 0 0 (-2147483648) 1 255 0 0 128
      = Except.ok [0, 0, 128, 128] ∧
    draw_line_steps 2 [0, 0, 0, 0] 1 1 0 0 (-2147483648) 1 255 0 0 128
      = Except.ok [0, 0, 191, 191] := by
  refine ⟨by decide, by decide, overflow_abs_never, rfl, rfl⟩

/-- C7, as amended: for end points with coordinates in `[-2^28, 2^28]`, successive
coordinates visited by the loop of `draw_line` differ by at most 1 in `x` and in `y` and
are not equal; when `|x1 - x0| ≥ |y1 - y0|` every step moves `x` by exactly `sx`, and when
`|y1 - y0| ≥ |x1 - x0|` every step moves `y` by exactly `sy`. -/
theorem C7_eight_connected_monotonic (x0 y0 x1 y1 : Int) (hx0 : InRange28 x0)
    (hy0 : InRange28 y0) (hx1 : InRange28 x1) (hy1 : InRange28 y1) :
    ∃ tr : List (Int × Int),
      ReturnsWith (fun fuel => draw_line_visits fuel x0 y0 x1 y1) tr ∧
      List.Chain' (fun c d : Int × Int =>
        |d.1 - c.1| ≤ 1 ∧ |d.2 - c.2| ≤ 1 ∧ d ≠ c ∧
        (|y1 - y0| ≤ |x1 - x0| → d.1 = c.1 + (if x0 < x1 then 1 else -1)) ∧
        (|x1 - x0| ≤ |y1 - y0| → d.2 = c.2 + (if y0 < y1 then 1 else -1))) tr := by
  obtain ⟨tr, hpath, _, _, _, hret⟩ := trace_line_path x0 y0 x1 y1 hx0 hy0 hx1 hy1
  refine ⟨tr, hret, List.Chain'.imp ?_ hpath.chain⟩
  rintro c d ⟨h1, h2, h3, h4, h5⟩
  simp only [abs_int_eq_abs] at h4 h5
  refine ⟨?_, ?_, h3, h4, h5⟩
  · rw [abs_le]
    rcases h1 with h | h <;> rw [h]
    · simp
    · split <;> constructor <;> omega
  · rw [abs_le]
    rcases h2 with h | h <;> rw [h]
    · simp
    · split <;> constructor <;> omega

/-- An instance of C7: the segment `(5, 0) → (-3, 3)`. -/
theorem C7_eight_connected_monotonic_witness :
    InRange28 5 ∧ InRange28 0 ∧ InRange28 (-3) ∧ InRange28 3 ∧
    ∃ tr : List (Int × Int),
      ReturnsWith (fun fuel => draw_line_visits fuel 5 0 (-3) 3) tr ∧
      List.Chain' (fun c d : Int × Int =>
        |d.1 - c.1| ≤ 1 ∧ |d.2 - c.2| ≤ 1 ∧ d ≠ c ∧
        (|(3 : Int) - 0| ≤ |(-3 : Int) - 5| → d.1 = c.1 + (if (5 : Int) < -3 then 1 else -1)) ∧
        (|(-3 : Int) - 5| ≤ |(3 : Int) - 0| → d.2 = c.2 + (if (0 : Int) < 3 then 1 else -1))) tr :=
  ⟨by decide, by decide, by decide, by decide,
    C7_eight_connected_monotonic 5 0 (-3) 3 (by decide) (by decide) (by decide) (by decide)⟩

/-- C7, as stated, fails: for the `int` end points `(0, 2)` and `(2^30, 2)`, where
`|y1 - y0| = 0 ≤ |x1 - x0|` and `sx = 1`, the first step of the loop of `draw_line`, from
`(0, 2)` to `(0, 1)`, does not move `x`, and the loop does not stop. -/
theorem C7_first_step_keeps_x :
    SegInt32 ⟨0, 2, 1073741824, 2⟩ ∧
    |(2 : Int) - 2| ≤ |(1073741824 : Int) - 0| ∧
    draw_line_first_visits 3 0 2 1073741824 2 = [(0, 2), (0, 1), (1, 0)] ∧
    (0 : Int) ≠ 0 + (if (0 : Int) < 1073741824 then 1 else -1) ∧
    (∀ fuel, draw_line_visits fuel 0 2 1073741824 2 = Except.error Fault.outOfFuel) := by
  refine ⟨by decide, by decide, by decide, by decide, overflow_2err_never⟩

/-! ## The frame renderer and the compositor, claim by claim -/

theorem pixel_at_congr {out buf : List Nat} {n : Nat}
    (h : ∀ k, k < 4 → out[n + k]? = buf[n + k]?) :
    (out.drop n).take 4 = (buf.drop n).take 4 := by
  apply List.ext_getElem?
  intro m
  rw [List.getElem?_take, List.getElem?_take, List.getElem?_drop, List.getElem?_drop]
  split
  · exact h m (by assumption)
  · rfl

theorem toUInt8_clampi (v : Int) : toUInt8 (clampi v 0 255) = (clampi v 0 255).toNat := by
  unfold toUInt8 clampi
  split
  · rfl
  · split
    · rfl
    · omega

theorem clampi_toNat_lt (v : Int) : (clampi v 0 255).toNat < 256 := by
  unfold clampi
  split
  · decide
  · split
    · decide
    · omega

/-- When the loop does not stop for a segment, `draw_line` does not return for it. -/
theorem draw_line_never {W H x0 y0 : Int} (hW : IsInt32 W) (hH : IsInt32 H)
    (hx0 : IsInt32 x0) (hy0 : IsInt32 y0) (x1 y1 : Int) (hW0 : 0 < W) (hH0 : 0 < H)
    (buf : List Nat) (hlen : (buf.length : Int) = W * H * 4) (r g b a : Nat)
    (hnever : ∀ fuel, draw_line_visits fuel x0 y0 x1 y1 = Except.error Fault.outOfFuel)
    (fuel : Nat) :
    draw_line fuel buf W H x0 y0 x1 y1 r g b a = Except.error Fault.outOfFuel := by
  rcases draw_line_run hW hH hx0 hy0 x1 y1 hW0 hH0 buf hlen r g b a fuel with
    ⟨tr, out, hv, _⟩ | ⟨_, hrun⟩
  · rw [hnever fuel] at hv
    cases hv
  · exact hrun

/-- With one visible group of one segment `rasterize_geometry` is one call of `draw_line`
on the zeroed canvas. -/
theorem rasterize_single (fuel : Nat) (view_w view_h r g b a : Int) (s : Seg)
    (hW0 : 0 < view_w) (hH0 : 0 < view_h) :
    rasterize_geometry fuel view_w view_h [⟨[s], (r, g, b, a), true⟩]
      = draw_line fuel
          (List.replicate ((toSizeT view_w * toSizeT view_h * 4) % 18446744073709551616) 0)
          view_w view_h s.x0 s.y0 s.x1 s.y1 (toUInt8 (clampi r 0 255))
          (toUInt8 (clampi g 0 255)) (toUInt8 (clampi b 0 255)) (toUInt8 (clampi a 0 255)) := by
  unfold rasterize_geometry
  rw [if_neg (by omega)]
  simp only [List.foldlM, render_file, bind, Except.bind, pure, Except.pure]
  simp only [Bool.not_true, List.isEmpty_cons, Bool.or_self, Bool.false_eq_true, if_false]
  cases draw_line fuel _ view_w view_h s.x0 s.y0 s.x1 s.y1 _ _ _ _ <;> rfl

/-- C1, as amended: `rasterize_geometry` returns the empty sequence when a dimension is
not positive; when both are positive and the coordinates of all segments lie in
`[-2^28, 2^28]` it returns exactly `view_w * view_h * 4` bytes; and with other `int`
coordinates, whenever it returns, it returns that many bytes. -/
theorem C1_output_length (view_w view_h : Int) (files : List FileSegments)
    (hW : IsInt32 view_w) (hH : IsInt32 view_h) (hfiles : FilesInt32 files) :
    (view_w ≤ 0 ∨ view_h ≤ 0 →
      ∀ fuel, rasterize_geometry fuel view_w view_h files = Except.ok []) ∧
    (0 < view_w ∧ 0 < view_h → FilesInRange28 files →
      ∃ out, ReturnsWith (fun fuel => rasterize_geometry fuel view_w view_h files) out ∧
        (out.length : Int) = view_w * view_h * 4) ∧
    (0 < view_w ∧ 0 < view_h → ∀ fuel,
      (∃ out, rasterize_geometry fuel view_w view_h files = Except.ok out ∧
        (out.length : Int) = view_w * view_h * 4) ∨
      rasterize_geometry fuel view_w view_h files = Except.error Fault.outOfFuel) := by
  refine ⟨?_, ?_, ?_⟩
  · intro hdeg fuel
    unfold rasterize_geometry
    rw [if_pos hdeg]
  · intro hpos hrange
    obtain ⟨out, hrun, hout⟩ := rasterize_geometry_canvas hW hH hpos.1 hpos.2 files hrange
    exact ⟨out, hrun, hout.length_eq⟩
  · intro hpos fuel
    rcases rasterize_geometry_canvas_run hW hH hpos.1 hpos.2 files hfiles fuel with
      ⟨out, hrun, hout⟩ | hrun
    · exact Or.inl ⟨out, hrun, hout.length_eq⟩
    · exact Or.inr hrun

/-- An instance of C1: a canvas 3 wide and 2 high with one group of one segment. -/
theorem C1_output_length_witness :
    IsInt32 3 ∧ IsInt32 2 ∧ FilesInt32 [⟨[⟨0, 0, 4, 1⟩], (255, 0, 0, 128), true⟩] ∧
    FilesInRange28 [⟨[⟨0, 0, 4, 1⟩], (255, 0, 0, 128), true⟩] ∧
    ∃ out, ReturnsWith (fun fuel => rasterize_geometry fuel 3 2
        [⟨[⟨0, 0, 4, 1⟩], (255, 0, 0, 128), true⟩]) out ∧
      (out.length : Int) = 3 * 2 * 4 :=
  ⟨by decide, by decide, by decide, by decide,
    (C1_output_length 3 2 [⟨[⟨0, 0, 4, 1⟩], (255, 0, 0, 128), true⟩]
      (by decide) (by decide) (by decide)).2.1 (by decide) (by decide)⟩

/-- C1, as stated, fails: on a canvas 2 x 2, for the one segment `(0, 0) → (-2^31, 1)`
with `int` coordinates, `rasterize_geometry` returns no byte sequence at all: the tracer
overflows and does not stop. -/
theorem C1_overflowing_segment_never_returns :
    IsInt32 2 ∧ FilesInt32 [⟨[⟨0, 0, -2147483648, 1⟩], (255, 0, 0, 255), true⟩] ∧
    (∀ fuel, rasterize_geometry fuel 2 2 [⟨[⟨0, 0, -2147483648, 1⟩], (255, 0, 0, 255), true⟩]
      = Except.error Fault.outOfFuel) ∧
    ¬ ∃ out, ReturnsWith (fun fuel =>
      rasterize_geometry fuel 2 2 [⟨[⟨0, 0, -2147483648, 1⟩], (255, 0, 0, 255), true⟩]) out := by
  have hnever : ∀ fuel,
      rasterize_geometry fuel 2 2 [⟨[⟨0, 0, -2147483648, 1⟩], (255, 0, 0, 255), true⟩]
        = Except.error Fault.outOfFuel := by
    intro fuel
    rw [rasterize_single fuel 2 2 255 0 0 255 ⟨0, 0, -2147483648, 1⟩ (by decide) (by decide)]
    exact draw_line_never (by decide) (by decide) (by decide) (by decide) _ _ (by decide)
      (by decide) _ (by decide) _ _ _ _ overflow_abs_never fuel
  refine ⟨by decide, by decide, hnever, ?_⟩
  rintro ⟨out, N, hN⟩
  have h := hN N (le_refl N)
  simp only [hnever] at h
  cases h

/-- C2, as amended: one visible group with one segment whose coordinates lie in
`[-2^28, 2^28]`, on a fresh canvas: the pixel `(x, y)` holds
`[pb, pg, pr, ca]` when `(x, y)` is a coordinate traced for the segment and `[0, 0, 0, 0]`
otherwise, with `cc` the channel clamped to `[0, 255]` and `pc = (cc * ca + 127) / 255`;
and the canvas 2 x 1 with colour `(255, 0, 0, 255)` and segment `(0,0) → (1,0)` gives
`[0, 0, 255, 255, 0, 0, 255, 255]`. -/
theorem C2_single_segment_pixels :
    (∀ (view_w view_h r g b a : Int) (s : Seg),
      IsInt32 view_w → IsInt32 view_h → 0 < view_w → 0 < view_h → SegInRange28 s →
      ∃ (out : List Nat) (tr : List (Int × Int)),
        ReturnsWith (fun fuel =>
          rasterize_geometry fuel view_w view_h [⟨[s], (r, g, b, a), true⟩]) out ∧
        ReturnsWith (fun fuel => draw_line_visits fuel s.x0 s.y0 s.x1 s.y1) tr ∧
        ∀ x y : Int, OnCanvas view_w view_h x y →
          pixel_at out view_w x y =
            if (x, y) ∈ tr then
              [((clampi b 0 255).toNat * (clampi a 0 255).toNat + 127) / 255,
               ((clampi g 0 255).toNat * (clampi a 0 255).toNat + 127) / 255,
               ((clampi r 0 255).toNat * (clampi a 0 255).toNat + 127) / 255,
               (clampi a 0 255).toNat]
            else [0, 0, 0, 0]) ∧
    ReturnsWith (fun fuel =>
      rasterize_geometry fuel 2 1 [⟨[⟨0, 0, 1, 0⟩], (255, 0, 0, 255), true⟩])
      [0, 0, 255, 255, 0, 0, 255, 255] := by
  constructor
  · intro view_w view_h r g b a s hW hH hW0 hH0 hs
    obtain ⟨tr, hpath, _, _, _, htr⟩ := trace_line_path s.x0 s.y0 s.x1 s.y1 hs.1 hs.2.1 hs.2.2.1
      hs.2.2.2
    have hcan := replicate_zero_canvas hW hH hW0 hH0
    obtain ⟨out, hrun, hl, hv, _⟩ := draw_line_spec hW hH hs.1 hs.2.1 hs.2.2.1 hs.2.2.2 hW0 hH0
      _ hcan.length_eq (toUInt8 (clampi r 0 255)) (toUInt8 (clampi g 0 255))
      (toUInt8 (clampi b 0 255)) (toUInt8 (clampi a 0 255)) tr htr
    refine ⟨out, tr, ?_, htr, ?_⟩
    · obtain ⟨N, hN⟩ := hrun
      refine ⟨N, fun fuel hfuel => ?_⟩
      show rasterize_geometry fuel view_w view_h _ = Except.ok out
      rw [rasterize_single fuel view_w view_h r g b a s hW0 hH0]
      exact hN fuel hfuel
    · intro x y hon
      have hlt := pixel_index_lt hon _ hcan.length_eq
      have hzero : ∀ k, k < 4 →
          (List.replicate ((toSizeT view_w * toSizeT view_h * 4) % 18446744073709551616) 0)[
            pixel_index view_w x y + k]? = some 0 := by
        intro k hk
        rw [List.getElem?_replicate, if_pos]
        rw [List.length_replicate] at hlt
        omega
      have ha := clampi_toNat_lt a
      unfold pixel_at
      by_cases hmem : (x, y) ∈ tr
      · rw [if_pos hmem]
        have hcount := count_eq_one_of_nodup tr _ hpath.nodup hmem
        apply pixel_at_eq
        · have h := hv x y hon 0 (by omega)
          rw [hzero 0 (by omega), hcount] at h
          rw [h]
          simp only [Function.iterate_one, Option.map_some', channel_src, toUInt8_clampi]
          rw [over_byte_zero (premul_lt _ _), premul_eq (clampi_toNat_lt b) ha]
        · have h := hv x y hon 1 (by omega)
          rw [hzero 1 (by omega), hcount] at h
          rw [h]
          simp only [Function.iterate_one, Option.map_some', channel_src, toUInt8_clampi]
          rw [over_byte_zero (premul_lt _ _), premul_eq (clampi_toNat_lt g) ha]
        · have h := hv x y hon 2 (by omega)
          rw [hzero 2 (by omega), hcount] at h
          rw [h]
          simp only [Function.iterate_one, Option.map_some', channel_src, toUInt8_clampi]
          rw [over_byte_zero (premul_lt _ _), premul_eq (clampi_toNat_lt r) ha]
        · have h := hv x y hon 3 (by omega)
          rw [hzero 3 (by omega), hcount] at h
          rw [h]
          simp only [Function.iterate_one, Option.map_some', channel_src, toUInt8_clampi]
          rw [over_byte_zero ha]
      · rw [if_neg hmem]
        have hcount := List.count_eq_zero.2 hmem
        apply pixel_at_eq
        · have h := hv x y hon 0 (by omega)
          rw [hzero 0 (by omega), hcount] at h
          rw [h]; rfl
        · have h := hv x y hon 1 (by omega)
          rw [hzero 1 (by omega), hcount] at h
          rw [h]; rfl
        · have h := hv x y hon 2 (by omega)
          rw [hzero 2 (by omega), hcount] at h
          rw [h]; rfl
        · have h := hv x y hon 3 (by omega)
          rw [hzero 3 (by omega), hcount] at h
          rw [h]; rfl
  · refine ⟨2, fun fuel hfuel => ?_⟩
    obtain ⟨f, rfl⟩ : ∃ f, fuel = f + 2 := ⟨fuel - 2, by omega⟩
    rfl

/-- An instance of C2: a canvas 3 x 2 crossed by a translucent segment that leaves it. -/
theorem C2_single_segment_pixels_witness :
    IsInt32 3 ∧ IsInt32 2 ∧ SegInRange28 ⟨0, 0, 4, 1⟩ ∧
    ∃ (out : List Nat) (tr : List (Int × Int)),
      ReturnsWith (fun fuel =>
        rasterize_geometry fuel 3 2 [⟨[⟨0, 0, 4, 1⟩], (300, 10, -5, 128), true⟩]) out ∧
      ReturnsWith (fun fuel => draw_line_visits fuel 0 0 4 1) tr ∧
      ∀ x y : Int, OnCanvas 3 2 x y →
        pixel_at out 3 x y =
          if (x, y) ∈ tr then
            [((clampi (-5) 0 255).toNat * (clampi 128 0 255).toNat + 127) / 255,
             ((clampi 10 0 255).toNat * (clampi 128 0 255).toNat + 127) / 255,
             ((clampi 300 0 255).toNat * (clampi 128 0 255).toNat + 127) / 255,
             (clampi 128 0 255).toNat]
          else [0, 0, 0, 0] :=
  ⟨by decide, by decide, by decide,
    C2_single_segment_pixels.1 3 2 300 10 (-5) 128 ⟨0, 0, 4, 1⟩
      (by decide) (by decide) (by decide) (by decide) (by decide)⟩

/-- C2, as stated, fails, for segments of `int` coordinates outside `[-2^28, 2^28]`. On a
canvas 2 x 2 the one segment `(0, 2) → (2^30, 2)` leaves no rendered canvas to speak of:
`rasterize_geometry` does not return, after the first three iterations of the tracer, at
`(0, 2)`, `(0, 1)` and `(1, 0)`, have painted the pixels `(0, 1)` and `(1, 0)`. On a canvas
1 x 1 the one segment `(0, 0) → (-2^31, 1)` of colour `(0, 255, 0, 64)` keeps the tracer at
`(0, 0)`: `rasterize_geometry` does not return, and after two iterations the traced pixel
`(0, 0)` holds `[0, 111, 0, 111]`, not `[pb, pg, pr, ca] = [0, 64, 0, 64]`. -/
theorem C2_overflowing_segment_paints_and_never_returns :
    IsInt32 2 ∧ SegInt32 ⟨0, 2, 1073741824, 2⟩ ∧ SegInt32 ⟨0, 0, -2147483648, 1⟩ ∧
    (∀ fuel, rasterize_geometry fuel 2 2 [⟨[⟨0, 2, 1073741824, 2⟩], (255, 0, 0, 255), true⟩]
      = Except.error Fault.outOfFuel) ∧
    draw_line_first_visits 3 0 2 1073741824 2 = [(0, 2), (0, 1), (1, 0)] ∧
    draw_line_steps 3 (List.replicate 16 0) 2 2 0 2 1073741824 2 255 0 0 255
      = Except.ok [0, 0, 0, 0, 0, 0, 255, 255, 0, 0, 255, 255, 0, 0, 0, 0] ∧
    (∀ fuel, rasterize_geometry fuel 1 1 [⟨[⟨0, 0, -2147483648, 1⟩], (0, 255, 0, 64), true⟩]
      = Except.error Fault.outOfFuel) ∧
    draw_line_first_visits 2 0 0 (-2147483648) 1 = [(0, 0), (0, 0)] ∧
    draw_line_steps 2 [0, 0, 0, 0] 1 1 0 0 (-2147483648) 1 0 255 0 64
      = Except.ok [0, 111, 0, 111] ∧
    [((clampi 0 0 255).toNat * (clampi 64 0 255).toNat + 127) / 255,
     ((clampi 255 0 255).toNat * (clampi 64 0 255).toNat + 127) / 255,
     ((clampi 0 0 255).toNat * (clampi 64 0 255).toNat + 127) / 255,
     (clampi 64 0 255).toNat] = [0, 64, 0, 64] := by
  refine ⟨by decide, by decide, by decide, ?_, by decide, rfl, ?_, by decide, rfl, by decide⟩
  · intro fuel
    rw [rasterize_single fuel 2 2 255 0 0 255 ⟨0, 2, 1073741824, 2⟩ (by decide) (by decide)]
    exact draw_line_never (by decide) (by decide) (by decide) (by decide) _ _ (by decide)
      (by decide) _ (by decide) _ _ _ _ overflow_2err_never fuel
  · intro fuel
    rw [rasterize_single fuel 1 1 0 255 0 64 ⟨0, 0, -2147483648, 1⟩ (by decide) (by decide)]
    exact draw_line_never (by decide) (by decide) (by decide) (by decide) _ _ (by decide)
      (by decide) _ (by decide) _ _ _ _ overflow_abs_never fuel

/-! ## The buffer after a number of iterations of the loop -/

/-- The blends of the first `n` iterations of `draw_line`, whatever the segment: each byte
of each pixel has had the "over" formula applied once for every visit of the pixel. -/
theorem draw_line_steps_spec {W H x0 y0 : Int} (hW : IsInt32 W) (hH : IsInt32 H)
    (hx0 : IsInt32 x0) (hy0 : IsInt32 y0) (x1 y1 : Int) (hW0 : 0 < W) (hH0 : 0 < H)
    (buf : List Nat) (hlen : (buf.length : Int) = W * H * 4) (r g b a : Nat) (n : Nat) :
    ∃ mid, draw_line_steps n buf W H x0 y0 x1 y1 r g b a = Except.ok mid ∧
      mid.length = buf.length ∧
      (∀ x y, OnCanvas W H x y → ∀ k, k < 4 →
        mid[pixel_index W x y + k]? = (buf[pixel_index W x y + k]?).map
          ((over_byte (channel_src (premul r a) (premul g a) (premul b a) a k) a)^[
            (draw_line_first_visits n x0 y0 x1 y1).count (x, y)])) ∧
      ((∀ c ∈ draw_line_first_visits n x0 y0 x1 y1, ¬OnCanvas W H c.1 c.2) → mid = buf) := by
  have h32 := draw_line_first_visits_int32 hx0 hy0 x1 y1 n
  obtain ⟨mid, e, l, v⟩ := plot_foldlM_spec hW hH hW0 hH0 (premul r a) (premul g a)
    (premul b a) a _ h32 buf hlen
  refine ⟨mid, e, l, v, ?_⟩
  intro hoff
  have e2 := plot_foldlM_off hW hH hW0 hH0 (premul r a) (premul g a) (premul b a) a _ h32
    hoff buf
  rw [e2] at e
  exact (Except.ok.inj e).symm

/-- What `draw_line` comes to with `fuel` iterations, in terms of the blends of these
iterations: their buffer when the loop has stopped, and no result when it is still
running. -/
theorem draw_line_eq_steps (fuel : Nat) (buf : List Nat) (W H x0 y0 x1 y1 : Int)
    (r g b a : Nat) :
    draw_line fuel buf W H x0 y0 x1 y1 r g b a
      = (match draw_line_steps fuel buf W H x0 y0 x1 y1 r g b a with
        | Except.error e => Except.error e
        | Except.ok mid =>
          match draw_line_visits fuel x0 y0 x1 y1 with
          | Except.ok _ => Except.ok mid
          | Except.error _ => Except.error Fault.outOfFuel) := by
  have hsteps : draw_line_steps fuel buf W H x0 y0 x1 y1 r g b a
      = (draw_line_first_visits fuel x0 y0 x1 y1).foldlM
          (fun s c => plot W H (premul r a) (premul g a) (premul b a) a s c.1 c.2) buf := rfl
  have hdraw : draw_line fuel buf W H x0 y0 x1 y1 r g b a
      = trace_line (plot W H (premul r a) (premul g a) (premul b a) a) fuel buf x0 y0 x1 y1 :=
    rfl
  rw [hsteps, hdraw]
  rcases trace_line_cases x0 y0 x1 y1 fuel with ⟨tr, hv, hfirst, hfold⟩ | ⟨hv, hfold⟩
  · rw [hfold, hfirst, hv]
    cases tr.foldlM
      (fun s c => plot W H (premul r a) (premul g a) (premul b a) a s c.1 c.2) buf <;> rfl
  · rw [hfold, hv]
    cases (draw_line_first_visits fuel x0 y0 x1 y1).foldlM
      (fun s c => plot W H (premul r a) (premul g a) (premul b a) a s c.1 c.2) buf <;> rfl

/-- When `draw_line` returns, it returns the buffer of the blends of all its iterations. -/
theorem draw_line_steps_of_ok {fuel : Nat} {buf out : List Nat} {W H x0 y0 x1 y1 : Int}
    {r g b a : Nat} (h : draw_line fuel buf W H x0 y0 x1 y1 r g b a = Except.ok out) :
    draw_line_steps fuel buf W H x0 y0 x1 y1 r g b a = Except.ok out := by
  rw [draw_line_eq_steps] at h
  cases hs : draw_line_steps fuel buf W H x0 y0 x1 y1 r g b a with
  | error e =>
    rw [hs] at h
    cases h
  | ok mid =>
    rw [hs] at h
    cases hv : draw_line_visits fuel x0 y0 x1 y1 with
    | error e =>
      rw [hv] at h
      cases h
    | ok tr =>
      rw [hv] at h
      exact h

/-- C3: every pixel of every buffer that `rasterize_geometry` returns has `B`, `G`, `R` at
most `A`, whatever the `int` coordinates of the segments: with any fuel the run either
returns such a buffer or is still in a tracer loop, and for coordinates in
`[-2^28, 2^28]` it returns; `draw_line` keeps that property of a byte buffer, after any
number of iterations of its loop and so in the buffer it returns, and a zeroed buffer has
it. -/
theorem C3_premultiplied_invariant :
    (∀ (view_w view_h : Int) (files : List FileSegments),
      IsInt32 view_w → IsInt32 view_h → 0 < view_w → 0 < view_h → FilesInt32 files →
      (∀ fuel,
        (∃ out, rasterize_geometry fuel view_w view_h files = Except.ok out ∧
          Premultiplied out) ∨
        rasterize_geometry fuel view_w view_h files = Except.error Fault.outOfFuel) ∧
      (FilesInRange28 files →
        ∃ out, ReturnsWith (fun fuel => rasterize_geometry fuel view_w view_h files) out ∧
          Premultiplied out)) ∧
    (∀ (W H x0 y0 x1 y1 : Int) (buf : List Nat) (r g b a : Nat),
      IsInt32 W → IsInt32 H → 0 < W → 0 < H →
      IsInt32 x0 → IsInt32 y0 → IsInt32 x1 → IsInt32 y1 →
      r < 256 → g < 256 → b < 256 → a < 256 →
      (buf.length : Int) = W * H * 4 → IsBytes buf → Premultiplied buf →
      (∀ n, ∃ mid, draw_line_steps n buf W H x0 y0 x1 y1 r g b a = Except.ok mid ∧
        Premultiplied mid) ∧
      (∀ fuel,
        (∃ out, draw_line fuel buf W H x0 y0 x1 y1 r g b a = Except.ok out ∧
          Premultiplied out) ∨
        draw_line fuel buf W H x0 y0 x1 y1 r g b a = Except.error Fault.outOfFuel) ∧
      (InRange28 x0 → InRange28 y0 → InRange28 x1 → InRange28 y1 →
        ∃ out, ReturnsWith (fun fuel => draw_line fuel buf W H x0 y0 x1 y1 r g b a) out ∧
          Premultiplied out)) ∧
    (∀ n : Nat, Premultiplied (List.replicate n 0)) := by
  refine ⟨?_, ?_, ?_⟩
  · intro view_w view_h files hW hH hW0 hH0 hfiles
    constructor
    · intro fuel
      rcases rasterize_geometry_canvas_run hW hH hW0 hH0 files hfiles fuel with
        ⟨out, hrun, hout⟩ | hrun
      · exact Or.inl ⟨out, hrun, hout.premultiplied⟩
      · exact Or.inr hrun
    · intro hrange
      obtain ⟨out, hrun, hout⟩ := rasterize_geometry_canvas hW hH hW0 hH0 files hrange
      exact ⟨out, hrun, hout.premultiplied⟩
  · intro W H x0 y0 x1 y1 buf r g b a hW hH hW0 hH0 hx0 hy0 _ _ hr hg hb ha hlen hbytes hpre
    refine ⟨?_, ?_, ?_⟩
    · intro n
      obtain ⟨mid, e, hl, hv, _⟩ := draw_line_steps_spec hW hH hx0 hy0 x1 y1 hW0 hH0 buf hlen
        r g b a n
      exact ⟨mid, e, (canvas_of_blends hW0 ⟨hlen, hbytes, hpre⟩ hr hg hb ha
        (fun x y => (draw_line_first_visits n x0 y0 x1 y1).count (x, y)) hl hv).premultiplied⟩
    · intro fuel
      rcases draw_line_canvas_run hW hH hx0 hy0 x1 y1 hW0 hH0 ⟨hlen, hbytes, hpre⟩ hr hg hb ha
        fuel with ⟨out, hrun, hout⟩ | hrun
      · exact Or.inl ⟨out, hrun, hout.premultiplied⟩
      · exact Or.inr hrun
    · intro rx0 ry0 rx1 ry1
      obtain ⟨out, hrun, hout⟩ := draw_line_canvas hW hH rx0 ry0 rx1 ry1 hW0 hH0
        ⟨hlen, hbytes, hpre⟩ hr hg hb ha
      exact ⟨out, hrun, hout.premultiplied⟩
  · intro n i _
    have hz : ∀ j : Nat, (List.replicate n 0).getD j 0 = 0 := by
      intro j
      rw [List.getD_eq_getElem?_getD, List.getElem?_replicate]
      split <;> rfl
    simp only [hz, le_refl, and_self]

/-- An instance of C3: two translucent groups that cross on a canvas 3 x 2. -/
theorem C3_premultiplied_invariant_witness :
    IsInt32 3 ∧ IsInt32 2 ∧
    FilesInt32 [⟨[⟨0, 0, 4, 1⟩], (255, 10, 0, 128), true⟩, ⟨[⟨2, 0, 0, 1⟩], (0, 200, 90, 77), true⟩] ∧
    FilesInRange28
      [⟨[⟨0, 0, 4, 1⟩], (255, 10, 0, 128), true⟩, ⟨[⟨2, 0, 0, 1⟩], (0, 200, 90, 77), true⟩] ∧
    ∃ out, ReturnsWith (fun fuel => rasterize_geometry fuel 3 2
        [⟨[⟨0, 0, 4, 1⟩], (255, 10, 0, 128), true⟩, ⟨[⟨2, 0, 0, 1⟩], (0, 200, 90, 77), true⟩]) out ∧
      Premultiplied out :=
  ⟨by decide, by decide, by decide, by decide,
    (C3_premultiplied_invariant.1 3 2
      [⟨[⟨0, 0, 4, 1⟩], (255, 10, 0, 128), true⟩, ⟨[⟨2, 0, 0, 1⟩], (0, 200, 90, 77), true⟩]
      (by decide) (by decide) (by decide) (by decide) (by decide)).2 (by decide)⟩

/-- C8: on a canvas of positive size held in a buffer of `W * H * 4` bytes, the guard of
`draw_line` holds exactly on the canvas, under the guard the four bytes of the pixel lie
inside the buffer at `(y * W + x) * 4 + k`, and no run of `draw_line`, with any segment of
`int` coordinates, any colour and any fuel, reads or writes outside the buffer: it
returns a buffer of the same length or is still in the loop; for coordinates in
`[-2^28, 2^28]` it returns. -/
theorem C8_bounds_safety (W H : Int) (buf : List Nat) (hW : IsInt32 W) (hH : IsInt32 H)
    (hW0 : 0 < W) (hH0 : 0 < H) (hlen : (buf.length : Int) = W * H * 4) :
    (∀ x y : Int, IsInt32 x → IsInt32 y →
      (in_canvas W H x y = true ↔ (0 ≤ x ∧ x < W ∧ 0 ≤ y ∧ y < H))) ∧
    (∀ x y : Int, IsInt32 x → IsInt32 y → in_canvas W H x y = true →
      (pixel_offset W x y : Int) = (y * W + x) * 4 ∧
      ∀ k : Nat, k < 4 → (y * W + x) * 4 + k < W * H * 4 ∧ pixel_offset W x y + k < buf.length) ∧
    (∀ (x0 y0 x1 y1 : Int) (r g b a : Nat),
      IsInt32 x0 → IsInt32 y0 → IsInt32 x1 → IsInt32 y1 →
      (∀ fuel, draw_line fuel buf W H x0 y0 x1 y1 r g b a ≠ Except.error Fault.outOfBounds) ∧
      (∀ fuel,
        (∃ out, draw_line fuel buf W H x0 y0 x1 y1 r g b a = Except.ok out ∧
          out.length = buf.length) ∨
        draw_line fuel buf W H x0 y0 x1 y1 r g b a = Except.error Fault.outOfFuel) ∧
      (InRange28 x0 → InRange28 y0 → InRange28 x1 → InRange28 y1 →
        ∃ out, ReturnsWith (fun fuel => draw_line fuel buf W H x0 y0 x1 y1 r g b a) out)) := by
  refine ⟨?_, ?_, ?_⟩
  · intro x y hx hy
    exact in_canvas_iff hW hH hx hy hW0 hH0
  · intro x y hx hy hg
    have hon := (in_canvas_iff hW hH hx hy hW0 hH0).1 hg
    have hoff := pixel_offset_eq hW hH hon
    have hlt := pixel_index_lt hon buf hlen
    obtain ⟨hb0, hb1⟩ := pixel_row_bound hon
    rw [hoff]
    unfold pixel_index at *
    generalize y * W + x = z at *
    generalize W * H = wh at *
    refine ⟨by omega, fun k hk => ⟨by omega, by omega⟩⟩
  · intro x0 y0 x1 y1 r g b a hx0 hy0 _ _
    have hcases : ∀ fuel,
        (∃ out, draw_line fuel buf W H x0 y0 x1 y1 r g b a = Except.ok out ∧
          out.length = buf.length) ∨
        draw_line fuel buf W H x0 y0 x1 y1 r g b a = Except.error Fault.outOfFuel := by
      intro fuel
      rcases draw_line_run hW hH hx0 hy0 x1 y1 hW0 hH0 buf hlen r g b a fuel with
        ⟨tr, out, _, hrun, hl, _⟩ | ⟨_, hrun⟩
      · exact Or.inl ⟨out, hrun, hl⟩
      · exact Or.inr hrun
    refine ⟨?_, hcases, ?_⟩
    · intro fuel
      rcases hcases fuel with ⟨out, hrun, _⟩ | hrun <;> rw [hrun] <;> simp
    · intro rx0 ry0 rx1 ry1
      obtain ⟨tr, _, _, _, _, htr⟩ := trace_line_path x0 y0 x1 y1 rx0 ry0 rx1 ry1
      obtain ⟨out, hrun, _⟩ := draw_line_spec hW hH rx0 ry0 rx1 ry1 hW0 hH0 buf hlen r g b a
        tr htr
      exact ⟨out, hrun⟩

/-- An instance of C8: a canvas 2 x 2 already painted. -/
theorem C8_bounds_safety_witness :
    IsInt32 2 ∧ (0 : Int) < 2 ∧
    (([1, 2, 3, 4, 5, 6, 7, 8, 9, 10, 11, 12, 13, 14, 15, 16] : List Nat).length : Int)
      = 2 * 2 * 4 ∧
    (∀ (x0 y0 x1 y1 : Int) (r g b a : Nat),
      IsInt32 x0 → IsInt32 y0 → IsInt32 x1 → IsInt32 y1 →
      (∀ fuel, draw_line fuel [1, 2, 3, 4, 5, 6, 7, 8, 9, 10, 11, 12, 13, 14, 15, 16] 2 2
        x0 y0 x1 y1 r g b a ≠ Except.error Fault.outOfBounds) ∧
      (∀ fuel,
        (∃ out, draw_line fuel [1, 2, 3, 4, 5, 6, 7, 8, 9, 10, 11, 12, 13, 14, 15, 16] 2 2
            x0 y0 x1 y1 r g b a = Except.ok out ∧
          out.length
            = ([1, 2, 3, 4, 5, 6, 7, 8, 9, 10, 11, 12, 13, 14, 15, 16] : List Nat).length) ∨
        draw_line fuel [1, 2, 3, 4, 5, 6, 7, 8, 9, 10, 11, 12, 13, 14, 15, 16] 2 2
          x0 y0 x1 y1 r g b a = Except.error Fault.outOfFuel) ∧
      (InRange28 x0 → InRange28 y0 → InRange28 x1 → InRange28 y1 →
        ∃ out, ReturnsWith (fun fuel =>
          draw_line fuel [1, 2, 3, 4, 5, 6, 7, 8, 9, 10, 11, 12, 13, 14, 15, 16] 2 2
            x0 y0 x1 y1 r g b a) out)) :=
  ⟨by decide, by decide, by decide,
    (C8_bounds_safety 2 2 [1, 2, 3, 4, 5, 6, 7, 8, 9, 10, 11, 12, 13, 14, 15, 16]
      (by decide) (by decide) (by decide) (by decide) (by decide)).2.2⟩

/-- A buffer in which each byte of each pixel has had a formula applied once for every
occurrence of the pixel in `tr` differs from the first one only inside the pixels of
`tr`. -/
theorem frameKept_of_counts {W H : Int} (hW0 : 0 < W) {buf out : List Nat}
    (hlen : (buf.length : Int) = W * H * 4) (tr : List (Int × Int)) (f : Nat → Nat → Nat)
    (hl : out.length = buf.length)
    (hv : ∀ x y, OnCanvas W H x y → ∀ k, k < 4 →
      out[pixel_index W x y + k]? = (buf[pixel_index W x y + k]?).map ((f k)^[tr.count (x, y)]))
    (hoff : (∀ c ∈ tr, ¬OnCanvas W H c.1 c.2) → out = buf) :
    FrameKept W H buf out tr := by
  have hkeep : ∀ x y : Int, OnCanvas W H x y → (x, y) ∉ tr → ∀ k, k < 4 →
      out[pixel_index W x y + k]? = buf[pixel_index W x y + k]? := by
    intro x y hon hmem k hk
    rw [hv x y hon k hk, List.count_eq_zero.2 hmem]
    simp
  refine ⟨hl, ?_, ?_, hoff⟩
  · intro x y hon hmem
    exact pixel_at_congr (hkeep x y hon hmem)
  · intro j hj
    by_cases hjl : j < buf.length
    · have hiWH : ((j / 4 : Nat) : Int) < W * H := by
        generalize W * H = z at *
        omega
      obtain ⟨x, y, hon, hidx⟩ := pixel_of_index hW0 (j / 4) hiWH
      have hmem : (x, y) ∉ tr := by
        intro hc
        have := hj (x, y) hc hon
        simp only [] at this
        omega
      have := hkeep x y hon hmem (j % 4) (by omega)
      rw [hidx] at this
      have e : 4 * (j / 4) + j % 4 = j := by omega
      rw [e] at this
      exact this
    · rw [List.getElem?_eq_none (by omega), List.getElem?_eq_none (by omega)]

/-- C9: `draw_line`, for every segment of `int` coordinates, keeps the length of the
buffer and the four bytes of every pixel of the canvas that is not a coordinate traced for
the segment; no byte outside the pixels of the traced coordinates on the canvas changes,
and when no traced coordinate is on the canvas the whole buffer is unchanged. This holds
of the buffer after any number of iterations of the loop, and so of the buffer returned,
which is the buffer after the iterations run; for coordinates in `[-2^28, 2^28]` the call
returns. -/
theorem C9_frame (W H x0 y0 x1 y1 : Int) (buf : List Nat) (r g b a : Nat)
    (hW : IsInt32 W) (hH : IsInt32 H) (hW0 : 0 < W) (hH0 : 0 < H)
    (hx0 : IsInt32 x0) (hy0 : IsInt32 y0) (_ : IsInt32 x1) (_ : IsInt32 y1)
    (hlen : (buf.length : Int) = W * H * 4) :
    (∀ n : Nat, ∃ mid, draw_line_steps n buf W H x0 y0 x1 y1 r g b a = Except.ok mid ∧
      FrameKept W H buf mid (draw_line_first_visits n x0 y0 x1 y1)) ∧
    (∀ (fuel : Nat) (out : List Nat),
      draw_line fuel buf W H x0 y0 x1 y1 r g b a = Except.ok out →
      draw_line_steps fuel buf W H x0 y0 x1 y1 r g b a = Except.ok out ∧
      ∃ tr, draw_line_visits fuel x0 y0 x1 y1 = Except.ok tr ∧ FrameKept W H buf out tr) ∧
    (InRange28 x0 → InRange28 y0 → InRange28 x1 → InRange28 y1 →
      ∃ (out : List Nat) (tr : List (Int × Int)),
        ReturnsWith (fun fuel => draw_line fuel buf W H x0 y0 x1 y1 r g b a) out ∧
        ReturnsWith (fun fuel => draw_line_visits fuel x0 y0 x1 y1) tr ∧
        FrameKept W H buf out tr) := by
  refine ⟨?_, ?_, ?_⟩
  · intro n
    obtain ⟨mid, e, hl, hv, hoff⟩ := draw_line_steps_spec hW hH hx0 hy0 x1 y1 hW0 hH0 buf hlen
      r g b a n
    exact ⟨mid, e, frameKept_of_counts hW0 hlen _ _ hl hv hoff⟩
  · intro fuel out hout
    refine ⟨draw_line_steps_of_ok hout, ?_⟩
    rcases draw_line_run hW hH hx0 hy0 x1 y1 hW0 hH0 buf hlen r g b a fuel with
      ⟨tr, out2, htr, hrun, hl, hv, hoff⟩ | ⟨_, hrun⟩
    · rw [hrun] at hout
      cases hout
      exact ⟨tr, htr, frameKept_of_counts hW0 hlen _ _ hl hv hoff⟩
    · rw [hrun] at hout
      cases hout
  · intro rx0 ry0 rx1 ry1
    obtain ⟨tr, _, _, _, _, htr⟩ := trace_line_path x0 y0 x1 y1 rx0 ry0 rx1 ry1
    obtain ⟨out, hrun, hl, hv, hoff⟩ := draw_line_spec hW hH rx0 ry0 rx1 ry1 hW0 hH0 buf hlen
      r g b a tr htr
    exact ⟨out, tr, hrun, htr, frameKept_of_counts hW0 hlen _ _ hl hv hoff⟩

/-- An instance of C9: a segment that enters a painted canvas 2 x 2 from outside. -/
theorem C9_frame_witness :
    IsInt32 2 ∧ IsInt32 (-1) ∧ IsInt32 0 ∧ IsInt32 1 ∧ (0 : Int) < 2 ∧
    InRange28 (-1) ∧ InRange28 0 ∧ InRange28 1 ∧
    ∃ (out : List Nat) (tr : List (Int × Int)),
      ReturnsWith (fun fuel => draw_line fuel
        [1, 2, 3, 4, 5, 6, 7, 8, 9, 10, 11, 12, 13, 14, 15, 16] 2 2 (-1) 0 1 1 200 100 50 128) out ∧
      ReturnsWith (fun fuel => draw_line_visits fuel (-1) 0 1 1) tr ∧
      FrameKept 2 2 [1, 2, 3, 4, 5, 6, 7, 8, 9, 10, 11, 12, 13, 14, 15, 16] out tr :=
  ⟨by decide, by decide, by decide, by decide, by decide, by decide, by decide, by decide,
    (C9_frame 2 2 (-1) 0 1 1 [1, 2, 3, 4, 5, 6, 7, 8, 9, 10, 11, 12, 13, 14, 15, 16] 200 100 50 128
      (by decide) (by decide) (by decide) (by decide) (by decide) (by decide) (by decide)
      (by decide) (by decide)).2.2 (by decide) (by decide) (by decide) (by decide)⟩

/-- With `a = 255`, a pixel that has had the "over" formula applied at least once holds
`[b, g, r, 255]`. -/
theorem opaque_pixel {W H : Int} {buf out : List Nat} (hlen : (buf.length : Int) = W * H * 4)
    {r g b : Nat} (hr : r < 256) (hg : g < 256) (hb : b < 256) (tr : List (Int × Int))
    (hv : ∀ x y, OnCanvas W H x y → ∀ k, k < 4 →
      out[pixel_index W x y + k]? = (buf[pixel_index W x y + k]?).map
        ((over_byte (channel_src (premul r 255) (premul g 255) (premul b 255) 255 k) 255)^[
          tr.count (x, y)])) :
    ∀ c ∈ tr, OnCanvas W H c.1 c.2 → pixel_at out W c.1 c.2 = [b, g, r, 255] := by
  intro c hc hon
  obtain ⟨cx, cy⟩ := c
  replace hon : OnCanvas W H cx cy := hon
  show pixel_at out W cx cy = [b, g, r, 255]
  have hlt := pixel_index_lt hon buf hlen
  have hpos : 0 < tr.count (cx, cy) := List.count_pos_iff.2 hc
  have hbyte : ∀ k, k < 4 → out[pixel_index W cx cy + k]?
      = some (channel_src r g b 255 k) := by
    intro k hk
    rw [hv cx cy hon k hk, List.getElem?_eq_getElem (by omega), Option.map_some',
      premul_opaque hr, premul_opaque hg, premul_opaque hb]
    have hs : channel_src r g b 255 k < 256 := by
      rcases (by omega : k = 0 ∨ k = 1 ∨ k = 2 ∨ k = 3) with rfl | rfl | rfl | rfl <;>
        simp only [channel_src] <;> omega
    rw [over_byte_opaque_iterate hs _ _ hpos]
  exact pixel_at_eq (hbyte 0 (by omega)) (hbyte 1 (by omega)) (hbyte 2 (by omega))
    (hbyte 3 (by omega))

/-- C10: with `a = 255`, whatever the buffer held and whatever the segment of `int`
coordinates, every pixel of the canvas that is a coordinate traced for the segment holds
exactly `[b, g, r, 255]`: after any number of iterations of the loop of `draw_line`, and
so in the buffer returned; for coordinates in `[-2^28, 2^28]` the call returns. -/
theorem C10_opaque_overwrite (W H x0 y0 x1 y1 : Int) (buf : List Nat) (r g b : Nat)
    (hW : IsInt32 W) (hH : IsInt32 H) (hW0 : 0 < W) (hH0 : 0 < H)
    (hx0 : IsInt32 x0) (hy0 : IsInt32 y0) (_ : IsInt32 x1) (_ : IsInt32 y1)
    (hlen : (buf.length : Int) = W * H * 4) (hr : r < 256) (hg : g < 256) (hb : b < 256) :
    (∀ n : Nat, ∃ mid, draw_line_steps n buf W H x0 y0 x1 y1 r g b 255 = Except.ok mid ∧
      ∀ c ∈ draw_line_first_visits n x0 y0 x1 y1, OnCanvas W H c.1 c.2 →
        pixel_at mid W c.1 c.2 = [b, g, r, 255]) ∧
    (∀ (fuel : Nat) (out : List Nat),
      draw_line fuel buf W H x0 y0 x1 y1 r g b 255 = Except.ok out →
      ∃ tr, draw_line_visits fuel x0 y0 x1 y1 = Except.ok tr ∧
        ∀ c ∈ tr, OnCanvas W H c.1 c.2 → pixel_at out W c.1 c.2 = [b, g, r, 255]) ∧
    (InRange28 x0 → InRange28 y0 → InRange28 x1 → InRange28 y1 →
      ∃ (out : List Nat) (tr : List (Int × Int)),
        ReturnsWith (fun fuel => draw_line fuel buf W H x0 y0 x1 y1 r g b 255) out ∧
        ReturnsWith (fun fuel => draw_line_visits fuel x0 y0 x1 y1) tr ∧
        ∀ c ∈ tr, OnCanvas W H c.1 c.2 → pixel_at out W c.1 c.2 = [b, g, r, 255]) := by
  refine ⟨?_, ?_, ?_⟩
  · intro n
    obtain ⟨mid, e, _, hv, _⟩ := draw_line_steps_spec hW hH hx0 hy0 x1 y1 hW0 hH0 buf hlen
      r g b 255 n
    exact ⟨mid, e, opaque_pixel hlen hr hg hb _ hv⟩
  · intro fuel out hout
    rcases draw_line_run hW hH hx0 hy0 x1 y1 hW0 hH0 buf hlen r g b 255 fuel with
      ⟨tr, out2, htr, hrun, _, hv, _⟩ | ⟨_, hrun⟩
    · rw [hrun] at hout
      cases hout
      exact ⟨tr, htr, opaque_pixel hlen hr hg hb _ hv⟩
    · rw [hrun] at hout
      cases hout
  · intro rx0 ry0 rx1 ry1
    obtain ⟨tr, _, _, _, _, htr⟩ := trace_line_path x0 y0 x1 y1 rx0 ry0 rx1 ry1
    obtain ⟨out, hrun, _, hv, _⟩ := draw_line_spec hW hH rx0 ry0 rx1 ry1 hW0 hH0 buf hlen
      r g b 255 tr htr
    exact ⟨out, tr, hrun, htr, opaque_pixel hlen hr hg hb _ hv⟩

/-- An instance of C10: an opaque segment across a painted canvas 2 x 2. -/
theorem C10_opaque_overwrite_witness :
    IsInt32 2 ∧ IsInt32 (-1) ∧ IsInt32 0 ∧ IsInt32 1 ∧ (0 : Int) < 2 ∧ (200 : Nat) < 256 ∧
    InRange28 (-1) ∧ InRange28 0 ∧ InRange28 1 ∧
    ∃ (out : List Nat) (tr : List (Int × Int)),
      ReturnsWith (fun fuel => draw_line fuel
        [1, 2, 3, 4, 5, 6, 7, 8, 9, 10, 11, 12, 13, 14, 15, 16] 2 2 (-1) 0 1 1 200 100 50 255) out ∧
      ReturnsWith (fun fuel => draw_line_visits fuel (-1) 0 1 1) tr ∧
      ∀ c ∈ tr, OnCanvas 2 2 c.1 c.2 → pixel_at out 2 c.1 c.2 = [50, 100, 200, 255] :=
  ⟨by decide, by decide, by decide, by decide, by decide, by decide, by decide, by decide,
    by decide,
    (C10_opaque_overwrite 2 2 (-1) 0 1 1 [1, 2, 3, 4, 5, 6, 7, 8, 9, 10, 11, 12, 13, 14, 15, 16]
      200 100 50 (by decide) (by decide) (by decide) (by decide) (by decide) (by decide)
      (by decide) (by decide) (by decide) (by decide) (by decide) (by decide)).2.2
      (by decide) (by decide) (by decide) (by decide)⟩

/-! ## Whole groups: the visits of a group and what rendering it does to each pixel -/

theorem segment_visits_returns (s : Seg) (hs : SegInRange28 s) :
    ReturnsWith (fun fuel => draw_line_visits fuel s.x0 s.y0 s.x1 s.y1) (segment_visits s) := by
  obtain ⟨tr, hpath, _, hfold, _, hret⟩ := trace_line_path s.x0 s.y0 s.x1 s.y1 hs.1 hs.2.1
    hs.2.2.1 hs.2.2.2
  have h : draw_line_visits ((max (abs_int (s.x1 - s.x0)) (abs_int (s.y1 - s.y0))).toNat + 1)
      s.x0 s.y0 s.x1 s.y1 = Except.ok tr := by
    show trace_line _ _ [] s.x0 s.y0 s.x1 s.y1 = Except.ok tr
    rw [hfold _ _ _ [] (le_refl _), foldlM_record]
    simp
  have e : segment_visits s = tr := by
    unfold segment_visits
    rw [h]
  rw [e]
  exact hret

/-- Two buffers of a `W * H` canvas that agree on every byte of every pixel are equal. -/
theorem buffer_ext {W H : Int} (hW0 : 0 < W) {b1 b2 : List Nat}
    (h1 : (b1.length : Int) = W * H * 4) (h2 : b2.length = b1.length)
    (h : ∀ x y, OnCanvas W H x y → ∀ k, k < 4 →
      b2[pixel_index W x y + k]? = b1[pixel_index W x y + k]?) : b2 = b1 := by
  apply List.ext_getElem?
  intro j
  by_cases hj : j < b1.length
  · have hiWH : ((j / 4 : Nat) : Int) < W * H := by
      generalize W * H = z at *
      omega
    obtain ⟨x, y, hon, hidx⟩ := pixel_of_index hW0 (j / 4) hiWH
    have := h x y hon (j % 4) (by omega)
    rw [hidx] at this
    have e : 4 * (j / 4) + j % 4 = j := by omega
    rw [e] at this
    exact this
  · rw [List.getElem?_eq_none (by omega), List.getElem?_eq_none (by omega)]

/-- The inner loop of `rasterize_geometry` over the segments of one group, with coordinates
in `[-2^28, 2^28]`: it returns, and each byte of each pixel has had the "over" formula
applied once for every visit of the pixel. -/
theorem draw_lines_spec {W H : Int} (hW : IsInt32 W) (hH : IsInt32 H) (hW0 : 0 < W)
    (hH0 : 0 < H) (r g b a : Nat) :
    ∀ (lines : List Seg), (∀ s ∈ lines, SegInRange28 s) →
    ∀ (img : List Nat), (img.length : Int) = W * H * 4 →
      ∃ out, ReturnsWith (fun fuel => lines.foldlM
          (fun img s => draw_line fuel img W H s.x0 s.y0 s.x1 s.y1 r g b a) img) out ∧
        out.length = img.length ∧
        ∀ x y, OnCanvas W H x y → ∀ k, k < 4 →
          out[pixel_index W x y + k]? = (img[pixel_index W x y + k]?).map
            ((over_byte (channel_src (premul r a) (premul g a) (premul b a) a k) a)^[
              (lines.flatMap segment_visits).count (x, y)]) := by
  intro lines
  induction lines with
  | nil =>
    intro _ img _
    exact ⟨img, ⟨0, fun fuel _ => by simp [List.foldlM, pure, Except.pure]⟩, rfl, by simp⟩
  | cons s ss ih =>
    intro hin img hlen
    have hs := hin s (List.mem_cons_self s ss)
    obtain ⟨o1, ⟨N1, hN1⟩, l1, v1, _⟩ := draw_line_spec hW hH hs.1 hs.2.1 hs.2.2.1 hs.2.2.2
      hW0 hH0 img hlen r g b a (segment_visits s) (segment_visits_returns s hs)
    obtain ⟨o2, ⟨N2, hN2⟩, l2, v2⟩ := ih (fun t ht => hin t (List.mem_cons_of_mem s ht)) o1
      (by rw [l1]; exact hlen)
    refine ⟨o2, ⟨max N1 N2, fun fuel hfuel => ?_⟩, by omega, ?_⟩
    · have e1 := hN1 fuel (le_trans (le_max_left N1 N2) hfuel)
      have e2 := hN2 fuel (le_trans (le_max_right N1 N2) hfuel)
      simp only [] at e1 e2
      simp only [List.foldlM, bind, Except.bind, e1]
      exact e2
    · intro x y hon k hk
      rw [v2 x y hon k hk, v1 x y hon k hk, Option.map_map, List.flatMap_cons, List.count_append]
      congr 1
      rw [← Function.iterate_add, Nat.add_comm]

/-- The body of the loop over the groups, pixel by pixel, for segments with coordinates in
`[-2^28, 2^28]`: a group blends its clamped, premultiplied colour `group_count` times into
each pixel. -/
theorem render_file_spec {W H : Int} (hW : IsInt32 W) (hH : IsInt32 H) (hW0 : 0 < W)
    (hH0 : 0 < H) (f : FileSegments) (hf : ∀ s ∈ f.lines, SegInRange28 s)
    (img : List Nat) (hlen : (img.length : Int) = W * H * 4) :
    ∃ out, ReturnsWith (fun fuel => render_file fuel W H img f) out ∧
      out.length = img.length ∧
      ∀ x y, OnCanvas W H x y → ∀ k, k < 4 →
        out[pixel_index W x y + k]? = (img[pixel_index W x y + k]?).map
          ((over_byte (channel_src
              (premul (toUInt8 (clampi f.rgba.1 0 255)) (toUInt8 (clampi f.rgba.2.2.2 0 255)))
              (premul (toUInt8 (clampi f.rgba.2.1 0 255)) (toUInt8 (clampi f.rgba.2.2.2 0 255)))
              (premul (toUInt8 (clampi f.rgba.2.2.1 0 255)) (toUInt8 (clampi f.rgba.2.2.2 0 255)))
              (toUInt8 (clampi f.rgba.2.2.2 0 255)) k)
            (toUInt8 (clampi f.rgba.2.2.2 0 255)))^[group_count f x y]) := by
  by_cases hskip : (!f.visible || f.lines.isEmpty) = true
  · refine ⟨img, ⟨0, fun fuel _ => ?_⟩, rfl, ?_⟩
    · show render_file fuel W H img f = Except.ok img
      unfold render_file
      rw [if_pos hskip]
    · intro x y _ k _
      have hz : group_count f x y = 0 := by
        unfold group_count group_visits
        simp only [Bool.or_eq_true, Bool.not_eq_true'] at hskip
        rcases hskip with h | h
        · simp [h]
        · rw [List.isEmpty_iff.1 h]
          simp
      rw [hz]
      simp
  · obtain ⟨out, ⟨N, hN⟩, hl, hv⟩ := draw_lines_spec hW hH hW0 hH0
      (toUInt8 (clampi f.rgba.1 0 255)) (toUInt8 (clampi f.rgba.2.1 0 255))
      (toUInt8 (clampi f.rgba.2.2.1 0 255)) (toUInt8 (clampi f.rgba.2.2.2 0 255)) f.lines hf
      img hlen
    refine ⟨out, ⟨N, fun fuel hfuel => ?_⟩, hl, ?_⟩
    · show render_file fuel W H img f = Except.ok out
      unfold render_file
      rw [if_neg hskip]
      exact hN fuel hfuel
    · intro x y hon k hk
      have hvis : f.visible = true := by
        simp only [Bool.or_eq_true, Bool.not_eq_true', not_or, Bool.not_eq_false] at hskip
        exact hskip.1
      have hc : group_count f x y = (f.lines.flatMap segment_visits).count (x, y) := by
        unfold group_count group_visits
        rw [if_pos hvis]
      rw [hc]
      exact hv x y hon k hk

/-! ## Composing the loop over the groups -/

theorem rasterize_geometry_eq_foldlM (fuel : Nat) {view_w view_h : Int} (hW0 : 0 < view_w)
    (hH0 : 0 < view_h) (files : List FileSegments) :
    rasterize_geometry fuel view_w view_h files
      = files.foldlM (render_file fuel view_w view_h)
          (List.replicate ((toSizeT view_w * toSizeT view_h * 4) % 18446744073709551616) 0) := by
  unfold rasterize_geometry
  rw [if_neg (by omega)]

theorem returns_foldlM_singleton {W H : Int} {img out : List Nat} {f : FileSegments}
    (h : ReturnsWith (fun fuel => render_file fuel W H img f) out) :
    ReturnsWith (fun fuel => [f].foldlM (render_file fuel W H) img) out := by
  obtain ⟨N, hN⟩ := h
  refine ⟨N, fun fuel hfuel => ?_⟩
  have e := hN fuel hfuel
  simp only [] at e
  simp only [List.foldlM, bind, Except.bind, e, pure, Except.pure]

/-! ## Transparent sources, skipped groups and clamping -/

theorem premul_transparent (c : Nat) : premul c 0 = 0 := by
  unfold premul toUInt8
  simp only [Nat.cast_zero, mul_zero, zero_add]
  decide

theorem over_byte_transparent {dst : Nat} (hd : dst < 256) : over_byte 0 0 dst = dst := by
  rw [over_byte_eq (by omega) (le_refl 0) hd]
  omega

theorem over_byte_transparent_iterate (n : Nat) {dst : Nat} (hd : dst < 256) :
    (over_byte 0 0)^[n] dst = dst := by
  induction n with
  | zero => rfl
  | succ n ih => rw [Function.iterate_succ_apply, over_byte_transparent hd, ih]

theorem channel_src_zero (k : Nat) : channel_src 0 0 0 0 k = 0 := by
  unfold channel_src
  split <;> rfl

/-- Replacing, in the list of groups, a run of groups by another run that with the fuel
at hand does the same to every well-formed canvas does not change what
`rasterize_geometry` comes to with that fuel, whatever the segments of the groups before
it. -/
theorem rasterize_replace_run {W H : Int} (hW : IsInt32 W) (hH : IsInt32 H) (hW0 : 0 < W)
    (hH0 : 0 < H) (fuel : Nat) (pre m1 m2 post : List FileSegments) (hpre : FilesInt32 pre)
    (hmid : ∀ img, CanvasOK W H img →
      m1.foldlM (render_file fuel W H) img = m2.foldlM (render_file fuel W H) img) :
    rasterize_geometry fuel W H (pre ++ (m1 ++ post))
      = rasterize_geometry fuel W H (pre ++ (m2 ++ post)) := by
  rw [rasterize_geometry_eq_foldlM fuel hW0 hH0, rasterize_geometry_eq_foldlM fuel hW0 hH0]
  simp only [List.foldlM_append]
  rcases runs_foldlM (render_file fuel W H) (CanvasOK W H)
      (fun f => ∀ s ∈ f.lines, SegInt32 s)
      (fun s x hs hx => render_file_canvas_run hW hH hW0 hH0 s x hs hx fuel)
      pre hpre _ (replicate_zero_canvas hW hH hW0 hH0) with ⟨img, e, himg⟩ | e
  · simp only [e, bind, Except.bind]
    rw [hmid img himg]
  · simp only [e, bind, Except.bind]

/-- A buffer of bytes in which each byte has had the "over" formula of a transparent
source applied some number of times is the buffer it was. -/
theorem transparent_blends_eq {W H : Int} (hW0 : 0 < W) {buf out : List Nat}
    (hlen : (buf.length : Int) = W * H * 4) (hbytes : IsBytes buf) (r g b : Nat)
    (cnt : Int → Int → Nat) (hl : out.length = buf.length)
    (hv : ∀ x y, OnCanvas W H x y → ∀ k, k < 4 →
      out[pixel_index W x y + k]? = (buf[pixel_index W x y + k]?).map
        ((over_byte (channel_src (premul r 0) (premul g 0) (premul b 0) 0 k) 0)^[cnt x y])) :
    out = buf := by
  apply buffer_ext hW0 hlen hl
  intro x y hon k hk
  have hlt := pixel_index_lt hon buf hlen
  rw [hv x y hon k hk, premul_transparent, premul_transparent, premul_transparent,
    channel_src_zero, List.getElem?_eq_getElem (by omega), Option.map_some',
    over_byte_transparent_iterate _ (hbytes _ (List.getElem_mem _))]

/-- With `a = 0` and a segment with coordinates in `[-2^28, 2^28]`, `draw_line` returns the
buffer of bytes it was given as soon as the fuel covers the iterations of the segment. -/
theorem draw_line_transparent {W H x0 y0 x1 y1 : Int} (hW : IsInt32 W) (hH : IsInt32 H)
    (hx0 : InRange28 x0) (hy0 : InRange28 y0) (hx1 : InRange28 x1) (hy1 : InRange28 y1)
    (hW0 : 0 < W) (hH0 : 0 < H) (r g b : Nat) (fuel : Nat)
    (hfuel : (max (abs_int (x1 - x0)) (abs_int (y1 - y0))).toNat + 1 ≤ fuel)
    (buf : List Nat) (hlen : (buf.length : Int) = W * H * 4) (hbytes : IsBytes buf) :
    draw_line fuel buf W H x0 y0 x1 y1 r g b 0 = Except.ok buf := by
  obtain ⟨tr, hpath, _, hfold, _, _⟩ := trace_line_path x0 y0 x1 y1 hx0 hy0 hx1 hy1
  have h32 := path_int32 hpath hx0.isInt32 hy0.isInt32 hx1.isInt32 hy1.isInt32
  obtain ⟨out, e, l, v⟩ := plot_foldlM_spec hW hH hW0 hH0 (premul r 0) (premul g 0)
    (premul b 0) 0 tr h32 buf hlen
  have hout : out = buf :=
    transparent_blends_eq hW0 hlen hbytes r g b (fun x y => tr.count (x, y)) l v
  show trace_line _ fuel buf x0 y0 x1 y1 = Except.ok buf
  rw [hfold _ _ fuel buf hfuel, e, hout]

/-- A group whose clamped alpha is 0 and whose segments have coordinates in
`[-2^28, 2^28]` leaves every buffer of bytes as it is, as soon as the fuel covers the
iterations of its segments. -/
theorem render_file_transparent_run {W H : Int} (hW : IsInt32 W) (hH : IsInt32 H)
    (hW0 : 0 < W) (hH0 : 0 < H) (f : FileSegments) (hf : ∀ s ∈ f.lines, SegInRange28 s)
    (ha : f.rgba.2.2.2 ≤ 0) :
    ∃ N : Nat, ∀ fuel, N ≤ fuel → ∀ img : List Nat, (img.length : Int) = W * H * 4 →
      IsBytes img → render_file fuel W H img f = Except.ok img := by
  have ha0 : toUInt8 (clampi f.rgba.2.2.2 0 255) = 0 := by
    unfold toUInt8 clampi
    split
    · rfl
    · omega
  have key : ∀ (lines : List Seg), (∀ s ∈ lines, SegInRange28 s) → ∀ r g b : Nat,
      ∃ N : Nat, ∀ fuel, N ≤ fuel → ∀ img : List Nat, (img.length : Int) = W * H * 4 →
        IsBytes img →
        lines.foldlM (fun img s => draw_line fuel img W H s.x0 s.y0 s.x1 s.y1 r g b 0) img
          = Except.ok img := by
    intro lines
    induction lines with
    | nil =>
      intro _ r g b
      exact ⟨0, fun fuel _ img _ _ => by simp [List.foldlM, pure, Except.pure]⟩
    | cons s ss ih =>
      intro hin r g b
      have hs := hin s (List.mem_cons_self s ss)
      obtain ⟨N2, hN2⟩ := ih (fun t ht => hin t (List.mem_cons_of_mem s ht)) r g b
      refine ⟨max ((max (abs_int (s.x1 - s.x0)) (abs_int (s.y1 - s.y0))).toNat + 1) N2,
        fun fuel hfuel img hlen hbytes => ?_⟩
      have e1 := draw_line_transparent hW hH hs.1 hs.2.1 hs.2.2.1 hs.2.2.2 hW0 hH0 r g b fuel
        (le_trans (le_max_left _ _) hfuel) img hlen hbytes
      simp only [List.foldlM, bind, Except.bind, e1]
      exact hN2 fuel (le_trans (le_max_right _ _) hfuel) img hlen hbytes
  obtain ⟨N, hN⟩ := key f.lines hf (toUInt8 (clampi f.rgba.1 0 255))
    (toUInt8 (clampi f.rgba.2.1 0 255)) (toUInt8 (clampi f.rgba.2.2.1 0 255))
  refine ⟨N, fun fuel hfuel img hlen hbytes => ?_⟩
  unfold render_file
  split
  · rfl
  · simp only [ha0]
    exact hN fuel hfuel img hlen hbytes

/-- C11, as amended: with `a = 0`, whatever the segment of `int` coordinates and whatever
`r`, `g`, `b`, the loop of `draw_line` leaves a buffer of bytes unchanged after any number
of iterations, and `draw_line` returns it unchanged or is still in the loop; it returns
when the coordinates lie in `[-2^28, 2^28]`. A group whose alpha is at most 0 and whose
segments have coordinates in `[-2^28, 2^28]` can be taken out of the list without changing
what `rasterize_geometry` comes to, once the fuel covers the iterations of its segments;
and the canvas 1 x 1 with one group of colour `(0, 0, 0, 0)` and segment `(0,0) → (0,0)`
gives `[0, 0, 0, 0]`. -/
theorem C11_transparent_source_changes_nothing :
    (∀ (W H x0 y0 x1 y1 : Int) (buf : List Nat) (r g b : Nat),
      IsInt32 W → IsInt32 H → 0 < W → 0 < H →
      IsInt32 x0 → IsInt32 y0 → IsInt32 x1 → IsInt32 y1 →
      (buf.length : Int) = W * H * 4 → IsBytes buf →
      (∀ n, draw_line_steps n buf W H x0 y0 x1 y1 r g b 0 = Except.ok buf) ∧
      (∀ fuel, draw_line fuel buf W H x0 y0 x1 y1 r g b 0 = Except.ok buf ∨
        draw_line fuel buf W H x0 y0 x1 y1 r g b 0 = Except.error Fault.outOfFuel) ∧
      (InRange28 x0 → InRange28 y0 → InRange28 x1 → InRange28 y1 →
        ReturnsWith (fun fuel => draw_line fuel buf W H x0 y0 x1 y1 r g b 0) buf)) ∧
    (∀ (view_w view_h : Int) (pre post : List FileSegments) (f : FileSegments),
      IsInt32 view_w → IsInt32 view_h → FilesInt32 pre → FilesInt32 post →
      (∀ s ∈ f.lines, SegInRange28 s) → f.rgba.2.2.2 ≤ 0 →
      ∃ N : Nat, ∀ fuel, N ≤ fuel →
        rasterize_geometry fuel view_w view_h (pre ++ f :: post)
          = rasterize_geometry fuel view_w view_h (pre ++ post)) ∧
    ReturnsWith (fun fuel =>
      rasterize_geometry fuel 1 1 [⟨[⟨0, 0, 0, 0⟩], (0, 0, 0, 0), true⟩]) [0, 0, 0, 0] := by
  refine ⟨?_, ?_, ?_⟩
  · intro W H x0 y0 x1 y1 buf r g b hW hH hW0 hH0 hx0 hy0 _ _ hlen hbytes
    refine ⟨?_, ?_, ?_⟩
    · intro n
      obtain ⟨mid, e, hl, hv, _⟩ := draw_line_steps_spec hW hH hx0 hy0 x1 y1 hW0 hH0 buf hlen
        r g b 0 n
      rw [e, transparent_blends_eq hW0 hlen hbytes r g b _ hl hv]
    · intro fuel
      rcases draw_line_run hW hH hx0 hy0 x1 y1 hW0 hH0 buf hlen r g b 0 fuel with
        ⟨tr, out, _, hrun, hl, hv, _⟩ | ⟨_, hrun⟩
      · left
        rw [hrun, transparent_blends_eq hW0 hlen hbytes r g b (fun x y => tr.count (x, y)) hl hv]
      · right
        exact hrun
    · intro rx0 ry0 rx1 ry1
      exact ⟨_, fun fuel hfuel =>
        draw_line_transparent hW hH rx0 ry0 rx1 ry1 hW0 hH0 r g b fuel hfuel buf hlen hbytes⟩
  · intro view_w view_h pre post f hW hH hpre _ hf ha
    by_cases hdeg : view_w ≤ 0 ∨ view_h ≤ 0
    · refine ⟨0, fun fuel _ => ?_⟩
      unfold rasterize_geometry
      rw [if_pos hdeg, if_pos hdeg]
    · have hW0 : 0 < view_w := by omega
      have hH0 : 0 < view_h := by omega
      obtain ⟨N, hN⟩ := render_file_transparent_run hW hH hW0 hH0 f hf ha
      refine ⟨N, fun fuel hfuel => ?_⟩
      exact rasterize_replace_run hW hH hW0 hH0 fuel pre [f] [] post hpre
        (fun img himg => by
          simp only [List.foldlM, bind, Except.bind, pure, Except.pure,
            hN fuel hfuel img himg.length_eq himg.bytes])
  · refine ⟨1, fun fuel hfuel => ?_⟩
    obtain ⟨n, rfl⟩ : ∃ n, fuel = n + 1 := ⟨fuel - 1, by omega⟩
    rfl

/-- An instance of C11: a transparent segment through a painted canvas 2 x 2. -/
theorem C11_transparent_source_changes_nothing_witness :
    IsInt32 2 ∧ IsInt32 (-1) ∧ IsInt32 0 ∧ IsInt32 1 ∧ (0 : Int) < 2 ∧
    IsBytes [1, 2, 3, 4, 5, 6, 7, 8, 9, 10, 11, 12, 13, 14, 15, 16] ∧
    InRange28 (-1) ∧ InRange28 0 ∧ InRange28 1 ∧
    ReturnsWith (fun fuel => draw_line fuel
      [1, 2, 3, 4, 5, 6, 7, 8, 9, 10, 11, 12, 13, 14, 15, 16] 2 2 (-1) 0 1 1 200 100 50 0)
      [1, 2, 3, 4, 5, 6, 7, 8, 9, 10, 11, 12, 13, 14, 15, 16] :=
  ⟨by decide, by decide, by decide, by decide, by decide, by unfold IsBytes; decide,
    by decide, by decide, by decide,
    (C11_transparent_source_changes_nothing.1 2 2 (-1) 0 1 1
      [1, 2, 3, 4, 5, 6, 7, 8, 9, 10, 11, 12, 13, 14, 15, 16] 200 100 50
      (by decide) (by decide) (by decide) (by decide) (by decide) (by decide) (by decide)
      (by decide) (by decide) (by unfold IsBytes; decide)).2.2
      (by decide) (by decide) (by decide) (by decide)⟩

/-- C11, as stated, fails: on a canvas 1 x 1 the empty list of groups gives `[0, 0, 0, 0]`,
and with the one more group of colour `(0, 0, 0, 0)` and segment `(0, 0) → (-2^31, 1)`, of
`int` coordinates, `rasterize_geometry` gives nothing: the transparent group keeps the
tracer in its loop, and `draw_line` with `a = 0` does not return for that segment. -/
theorem C11_transparent_group_never_returns :
    FilesInt32 [⟨[⟨0, 0, -2147483648, 1⟩], (0, 0, 0, 0), true⟩] ∧
    (∀ fuel, rasterize_geometry fuel 1 1 [] = Except.ok [0, 0, 0, 0]) ∧
    (∀ fuel, rasterize_geometry fuel 1 1 [⟨[⟨0, 0, -2147483648, 1⟩], (0, 0, 0, 0), true⟩]
      = Except.error Fault.outOfFuel) ∧
    (∀ fuel, draw_line fuel [0, 0, 0, 0] 1 1 0 0 (-2147483648) 1 0 0 0 0
      = Except.error Fault.outOfFuel) := by
  have hdraw : ∀ fuel, draw_line fuel [0, 0, 0, 0] 1 1 0 0 (-2147483648) 1 0 0 0 0
      = Except.error Fault.outOfFuel := fun fuel =>
    draw_line_never (by decide) (by decide) (by decide) (by decide) _ _ (by decide)
      (by decide) _ (by decide) _ _ _ _ overflow_abs_never fuel
  refine ⟨by decide, fun fuel => rfl, ?_, hdraw⟩
  intro fuel
  rw [rasterize_single fuel 1 1 0 0 0 0 ⟨0, 0, -2147483648, 1⟩ (by decide) (by decide)]
  exact hdraw fuel

theorem foldlM_render_file_skipped (fuel : Nat) (W H : Int) :
    ∀ (files : List FileSegments), (∀ f ∈ files, f.visible = false ∨ f.lines = []) →
    ∀ img : List Nat, files.foldlM (render_file fuel W H) img = Except.ok img := by
  intro files
  induction files with
  | nil => intro _ img; simp [List.foldlM, pure, Except.pure]
  | cons f fs ih =>
    intro h img
    have hf : (!f.visible || f.lines.isEmpty) = true := by
      rcases h f (List.mem_cons_self f fs) with h1 | h1
      · simp [h1]
      · simp [h1]
    simp only [List.foldlM, render_file, if_pos hf, bind, Except.bind]
    exact ih (fun g hg => h g (List.mem_cons_of_mem f hg)) img

/-- C12: on a canvas of positive size, when every group of the list is invisible or has
no segment (in particular when the list is empty), `rasterize_geometry` returns
`view_w * view_h * 4` zero bytes. -/
theorem C12_nothing_to_draw_all_zero (view_w view_h : Int) (files : List FileSegments)
    (hW : IsInt32 view_w) (hH : IsInt32 view_h) (hW0 : 0 < view_w) (hH0 : 0 < view_h)
    (hall : ∀ f ∈ files, f.visible = false ∨ f.lines = []) :
    ∀ fuel, rasterize_geometry fuel view_w view_h files
      = Except.ok (List.replicate (view_w * view_h * 4).toNat 0) := by
  intro fuel
  rw [rasterize_geometry_eq_foldlM fuel hW0 hH0, foldlM_render_file_skipped fuel _ _ files hall]
  have hlen := (replicate_zero_canvas hW hH hW0 hH0).length_eq
  rw [List.length_replicate] at hlen
  congr 2
  omega

/-- An instance of C12: a canvas 2 x 1 with an invisible group and a group without segments. -/
theorem C12_nothing_to_draw_all_zero_witness :
    IsInt32 2 ∧ IsInt32 1 ∧
    ∀ fuel, rasterize_geometry fuel 2 1
        [⟨[⟨0, 0, 1, 0⟩], (255, 0, 0, 255), false⟩, ⟨[], (0, 255, 0, 255), true⟩]
      = Except.ok (List.replicate ((2 : Int) * 1 * 4).toNat 0) :=
  ⟨by decide, by decide,
    C12_nothing_to_draw_all_zero 2 1
      [⟨[⟨0, 0, 1, 0⟩], (255, 0, 0, 255), false⟩, ⟨[], (0, 255, 0, 255), true⟩]
      (by decide) (by decide) (by decide) (by decide) (by decide)⟩

/-- C13: `rasterize_geometry` on a list of groups is `rasterize_geometry` on the list with
the groups that are invisible or have no segment removed, the others kept in order. -/
theorem C13_skipped_groups_contribute_nothing (fuel : Nat) (view_w view_h : Int)
    (files : List FileSegments) :
    rasterize_geometry fuel view_w view_h files
      = rasterize_geometry fuel view_w view_h
          (files.filter (fun f => f.visible && !f.lines.isEmpty)) := by
  have key : ∀ (fs : List FileSegments) (img : List Nat),
      fs.foldlM (render_file fuel view_w view_h) img
        = (fs.filter (fun f => f.visible && !f.lines.isEmpty)).foldlM
            (render_file fuel view_w view_h) img := by
    intro fs
    induction fs with
    | nil => intro img; rfl
    | cons f fs ih =>
      intro img
      by_cases hf : (f.visible && !f.lines.isEmpty) = true
      · rw [List.filter_cons, if_pos hf]
        simp only [List.foldlM, bind, Except.bind]
        cases render_file fuel view_w view_h img f with
        | error e => rfl
        | ok img1 => exact ih img1
      · rw [List.filter_cons, if_neg hf]
        have hskip : (!f.visible || f.lines.isEmpty) = true := by
          cases hv : f.visible <;> cases he : f.lines.isEmpty <;> simp [hv, he] at hf ⊢
        simp only [List.foldlM, render_file, if_pos hskip, bind, Except.bind]
        exact ih img
  unfold rasterize_geometry
  split
  · rfl
  · exact key files _

theorem clampi_eq_max_min (v : Int) : clampi v 0 255 = max 0 (min 255 v) := by
  unfold clampi
  split
  · omega
  · split <;> omega

theorem clampi_idem (v : Int) : clampi (max 0 (min 255 v)) 0 255 = clampi v 0 255 := by
  rw [← clampi_eq_max_min]
  unfold clampi
  split <;> split <;> (try split) <;> (try split) <;> omega

theorem render_file_clamp_rgba (fuel : Nat) (W H : Int) (img : List Nat) (f : FileSegments) :
    render_file fuel W H img (clamp_rgba f) = render_file fuel W H img f := by
  unfold render_file clamp_rgba
  simp only [clampi_idem]

/-- C14: `rasterize_geometry` returns the same on a list of groups and on the list in which
every channel `v` of every group is replaced by `max 0 (min 255 v)`; `clampi v 0 255` is
`max 0 (min 255 v)` and lies in `[0, 255]`. -/
theorem C14_channels_clamped :
    (∀ (fuel : Nat) (view_w view_h : Int) (files : List FileSegments),
      rasterize_geometry fuel view_w view_h files
        = rasterize_geometry fuel view_w view_h (files.map clamp_rgba)) ∧
    (∀ v : Int, clampi v 0 255 = max 0 (min 255 v) ∧ 0 ≤ clampi v 0 255 ∧ clampi v 0 255 ≤ 255) := by
  constructor
  · intro fuel view_w view_h files
    have key : ∀ (fs : List FileSegments) (img : List Nat),
        fs.foldlM (render_file fuel view_w view_h) img
          = (fs.map clamp_rgba).foldlM (render_file fuel view_w view_h) img := by
      intro fs
      induction fs with
      | nil => intro img; rfl
      | cons f fs ih =>
        intro img
        simp only [List.map_cons, List.foldlM, bind, Except.bind, render_file_clamp_rgba]
        cases render_file fuel view_w view_h img f with
        | error e => rfl
        | ok img1 => exact ih img1
    unfold rasterize_geometry
    split
    · rfl
    · exact key files _
  · intro v
    refine ⟨clampi_eq_max_min v, ?_, ?_⟩ <;> unfold clampi <;> split <;> (try split) <;> omega

/-- C15: the order of the groups is observable: on the canvas 1 x 1, the visible groups
`A` (red, alpha 128) and `B` (blue, alpha 128) both cover the pixel `(0, 0)`, and
`rasterize_geometry` returns `[128, 0, 63, 191]` for `[A, B]` and `[63, 0, 128, 191]` for
`[B, A]`. -/
theorem C15_group_order_observable :
    ∃ (view_w view_h : Int) (A B : FileSegments) (o1 o2 : List Nat),
      0 < view_w ∧ 0 < view_h ∧
      A.visible = true ∧ B.visible = true ∧
      (0 < A.rgba.2.2.2 ∧ A.rgba.2.2.2 < 255) ∧ (0 < B.rgba.2.2.2 ∧ B.rgba.2.2.2 < 255) ∧
      (∃ c, OnCanvas view_w view_h c.1 c.2 ∧ c ∈ group_visits A ∧ c ∈ group_visits B) ∧
      ReturnsWith (fun fuel => rasterize_geometry fuel view_w view_h [A, B]) o1 ∧
      ReturnsWith (fun fuel => rasterize_geometry fuel view_w view_h [B, A]) o2 ∧
      o1 ≠ o2 := by
  refine ⟨1, 1, ⟨[⟨0, 0, 0, 0⟩], (255, 0, 0, 128), true⟩, ⟨[⟨0, 0, 0, 0⟩], (0, 0, 255, 128), true⟩,
    [128, 0, 63, 191], [63, 0, 128, 191], by decide, by decide, rfl, rfl, by decide, by decide,
    ⟨(0, 0), by decide, by decide, by decide⟩, ?_, ?_, by decide⟩
  · refine ⟨1, fun fuel hfuel => ?_⟩
    obtain ⟨n, rfl⟩ : ∃ n, fuel = n + 1 := ⟨fuel - 1, by omega⟩
    rfl
  · refine ⟨1, fun fuel hfuel => ?_⟩
    obtain ⟨n, rfl⟩ : ∃ n, fuel = n + 1 := ⟨fuel - 1, by omega⟩
    rfl

/-- C16: for `c` and `a` in `0..255` the premultiplied value that `draw_line` computes,
`(c * a + 127) / 255` with truncating division, is the integer nearest to `c * a / 255`:
`|255 * p - c * a| ≤ 127`, and no other integer is within `127`; and it lies in `[0, a]`. -/
theorem C16_premultiply_rounds_to_nearest (c a : Nat) (hc : c < 256) (ha : a < 256) :
    (premul c a : Int) = Int.tdiv ((c : Int) * (a : Int) + 127) 255 ∧
    |255 * (premul c a : Int) - (c : Int) * (a : Int)| ≤ 127 ∧
    (∀ q : Int, |255 * q - (c : Int) * (a : Int)| ≤ 127 → q = (premul c a : Int)) ∧
    premul c a ≤ a := by
  have hle := premul_le hc ha
  have heq := premul_eq hc ha
  have hm : c * a ≤ 255 * 255 := Nat.mul_le_mul (by omega) (by omega)
  have hcast : ((c * a : Nat) : Int) = (c : Int) * (a : Int) := by push_cast; rfl
  have hp : (premul c a : Int) = (((c * a : Nat) : Int) + 127) / 255 := by
    rw [heq]
    push_cast
    rfl
  refine ⟨?_, ?_, ?_, hle⟩
  · rw [Int.tdiv_eq_ediv (by positivity) (by omega), hp, hcast]
  · rw [hp, ← hcast, abs_le]
    generalize ((c * a : Nat) : Int) = m
    constructor <;> omega
  · intro q hq
    rw [hp]
    rw [← hcast, abs_le] at hq
    generalize ((c * a : Nat) : Int) = m at *
    omega

/-- An instance of C16: `c = 200`, `a = 128`. -/
theorem C16_premultiply_rounds_to_nearest_witness :
    (200 : Nat) < 256 ∧ (128 : Nat) < 256 ∧
    (premul 200 128 : Int) = Int.tdiv ((200 : Int) * (128 : Int) + 127) 255 ∧
    |255 * (premul 200 128 : Int) - (200 : Int) * (128 : Int)| ≤ 127 ∧
    (∀ q : Int, |255 * q - (200 : Int) * (128 : Int)| ≤ 127 → q = (premul 200 128 : Int)) ∧
    premul 200 128 ≤ 128 :=
  ⟨by decide, by decide, C16_premultiply_rounds_to_nearest 200 128 (by decide) (by decide)⟩

/-- C19: for bytes `r`, `g`, `b`, `a` and any destination byte `d`, the `int` values that
`draw_line` casts to `std::uint8_t` lie in `[0, 255]`: the premultiplied value
`(c * a + 127) / 255`, the colour sum `pc + d * (255 - a) / 255` and the alpha sum
`a + d * (255 - a) / 255`; so the stored bytes are those values themselves. -/
theorem C19_casts_never_wrap (c a d : Nat) (hc : c < 256) (ha : a < 256) (hd : d < 256) :
    (0 ≤ Int.tdiv ((c : Int) * (a : Int) + 127) 255 ∧
      Int.tdiv ((c : Int) * (a : Int) + 127) 255 ≤ 255 ∧
      (premul c a : Int) = Int.tdiv ((c : Int) * (a : Int) + 127) 255) ∧
    (0 ≤ (premul c a : Int) + Int.tdiv ((d : Int) * (255 - (a : Int))) 255 ∧
      (premul c a : Int) + Int.tdiv ((d : Int) * (255 - (a : Int))) 255 ≤ 255 ∧
      (over_byte (premul c a) a d : Int)
        = (premul c a : Int) + Int.tdiv ((d : Int) * (255 - (a : Int))) 255) ∧
    (0 ≤ (a : Int) + Int.tdiv ((d : Int) * (255 - (a : Int))) 255 ∧
      (a : Int) + Int.tdiv ((d : Int) * (255 - (a : Int))) 255 ≤ 255 ∧
      (over_byte a a d : Int) = (a : Int) + Int.tdiv ((d : Int) * (255 - (a : Int))) 255) := by
  have hle := premul_le hc ha
  have hm : c * a ≤ 255 * 255 := Nat.mul_le_mul (by omega) (by omega)
  have hcast : ((c * a : Nat) : Int) = (c : Int) * (a : Int) := by push_cast; rfl
  have hp : (premul c a : Int) = Int.tdiv ((c : Int) * (a : Int) + 127) 255 := by
    rw [Int.tdiv_eq_ediv (by positivity) (by omega), premul_eq hc ha, ← hcast]
    push_cast
    rfl
  have hdm : d * (255 - a) ≤ 255 * (255 - a) := Nat.mul_le_mul_right _ (by omega)
  have hdcast : ((d * (255 - a) : Nat) : Int) = (d : Int) * (255 - (a : Int)) := by
    push_cast
    rw [Nat.cast_sub (by omega)]
    rfl
  have ht : Int.tdiv ((d : Int) * (255 - (a : Int))) 255 = ((d * (255 - a) / 255 : Nat) : Int) := by
    rw [Int.tdiv_eq_ediv (mul_nonneg (by omega) (by omega)) (by omega), ← hdcast]
    push_cast
    rfl
  have hq : d * (255 - a) / 255 ≤ 255 - a := by
    generalize d * (255 - a) = m at *
    omega
  have ho1 : over_byte (premul c a) a d = premul c a + d * (255 - a) / 255 :=
    over_byte_eq ha hle hd
  have ho2 : over_byte a a d = a + d * (255 - a) / 255 := over_byte_eq ha (le_refl a) hd
  refine ⟨⟨?_, ?_, hp⟩, ⟨?_, ?_, ?_⟩, ⟨?_, ?_, ?_⟩⟩
  · rw [← hp]; omega
  · rw [← hp]; omega
  · rw [ht]; omega
  · rw [ht]; omega
  · rw [ho1, ht]; push_cast; rfl
  · rw [ht]; omega
  · rw [ht]; omega
  · rw [ho2, ht]; push_cast; rfl

/-- An instance of C19: `c = 255`, `a = 128`, `d = 255`. -/
theorem C19_casts_never_wrap_witness :
    (255 : Nat) < 256 ∧ (128 : Nat) < 256 ∧
    (over_byte (premul 255 128) 128 255 : Int)
      = (premul 255 128 : Int) + Int.tdiv ((255 : Int) * (255 - (128 : Int))) 255 :=
  ⟨by decide, by decide,
    (C19_casts_never_wrap 255 128 255 (by decide) (by decide) (by decide)).2.1.2.2⟩

/-! ## The order of the segments of a group -/

/-- The inner loop of `rasterize_geometry` over the segments of one group, when the tracer
stops within the fuel at hand for each of them: each byte of each pixel has had the "over"
formula applied once for every visit of the pixel. -/
theorem draw_lines_run_ok {W H : Int} (hW : IsInt32 W) (hH : IsInt32 H) (hW0 : 0 < W)
    (hH0 : 0 < H) (r g b a : Nat) (fuel : Nat) :
    ∀ (lines : List Seg), (∀ s ∈ lines, SegInt32 s) →
    (∀ s ∈ lines, ∃ tr, draw_line_visits fuel s.x0 s.y0 s.x1 s.y1 = Except.ok tr) →
    ∀ (img : List Nat), (img.length : Int) = W * H * 4 →
      ∃ out, lines.foldlM
          (fun img s => draw_line fuel img W H s.x0 s.y0 s.x1 s.y1 r g b a) img = Except.ok out ∧
        out.length = img.length ∧
        ∀ x y, OnCanvas W H x y → ∀ k, k < 4 →
          out[pixel_index W x y + k]? = (img[pixel_index W x y + k]?).map
            ((over_byte (channel_src (premul r a) (premul g a) (premul b a) a k) a)^[
              (lines.flatMap (segment_visits_within fuel)).count (x, y)]) := by
  intro lines
  induction lines with
  | nil =>
    intro _ _ img _
    exact ⟨img, by simp [List.foldlM, pure, Except.pure], rfl, by simp⟩
  | cons s ss ih =>
    intro hin hok img hlen
    have hs := hin s (List.mem_cons_self s ss)
    obtain ⟨tr0, htr0⟩ := hok s (List.mem_cons_self s ss)
    rcases draw_line_run hW hH hs.1 hs.2.1 s.x1 s.y1 hW0 hH0 img hlen r g b a fuel with
      ⟨tr, o1, htr, e1, l1, v1, _⟩ | ⟨hfail, _⟩
    · obtain ⟨o2, e2, l2, v2⟩ := ih (fun t ht => hin t (List.mem_cons_of_mem s ht))
        (fun t ht => hok t (List.mem_cons_of_mem s ht)) o1 (by rw [l1]; exact hlen)
      have hsv : segment_visits_within fuel s = tr := by
        unfold segment_visits_within
        rw [htr]
      refine ⟨o2, ?_, by omega, ?_⟩
      · simp only [List.foldlM, bind, Except.bind, e1]
        exact e2
      · intro x y hon k hk
        rw [v2 x y hon k hk, v1 x y hon k hk, Option.map_map, List.flatMap_cons,
          List.count_append, hsv]
        congr 1
        rw [← Function.iterate_add, Nat.add_comm]
    · rw [htr0] at hfail
      cases hfail

/-- The inner loop of `rasterize_geometry` over the segments of one group, when the tracer
is still running after the fuel at hand for one of them: the loop over the segments has
not returned. -/
theorem draw_lines_run_unfinished {W H : Int} (hW : IsInt32 W) (hH : IsInt32 H) (hW0 : 0 < W)
    (hH0 : 0 < H) (r g b a : Nat) (fuel : Nat) :
    ∀ (lines : List Seg), (∀ s ∈ lines, SegInt32 s) →
    (∃ s ∈ lines, draw_line_visits fuel s.x0 s.y0 s.x1 s.y1 = Except.error Fault.outOfFuel) →
    ∀ (img : List Nat), (img.length : Int) = W * H * 4 →
      lines.foldlM (fun img s => draw_line fuel img W H s.x0 s.y0 s.x1 s.y1 r g b a) img
        = Except.error Fault.outOfFuel := by
  intro lines
  induction lines with
  | nil =>
    rintro _ ⟨s, hs, _⟩ _ _
    simp at hs
  | cons s ss ih =>
    rintro hin ⟨t, ht, hfail⟩ img hlen
    have hs := hin s (List.mem_cons_self s ss)
    rcases draw_line_run hW hH hs.1 hs.2.1 s.x1 s.y1 hW0 hH0 img hlen r g b a fuel with
      ⟨tr, o1, htr, e1, l1, _, _⟩ | ⟨_, e1⟩
    · simp only [List.foldlM, bind, Except.bind, e1]
      rcases List.mem_cons.1 ht with rfl | ht
      · rw [htr] at hfail
        cases hfail
      · exact ih (fun u hu => hin u (List.mem_cons_of_mem s hu)) ⟨t, ht, hfail⟩ o1
          (by rw [l1]; exact hlen)
    · simp only [List.foldlM, bind, Except.bind, e1]

/-- Rendering a group and rendering it with its segments in another order come to the
same, whatever the segments and the fuel. -/
theorem render_file_reorder_run {W H : Int} (hW : IsInt32 W) (hH : IsInt32 H) (hW0 : 0 < W)
    (hH0 : 0 < H) (fuel : Nat) (f : FileSegments) (lines2 : List Seg)
    (hperm : lines2.Perm f.lines) (hf : ∀ s ∈ f.lines, SegInt32 s) (img : List Nat)
    (hlen : (img.length : Int) = W * H * 4) :
    render_file fuel W H img { f with lines := lines2 } = render_file fuel W H img f := by
  have hf2 : ∀ s ∈ lines2, SegInt32 s := fun s hs => hf s ((List.Perm.mem_iff hperm).1 hs)
  have hempty : lines2.isEmpty = f.lines.isEmpty := by
    cases h1 : f.lines with
    | nil =>
      rw [h1] at hperm
      rw [List.Perm.eq_nil hperm]
    | cons a l =>
      cases h2 : lines2 with
      | nil =>
        rw [h1, h2] at hperm
        exact absurd (List.Perm.nil_eq hperm) (by simp)
      | cons _ _ => rfl
  unfold render_file
  simp only [hempty]
  split
  · rfl
  · by_cases hall : ∀ s ∈ f.lines, ∃ tr,
        draw_line_visits fuel s.x0 s.y0 s.x1 s.y1 = Except.ok tr
    · have hall2 : ∀ s ∈ lines2, ∃ tr,
          draw_line_visits fuel s.x0 s.y0 s.x1 s.y1 = Except.ok tr :=
        fun s hs => hall s ((List.Perm.mem_iff hperm).1 hs)
      obtain ⟨o1, e1, l1, v1⟩ := draw_lines_run_ok hW hH hW0 hH0
        (toUInt8 (clampi f.rgba.1 0 255)) (toUInt8 (clampi f.rgba.2.1 0 255))
        (toUInt8 (clampi f.rgba.2.2.1 0 255)) (toUInt8 (clampi f.rgba.2.2.2 0 255)) fuel
        f.lines hf hall img hlen
      obtain ⟨o2, e2, l2, v2⟩ := draw_lines_run_ok hW hH hW0 hH0
        (toUInt8 (clampi f.rgba.1 0 255)) (toUInt8 (clampi f.rgba.2.1 0 255))
        (toUInt8 (clampi f.rgba.2.2.1 0 255)) (toUInt8 (clampi f.rgba.2.2.2 0 255)) fuel
        lines2 hf2 hall2 img hlen
      have e21 : o2 = o1 := by
        apply buffer_ext hW0 (by rw [l1]; exact hlen) (by rw [l2, l1])
        intro x y hon k hk
        have hc := (List.Perm.flatMap_right (segment_visits_within fuel) hperm).countP_eq
          (fun c => c == (x, y))
        rw [v2 x y hon k hk, v1 x y hon k hk]
        unfold List.count
        rw [hc]
      simp only [e1, e2, e21]
    · have hsome : ∃ s ∈ f.lines,
          draw_line_visits fuel s.x0 s.y0 s.x1 s.y1 = Except.error Fault.outOfFuel := by
        by_contra hcon
        apply hall
        intro s hs
        rcases trace_line_cases s.x0 s.y0 s.x1 s.y1 fuel with ⟨tr, htr, _⟩ | ⟨hfail, _⟩
        · exact ⟨tr, htr⟩
        · exact absurd ⟨s, hs, hfail⟩ hcon
      have hsome2 : ∃ s ∈ lines2,
          draw_line_visits fuel s.x0 s.y0 s.x1 s.y1 = Except.error Fault.outOfFuel := by
        obtain ⟨s, hs, hfail⟩ := hsome
        exact ⟨s, (List.Perm.mem_iff hperm).2 hs, hfail⟩
      have e1 := draw_lines_run_unfinished hW hH hW0 hH0
        (toUInt8 (clampi f.rgba.1 0 255)) (toUInt8 (clampi f.rgba.2.1 0 255))
        (toUInt8 (clampi f.rgba.2.2.1 0 255)) (toUInt8 (clampi f.rgba.2.2.2 0 255)) fuel
        f.lines hf hsome img hlen
      have e2 := draw_lines_run_unfinished hW hH hW0 hH0
        (toUInt8 (clampi f.rgba.1 0 255)) (toUInt8 (clampi f.rgba.2.1 0 255))
        (toUInt8 (clampi f.rgba.2.2.1 0 255)) (toUInt8 (clampi f.rgba.2.2.2 0 255)) fuel
        lines2 hf2 hsome2 img hlen
      simp only [e1, e2]

theorem filesInt32_append {l1 l2 : List FileSegments} :
    FilesInt32 (l1 ++ l2) ↔ FilesInt32 l1 ∧ FilesInt32 l2 := by
  unfold FilesInt32
  constructor
  · intro h
    exact ⟨fun f hf => h f (List.mem_append_left _ hf), fun f hf => h f (List.mem_append_right _ hf)⟩
  · rintro ⟨h1, h2⟩ f hf
    rcases List.mem_append.1 hf with h | h
    · exact h1 f h
    · exact h2 f h

theorem filesInt32_cons {f : FileSegments} {l : List FileSegments} :
    FilesInt32 (f :: l) ↔ (∀ s ∈ f.lines, SegInt32 s) ∧ FilesInt32 l := by
  unfold FilesInt32
  simp

/-- The order of the segments of one group of the list does not change what
`rasterize_geometry` comes to, whatever the segments and the fuel. -/
theorem rasterize_reorder_run (view_w view_h : Int) (pre post : List FileSegments)
    (f : FileSegments) (lines2 : List Seg) (hW : IsInt32 view_w) (hH : IsInt32 view_h)
    (hfiles : FilesInt32 (pre ++ f :: post)) (hperm : lines2.Perm f.lines) (fuel : Nat) :
    rasterize_geometry fuel view_w view_h (pre ++ { f with lines := lines2 } :: post)
      = rasterize_geometry fuel view_w view_h (pre ++ f :: post) := by
  obtain ⟨hpre, hrest⟩ := filesInt32_append.1 hfiles
  obtain ⟨hf, _⟩ := filesInt32_cons.1 hrest
  by_cases hdeg : view_w ≤ 0 ∨ view_h ≤ 0
  · unfold rasterize_geometry
    rw [if_pos hdeg, if_pos hdeg]
  · have hW0 : 0 < view_w := by omega
    have hH0 : 0 < view_h := by omega
    exact rasterize_replace_run hW hH hW0 hH0 fuel pre [{ f with lines := lines2 }] [f] post
      hpre (fun img himg => by
        simp only [List.foldlM, bind, Except.bind,
          render_file_reorder_run hW hH hW0 hH0 fuel f lines2 hperm hf img himg.length_eq])

/-- C17, as amended: the order of the segments of a group never matters. For every canvas
and every list of groups with segments of `int` coordinates, putting the segments of one
group in another order leaves what `rasterize_geometry` comes to unchanged, with any fuel:
the same bytes, or both runs still in a tracer loop; and when the coordinates lie in
`[-2^28, 2^28]` both runs return, the same bytes. -/
theorem C17_segment_order_never_matters (view_w view_h : Int) (pre post : List FileSegments)
    (f : FileSegments) (lines2 : List Seg) (hW : IsInt32 view_w) (hH : IsInt32 view_h)
    (hfiles : FilesInt32 (pre ++ f :: post)) (hperm : lines2.Perm f.lines) :
    (∀ fuel,
      rasterize_geometry fuel view_w view_h (pre ++ { f with lines := lines2 } :: post)
        = rasterize_geometry fuel view_w view_h (pre ++ f :: post)) ∧
    (FilesInRange28 (pre ++ f :: post) → ∃ out,
      ReturnsWith (fun fuel => rasterize_geometry fuel view_w view_h (pre ++ f :: post)) out ∧
      ReturnsWith (fun fuel =>
        rasterize_geometry fuel view_w view_h (pre ++ { f with lines := lines2 } :: post)) out) := by
  have heq := rasterize_reorder_run view_w view_h pre post f lines2 hW hH hfiles hperm
  refine ⟨heq, ?_⟩
  intro hrange
  have hret : ∃ out,
      ReturnsWith (fun fuel => rasterize_geometry fuel view_w view_h (pre ++ f :: post)) out := by
    by_cases hdeg : view_w ≤ 0 ∨ view_h ≤ 0
    · refine ⟨[], 0, fun fuel _ => ?_⟩
      show rasterize_geometry fuel view_w view_h _ = Except.ok []
      unfold rasterize_geometry
      rw [if_pos hdeg]
    · obtain ⟨out, hrun, _⟩ := rasterize_geometry_canvas hW hH (by omega) (by omega) _ hrange
      exact ⟨out, hrun⟩
  obtain ⟨out, N, hN⟩ := hret
  refine ⟨out, ⟨N, hN⟩, ⟨N, fun fuel hfuel => ?_⟩⟩
  show rasterize_geometry fuel view_w view_h _ = Except.ok out
  rw [heq fuel]
  exact hN fuel hfuel

/-- An instance of C17: a translucent group of two crossing segments on a canvas 3 x 3,
below another group. -/
theorem C17_segment_order_never_matters_witness :
    IsInt32 3 ∧
    FilesInt32 ([⟨[⟨1, 0, 1, 2⟩], (0, 0, 255, 200), true⟩]
      ++ ⟨[⟨0, 0, 2, 2⟩, ⟨0, 2, 2, 0⟩], (255, 0, 0, 128), true⟩ :: []) ∧
    FilesInRange28 ([⟨[⟨1, 0, 1, 2⟩], (0, 0, 255, 200), true⟩]
      ++ ⟨[⟨0, 0, 2, 2⟩, ⟨0, 2, 2, 0⟩], (255, 0, 0, 128), true⟩ :: []) ∧
    ∃ out,
      ReturnsWith (fun fuel => rasterize_geometry fuel 3 3
        ([⟨[⟨1, 0, 1, 2⟩], (0, 0, 255, 200), true⟩]
          ++ ⟨[⟨0, 0, 2, 2⟩, ⟨0, 2, 2, 0⟩], (255, 0, 0, 128), true⟩ :: [])) out ∧
      ReturnsWith (fun fuel => rasterize_geometry fuel 3 3
        ([⟨[⟨1, 0, 1, 2⟩], (0, 0, 255, 200), true⟩]
          ++ { (⟨[⟨0, 0, 2, 2⟩, ⟨0, 2, 2, 0⟩], (255, 0, 0, 128), true⟩ : FileSegments) with
                lines := [⟨0, 2, 2, 0⟩, ⟨0, 0, 2, 2⟩] } :: [])) out :=
  ⟨by decide, by decide, by decide,
    (C17_segment_order_never_matters 3 3 [⟨[⟨1, 0, 1, 2⟩], (0, 0, 255, 200), true⟩] []
      ⟨[⟨0, 0, 2, 2⟩, ⟨0, 2, 2, 0⟩], (255, 0, 0, 128), true⟩ [⟨0, 2, 2, 0⟩, ⟨0, 0, 2, 2⟩]
      (by decide) (by decide) (by decide) (List.Perm.swap _ _ _)).2 (by decide)⟩

/-- C17, as stated, fails: no canvas, list of groups with segments of `int` coordinates and
reordering of the segments of a visible group with partial alpha make `rasterize_geometry`
return different bytes. -/
theorem C17_no_reordering_changes_the_bytes :
    ¬ ∃ (view_w view_h : Int) (pre post : List FileSegments) (f : FileSegments)
        (lines2 : List Seg) (o1 o2 : List Nat),
      IsInt32 view_w ∧ IsInt32 view_h ∧ FilesInt32 (pre ++ f :: post) ∧
      f.visible = true ∧ 0 < f.rgba.2.2.2 ∧ f.rgba.2.2.2 < 255 ∧ lines2.Perm f.lines ∧
      ReturnsWith (fun fuel => rasterize_geometry fuel view_w view_h (pre ++ f :: post)) o1 ∧
      ReturnsWith (fun fuel =>
        rasterize_geometry fuel view_w view_h (pre ++ { f with lines := lines2 } :: post)) o2 ∧
      o1 ≠ o2 := by
  rintro ⟨view_w, view_h, pre, post, f, lines2, o1, o2, hW, hH, hfiles, _, _, _, hperm,
    ⟨N1, h1⟩, ⟨N2, h2⟩, hne⟩
  apply hne
  have e1 := h1 (max N1 N2) (le_max_left _ _)
  have e2 := h2 (max N1 N2) (le_max_right _ _)
  simp only [] at e1 e2
  rw [rasterize_reorder_run view_w view_h pre post f lines2 hW hH hfiles hperm, e1] at e2
  exact Except.ok.inj e2

/-! ## Private buffers per group -/

theorem count_le_one_of_nodup {α : Type} [BEq α] [LawfulBEq α] (l : List α) (a : α)
    (h : l.Nodup) : l.count a ≤ 1 := by
  by_cases ha : a ∈ l
  · rw [count_eq_one_of_nodup l a h ha]
  · rw [List.count_eq_zero.2 ha]
    omega

/-- One byte of a private pixel laid over a destination byte is the destination byte
blended directly, when the pixel was blended at most once or the alpha is 0 or 255. -/
theorem private_byte_eq {src a d n : Nat} (hs : src ≤ a) (ha : a < 256) (hd : d < 256)
    (hcase : n ≤ 1 ∨ a = 0 ∨ a = 255) :
    (over_byte src a)^[n] 0 + d * (255 - (over_byte a a)^[n] 0) / 255
      = (over_byte src a)^[n] d := by
  have h0 : n = 0 → (over_byte src a)^[n] 0 + d * (255 - (over_byte a a)^[n] 0) / 255
      = (over_byte src a)^[n] d := by
    rintro rfl
    simp only [Function.iterate_zero, id_eq]
    omega
  rcases hcase with h | h | h
  · rcases (by omega : n = 0 ∨ n = 1) with h1 | h1
    · exact h0 h1
    · subst h1
      simp only [Function.iterate_one]
      rw [over_byte_zero (by omega), over_byte_zero ha, over_byte_eq ha hs hd]
  · subst h
    have hs0 : src = 0 := by omega
    subst hs0
    rw [@over_byte_transparent_iterate n 0 (by omega),
      over_byte_transparent_iterate n hd]
    omega
  · subst h
    by_cases hn : n = 0
    · exact h0 hn
    · rw [over_byte_opaque_iterate (by omega) n 0 (by omega),
        over_byte_opaque_iterate (by omega) n 0 (by omega),
        over_byte_opaque_iterate (by omega) n d (by omega)]
      omega

theorem private_composite_over_getElem? (dst src : List Nat) (j : Nat) (hj : j < dst.length) :
    (private_composite_over dst src)[j]?
      = some (src.getD j 0 + dst.getD j 0 * (255 - src.getD (4 * (j / 4) + 3) 0) / 255) := by
  unfold private_composite_over
  rw [List.getElem?_map, List.getElem?_range hj]
  rfl

theorem filesInRange28_cons {f : FileSegments} {l : List FileSegments} :
    FilesInRange28 (f :: l) ↔ (∀ s ∈ f.lines, SegInRange28 s) ∧ FilesInRange28 l := by
  unfold FilesInRange28
  simp

theorem zero_canvas_eq {W H : Int} (hW : IsInt32 W) (hH : IsInt32 H) (hW0 : 0 < W)
    (hH0 : 0 < H) :
    List.replicate ((toSizeT W * toSizeT H * 4) % 18446744073709551616) 0
      = List.replicate (W * H * 4).toNat 0 := by
  have hlen := (replicate_zero_canvas hW hH hW0 hH0).length_eq
  rw [List.length_replicate] at hlen
  congr 1
  omega

/-- Laying the private buffer of a group over a well-formed canvas gives what rendering
the group directly on that canvas gives, for a group with `SingleCoverage` and segment
coordinates in `[-2^28, 2^28]`. -/
theorem private_group_eq {W H : Int} (hW : IsInt32 W) (hH : IsInt32 H) (hW0 : 0 < W)
    (hH0 : 0 < H) (f : FileSegments) (hf : ∀ s ∈ f.lines, SegInRange28 s)
    (hcov : SingleCoverage W H f) (img : List Nat) (himg : CanvasOK W H img) :
    ∃ b o, ReturnsWith (fun fuel => rasterize_geometry fuel W H [f]) b ∧
      ReturnsWith (fun fuel => render_file fuel W H img f) o ∧ CanvasOK W H o ∧
      private_composite_over img b = o := by
  have hz := replicate_zero_canvas hW hH hW0 hH0
  obtain ⟨b, hrb, hlb, hvb⟩ := render_file_spec hW hH hW0 hH0 f hf _ hz.length_eq
  obtain ⟨o, hro, hlo, hvo⟩ := render_file_spec hW hH hW0 hH0 f hf img himg.length_eq
  obtain ⟨o3, hr3, hc3⟩ := render_file_canvas hW hH hW0 hH0 img f himg hf
  have e3 : o = o3 := hro.unique hr3
  subst e3
  have hrb2 : ReturnsWith (fun fuel => rasterize_geometry fuel W H [f]) b := by
    obtain ⟨N, hN⟩ := returns_foldlM_singleton hrb
    refine ⟨N, fun fuel hfuel => ?_⟩
    show rasterize_geometry fuel W H [f] = Except.ok b
    rw [rasterize_geometry_eq_foldlM fuel hW0 hH0]
    exact hN fuel hfuel
  refine ⟨b, o, hrb2, hro, hc3, ?_⟩
  have hlenb : b.length = img.length := by
    have h1 := hz.length_eq
    have h2 := himg.length_eq
    rw [← hlb] at h1
    omega
  have ha : toUInt8 (clampi f.rgba.2.2.2 0 255) < 256 := toUInt8_lt _
  apply List.ext_getElem?
  intro j
  by_cases hj : j < img.length
  · have hiWH : ((j / 4 : Nat) : Int) < W * H := by
      have := himg.length_eq
      generalize W * H = z at *
      omega
    obtain ⟨x, y, hon, hidx⟩ := pixel_of_index hW0 (j / 4) hiWH
    have hlt := pixel_index_lt hon img himg.length_eq
    have hk : j % 4 < 4 := by omega
    have ej : pixel_index W x y + j % 4 = j := by omega
    -- the number of blends into the pixel, and the case it falls in
    have hcase : group_count f x y ≤ 1 ∨ toUInt8 (clampi f.rgba.2.2.2 0 255) = 0 ∨
        toUInt8 (clampi f.rgba.2.2.2 0 255) = 255 := by
      rcases hcov with h | h | h | h
      · left
        unfold group_count
        rw [h]
        simp
      · right; left
        unfold toUInt8 clampi
        split
        · rfl
        · omega
      · right; right
        unfold toUInt8 clampi
        split
        · omega
        · split
          · rfl
          · omega
      · left
        unfold group_count
        split
        · rw [← List.count_filter (p := fun c => decide (OnCanvas W H c.1 c.2))
            (by simpa using hon)]
          exact count_le_one_of_nodup _ _ h
        · omega
    have hbk : ∀ k, k < 4 → b.getD (pixel_index W x y + k) 0
        = (over_byte (channel_src
              (premul (toUInt8 (clampi f.rgba.1 0 255)) (toUInt8 (clampi f.rgba.2.2.2 0 255)))
              (premul (toUInt8 (clampi f.rgba.2.1 0 255)) (toUInt8 (clampi f.rgba.2.2.2 0 255)))
              (premul (toUInt8 (clampi f.rgba.2.2.1 0 255)) (toUInt8 (clampi f.rgba.2.2.2 0 255)))
              (toUInt8 (clampi f.rgba.2.2.2 0 255)) k)
            (toUInt8 (clampi f.rgba.2.2.2 0 255)))^[group_count f x y] 0 := by
      intro k hk4
      have hin : pixel_index W x y + k < (List.replicate
          ((toSizeT W * toSizeT H * 4) % 18446744073709551616) 0).length := by
        rw [hlb] at hlenb
        omega
      rw [List.getD_eq_getElem?_getD, hvb x y hon k hk4, List.getElem?_eq_getElem hin,
        Option.map_some', Option.getD_some]
      congr 1
      exact List.getElem_replicate _ _
    have hsrc : ∀ k, k < 4 → channel_src
        (premul (toUInt8 (clampi f.rgba.1 0 255)) (toUInt8 (clampi f.rgba.2.2.2 0 255)))
        (premul (toUInt8 (clampi f.rgba.2.1 0 255)) (toUInt8 (clampi f.rgba.2.2.2 0 255)))
        (premul (toUInt8 (clampi f.rgba.2.2.1 0 255)) (toUInt8 (clampi f.rgba.2.2.2 0 255)))
        (toUInt8 (clampi f.rgba.2.2.2 0 255)) k ≤ toUInt8 (clampi f.rgba.2.2.2 0 255) := by
      intro k hk4
      rcases (by omega : k = 0 ∨ k = 1 ∨ k = 2 ∨ k = 3) with rfl | rfl | rfl | rfl
      · exact premul_le (toUInt8_lt _) ha
      · exact premul_le (toUInt8_lt _) ha
      · exact premul_le (toUInt8_lt _) ha
      · exact le_refl _
    have hd : img.getD j 0 < 256 := by
      rw [List.getD_eq_getElem?_getD, List.getElem?_eq_getElem hj, Option.getD_some]
      exact himg.bytes _ (List.getElem_mem _)
    have e43 : 4 * (j / 4) + 3 = pixel_index W x y + 3 := by omega
    rw [private_composite_over_getElem? img b j hj, e43, hbk 3 (by omega)]
    have hbj := hbk (j % 4) hk
    rw [ej] at hbj
    rw [hbj]
    have hoj := hvo x y hon (j % 4) hk
    rw [ej, List.getElem?_eq_getElem hj, Option.map_some'] at hoj
    rw [hoj]
    congr 1
    have hgetd : img.getD j 0 = img[j] := by
      rw [List.getD_eq_getElem?_getD, List.getElem?_eq_getElem hj, Option.getD_some]
    rw [← hgetd]
    have h3 : channel_src
        (premul (toUInt8 (clampi f.rgba.1 0 255)) (toUInt8 (clampi f.rgba.2.2.2 0 255)))
        (premul (toUInt8 (clampi f.rgba.2.1 0 255)) (toUInt8 (clampi f.rgba.2.2.2 0 255)))
        (premul (toUInt8 (clampi f.rgba.2.2.1 0 255)) (toUInt8 (clampi f.rgba.2.2.2 0 255)))
        (toUInt8 (clampi f.rgba.2.2.2 0 255)) 3 = toUInt8 (clampi f.rgba.2.2.2 0 255) := rfl
    rw [h3]
    exact private_byte_eq (hsrc (j % 4) hk) ha hd hcase
  · have hlen2 : (private_composite_over img b).length = img.length := by
      unfold private_composite_over
      simp
    rw [List.getElem?_eq_none (by omega), List.getElem?_eq_none (by omega)]

/-- The private buffers of the groups, laid one after the other over a well-formed canvas,
give what the loop over the groups gives from that canvas. -/
theorem private_buffers_foldl {W H : Int} (hW : IsInt32 W) (hH : IsInt32 H) (hW0 : 0 < W)
    (hH0 : 0 < H) :
    ∀ (files : List FileSegments), FilesInRange28 files → (∀ f ∈ files, SingleCoverage W H f) →
    ∀ (img : List Nat), CanvasOK W H img →
      ∃ bufs out, ReturnsWith (fun fuel => private_buffers fuel W H files) bufs ∧
        ReturnsWith (fun fuel => files.foldlM (render_file fuel W H) img) out ∧
        bufs.foldl private_composite_over img = out := by
  intro files
  induction files with
  | nil =>
    intro _ _ img _
    exact ⟨[], img, ⟨0, fun fuel _ => rfl⟩,
      ⟨0, fun fuel _ => by simp [List.foldlM, pure, Except.pure]⟩, rfl⟩
  | cons f fs ih =>
    intro hfiles hcov img himg
    obtain ⟨hf, hfs⟩ := filesInRange28_cons.1 hfiles
    obtain ⟨b, o, ⟨N1, hN1⟩, ⟨N2, hN2⟩, hco, hcomp⟩ := private_group_eq hW hH hW0 hH0 f hf
      (hcov f (List.mem_cons_self f fs)) img himg
    obtain ⟨bufs, out, ⟨N3, hN3⟩, ⟨N4, hN4⟩, hfold⟩ := ih hfs
      (fun g hg => hcov g (List.mem_cons_of_mem f hg)) o hco
    refine ⟨b :: bufs, out, ⟨max N1 N3, fun fuel hfuel => ?_⟩, ⟨max N2 N4, fun fuel hfuel => ?_⟩, ?_⟩
    · have e1 := hN1 fuel (le_trans (le_max_left N1 N3) hfuel)
      have e3 := hN3 fuel (le_trans (le_max_right N1 N3) hfuel)
      simp only [] at e1 e3
      show private_buffers fuel W H (f :: fs) = Except.ok (b :: bufs)
      rw [private_buffers, e1, e3]
    · have e2 := hN2 fuel (le_trans (le_max_left N2 N4) hfuel)
      have e4 := hN4 fuel (le_trans (le_max_right N2 N4) hfuel)
      simp only [] at e2 e4
      simp only [List.foldlM, bind, Except.bind, e2]
      exact e4
    · rw [List.foldl_cons, hcomp]
      exact hfold

/-- C18, as amended: per-group private buffers preserve the result when no group with
partial alpha blends a pixel of the canvas more than once. For every positive canvas size
and every list of groups with segment coordinates in `[-2^28, 2^28]`, each of which is
invisible, has alpha at most 0 or at least 255, or visits no coordinate of the canvas
twice, rendering each group alone and compositing the private buffers in caller order
gives exactly the bytes `rasterize_geometry` returns. -/
theorem C18_private_buffers_single_coverage (view_w view_h : Int) (files : List FileSegments)
    (hW : IsInt32 view_w) (hH : IsInt32 view_h) (hW0 : 0 < view_w) (hH0 : 0 < view_h)
    (hfiles : FilesInRange28 files) (hcov : ∀ f ∈ files, SingleCoverage view_w view_h f) :
    ∃ out, ReturnsWith (fun fuel => rasterize_geometry fuel view_w view_h files) out ∧
      ReturnsWith (fun fuel => rasterize_private fuel view_w view_h files) out := by
  obtain ⟨bufs, out, ⟨N1, hN1⟩, ⟨N2, hN2⟩, hfold⟩ := private_buffers_foldl hW hH hW0 hH0 files
    hfiles hcov _ (replicate_zero_canvas hW hH hW0 hH0)
  refine ⟨out, ⟨N2, fun fuel hfuel => ?_⟩, ⟨N1, fun fuel hfuel => ?_⟩⟩
  · show rasterize_geometry fuel view_w view_h files = Except.ok out
    rw [rasterize_geometry_eq_foldlM fuel hW0 hH0]
    exact hN2 fuel hfuel
  · have e1 := hN1 fuel hfuel
    simp only [] at e1
    show rasterize_private fuel view_w view_h files = Except.ok out
    unfold rasterize_private
    rw [e1, ← zero_canvas_eq hW hH hW0 hH0]
    simp only [hfold]

/-- An instance of C18: a canvas 2 x 2, a translucent diagonal below a translucent group
of two segments that do not meet. -/
theorem C18_private_buffers_single_coverage_witness :
    IsInt32 2 ∧
    FilesInRange28 [⟨[⟨0, 0, 1, 1⟩], (255, 0, 0, 128), true⟩,
      ⟨[⟨0, 0, 1, 0⟩, ⟨0, 1, 1, 1⟩], (0, 0, 255, 128), true⟩] ∧
    (∀ f ∈ [(⟨[⟨0, 0, 1, 1⟩], (255, 0, 0, 128), true⟩ : FileSegments),
      ⟨[⟨0, 0, 1, 0⟩, ⟨0, 1, 1, 1⟩], (0, 0, 255, 128), true⟩], SingleCoverage 2 2 f) ∧
    ∃ out,
      ReturnsWith (fun fuel => rasterize_geometry fuel 2 2
        [⟨[⟨0, 0, 1, 1⟩], (255, 0, 0, 128), true⟩,
          ⟨[⟨0, 0, 1, 0⟩, ⟨0, 1, 1, 1⟩], (0, 0, 255, 128), true⟩]) out ∧
      ReturnsWith (fun fuel => rasterize_private fuel 2 2
        [⟨[⟨0, 0, 1, 1⟩], (255, 0, 0, 128), true⟩,
          ⟨[⟨0, 0, 1, 0⟩, ⟨0, 1, 1, 1⟩], (0, 0, 255, 128), true⟩]) out :=
  ⟨by decide, by decide, by decide,
    C18_private_buffers_single_coverage 2 2
      [⟨[⟨0, 0, 1, 1⟩], (255, 0, 0, 128), true⟩,
        ⟨[⟨0, 0, 1, 0⟩, ⟨0, 1, 1, 1⟩], (0, 0, 255, 128), true⟩]
      (by decide) (by decide) (by decide) (by decide) (by decide) (by decide)⟩

/-- C18, as stated, fails: on the canvas 1 x 1, with a red group of alpha 128 below a blue
group of alpha 128 that draws the pixel twice, `rasterize_geometry` returns
`[191, 0, 31, 223]` and the private buffers composite to `[191, 0, 32, 223]`. -/
theorem C18_private_buffers_differ :
    ReturnsWith (fun fuel => rasterize_geometry fuel 1 1
      [⟨[⟨0, 0, 0, 0⟩], (255, 0, 0, 128), true⟩,
        ⟨[⟨0, 0, 0, 0⟩, ⟨0, 0, 0, 0⟩], (0, 0, 255, 128), true⟩]) [191, 0, 31, 223] ∧
    ReturnsWith (fun fuel => rasterize_private fuel 1 1
      [⟨[⟨0, 0, 0, 0⟩], (255, 0, 0, 128), true⟩,
        ⟨[⟨0, 0, 0, 0⟩, ⟨0, 0, 0, 0⟩], (0, 0, 255, 128), true⟩]) [191, 0, 32, 223] ∧
    ([191, 0, 31, 223] : List Nat) ≠ [191, 0, 32, 223] := by
  refine ⟨⟨1, fun fuel hfuel => ?_⟩, ⟨1, fun fuel hfuel => ?_⟩, by decide⟩
  · obtain ⟨n, rfl⟩ : ∃ n, fuel = n + 1 := ⟨fuel - 1, by omega⟩
    rfl
  · obtain ⟨n, rfl⟩ : ∃ n, fuel = n + 1 := ⟨fuel - 1, by omega⟩
    rfl

/-! ## The error term of the tracer -/

end PreviewAccel
